import Mathlib

/-!
Level converter: the streaming JSON writer and the record projection.

A shallow embedding of `level_converter/src/main.cpp`.

* A `std::string` is a `List Char`; every C++ `char` is one `Char`.
* The `ostream` a writer is bound to is the list of characters written to it so far.
* Every operation that can leave the program without a result (a loop that does not
  terminate, `std::length_error` thrown by `string(n, c)`, `stack::top` on an empty stack)
  returns `none`.
* The writer's `int i` is an unbounded `Int`: it changes by one per container, so the
  32-bit range is never the limiting factor for a call sequence that fits in memory.
-/

namespace LevelConverter

/-! ## `sub` and `quote` (main.cpp, lines 8 to 22) -/

/-- The scan of `string::find`: try `n` start positions upwards from `j`. -/
def findAux (str oldStr : List Char) : Nat → Nat → Option Nat
  | 0, _ => none
  | n + 1, j =>
    if oldStr.isPrefixOf (str.drop j) then some j else findAux str oldStr n (j + 1)

/-- The call `str.find(oldStr, pos)`: the least position `j` with `pos ≤ j ≤ str.size()` at
which `oldStr` occurs, `none` standing for `string::npos`. -/
def find (str oldStr : List Char) (pos : Nat) : Option Nat :=
  findAux str oldStr (str.length + 1 - pos) pos

/-- The call `str.replace(str.begin() + i, str.begin() + i + len, newStr.begin(), newStr.end())`. -/
def replace (str : List Char) (i len : Nat) (newStr : List Char) : List Char :=
  str.take i ++ newStr ++ str.drop (i + len)

/-- The `while` loop of `sub`, one iteration per unit of fuel; `none` when the fuel runs out
before `find` reports `npos`. -/
def subLoop (oldStr newStr : List Char) : Nat → List Char → Nat → Option (List Char)
  | 0, _, _ => none
  | fuel + 1, str, i =>
    match find str oldStr i with
    | none => some str
    | some j =>
      subLoop oldStr newStr fuel (replace str j oldStr.length newStr) (j + newStr.length)

/-- The function `sub(str, oldStr, newStr)`, run with `str.size() + 1` iterations of fuel
(enough for every non-empty `oldStr`, see `sub_eq_replaceAll`). -/
def sub (str oldStr newStr : List Char) : Option (List Char) :=
  subLoop oldStr newStr (str.length + 1) str 0

/-- The double quote character. -/
def dq : Char := '\x22'

/-- The backslash character. -/
def bsl : Char := '\x5c'

/-- The function `quote(str)`: both `sub` passes, then the surrounding quotes. -/
def quote (str : List Char) : Option (List Char) :=
  (sub str [bsl] [bsl, bsl]).bind fun a =>
  (sub a [dq] [bsl, dq]).bind fun b =>
  some (dq :: b ++ [dq])

/-! ## `val` (main.cpp, lines 24 to 28) -/

/-- The decimal digit with value `d`. -/
def digitChar (d : Nat) : Char := Char.ofNat (48 + d)

/-- Decimal digits of `n`, most significant first, with `fuel` bounding the number of digits. -/
def decimalAux : Nat → Nat → List Char
  | 0, n => [digitChar n]
  | fuel + 1, n =>
    if n < 10 then [digitChar n] else decimalAux fuel (n / 10) ++ [digitChar (n % 10)]

/-- The text `operator<<` writes for a non-negative integer. -/
def decimalNat (n : Nat) : List Char := decimalAux n n

/-- The text `operator<<` writes for an integer. -/
def decimal (n : Int) : List Char :=
  if n < 0 then '-' :: decimalNat n.natAbs else decimalNat n.toNat

/-- The scalar kinds `convert` passes to the writer: integers (the generic `val`), booleans
(`val<bool>`) and text (`val<string>`, `val<const char *>`). -/
inductive Scalar where
  | int (n : Int)
  | bool (b : Bool)
  | str (s : List Char)
  deriving DecidableEq, Repr

/-- The text `val(o, value)` writes. -/
def val : Scalar → Option (List Char)
  | .int n => some (decimal n)
  | .bool b => some (if b then "true".toList else "false".toList)
  | .str s => quote s

/-! ## The class `JSON` (main.cpp, lines 30 to 110) -/

/-- The anonymous `enum { ARRAY, OBJECT }`. -/
inductive Kind where
  | ARRAY
  | OBJECT
  deriving DecidableEq, Repr

/-- The data members of `JSON`; `s` has the top of the stack at its head and `o` is the text
written to the stream since the writer was constructed. -/
structure JSON where
  pack : Bool
  s : List Kind
  o : List Char
  first : Bool
  i : Int
  deriving DecidableEq, Repr

namespace JSON

/-- The member `indent()`: `string(2 * i, ' ')` throws when `2 * i` is negative. -/
def indent (j : JSON) : Option (List Char) :=
  if j.pack then some []
  else if 0 ≤ 2 * j.i then some (List.replicate (2 * j.i).toNat ' ')
  else none

/-- The member `in_array()`. -/
def in_array (j : JSON) : Bool :=
  match j.s with
  | [] => false
  | t :: _ => decide (t = Kind.ARRAY)

/-- The member `newline_indent()`. -/
def newline_indent (j : JSON) : Option JSON :=
  j.indent.bind fun ind =>
  some { j with
    o := j.o ++ (if j.pack then (if j.first then [] else [','])
                 else (if j.first then ['\n'] else [',', '\n'])) ++ ind
    first := false }

/-- The constructor `JSON(out, should_pack)`. -/
def new (should_pack : Bool) : JSON :=
  { pack := should_pack, s := [], o := ['{'], first := true, i := 1 }

/-- The destructor: the text of the stream once the writer is gone. -/
def finish (j : JSON) : List Char :=
  j.o ++ (if j.pack then ['}'] else ['\n', '}', '\n'])

/-- The member `name(name)`, the `key` operation of the specification. -/
def name (nm : List Char) (j : JSON) : Option JSON :=
  j.newline_indent.bind fun j1 =>
  some { j1 with
    o := j1.o ++ [dq] ++ nm ++ [dq, ':'] ++ (if j1.pack then [] else [' '])
    first := false }

/-- The scalar overload `value(x)`. -/
def value (x : Scalar) (j : JSON) : Option JSON :=
  (if j.in_array then j.newline_indent else some j).bind fun j1 =>
  (val x).bind fun tx =>
  some { j1 with o := j1.o ++ tx }

/-- The pair overload `value(x, y)`. -/
def value2 (x y : Scalar) (j : JSON) : Option JSON :=
  (if j.in_array then j.newline_indent else some j).bind fun j1 =>
  (val x).bind fun tx =>
  (val y).bind fun ty =>
  some { j1 with
    o := j1.o ++ ['['] ++ tx ++ [','] ++ (if j1.pack then [] else [' ']) ++ ty ++ [']'] }

/-- The member `array()`. -/
def array (j : JSON) : Option JSON :=
  (if j.in_array then j.newline_indent else some j).bind fun j1 =>
  some { j1 with o := j1.o ++ ['['], first := true, i := j1.i + 1, s := Kind.ARRAY :: j1.s }

/-- The member `object()`. -/
def object (j : JSON) : Option JSON :=
  (if j.in_array then j.newline_indent else some j).bind fun j1 =>
  some { j1 with o := j1.o ++ ['{'], first := true, i := j1.i + 1, s := Kind.OBJECT :: j1.s }

/-- The member `end()`; `s.top()` on an empty stack has no defined result. -/
def end_ (j : JSON) : Option JSON :=
  match j.s with
  | [] => none
  | t :: rest =>
    let j1 := { j with first := false, i := j.i - 1 }
    j1.indent.bind fun ind =>
    some { j1 with
      o := j1.o ++ (if j1.pack then [] else ['\n']) ++ ind
             ++ [if t = Kind.ARRAY then ']' else '}']
      s := rest }

end JSON

/-- One call on a writer. -/
inductive Call where
  | name (nm : List Char)
  | value (x : Scalar)
  | value2 (x y : Scalar)
  | array
  | object
  | end_
  deriving DecidableEq, Repr

/-- Perform one call. -/
def JSON.step (j : JSON) : Call → Option JSON
  | .name nm => j.name nm
  | .value x => j.value x
  | .value2 x y => j.value2 x y
  | .array => j.array
  | .object => j.object
  | .end_ => j.end_

/-- Perform a sequence of calls, in order. -/
def JSON.run : List Call → JSON → Option JSON
  | [], j => some j
  | c :: cs, j => (j.step c).bind (JSON.run cs)

/-- The whole text of a document: construct a writer, perform the calls, destroy it. -/
def document (should_pack : Bool) (cs : List Call) : Option (List Char) :=
  (JSON.run cs (JSON.new should_pack)).map JSON.finish

/-! ## A reference JSON reader (RFC 8259)

The claims speak of the written text being valid JSON and of what it parses back to. The
reader below is the yardstick: a lexer and a recursive-descent parser for the grammar of
RFC 8259. A string literal may not contain a raw control character (below U+0020), and a
backslash must start one of the escapes of section 7. -/

/-- A parsed JSON value; object members are kept in document order. -/
inductive JVal where
  | null
  | bool (b : Bool)
  | num (n : Int)
  | real (lexeme : List Char)
  | str (s : List Char)
  | arr (xs : List JVal)
  | obj (ms : List (List Char × JVal))

/-- A lexical token of JSON. -/
inductive Token where
  | lbrace
  | rbrace
  | lbrack
  | rbrack
  | comma
  | colon
  | null
  | bool (b : Bool)
  | num (n : Int)
  | real (lexeme : List Char)
  | str (s : List Char)
  deriving DecidableEq, Repr

/-- Insignificant whitespace: space, tab, line feed, carriage return. -/
def isWs (c : Char) : Bool := c = ' ' || c = '\t' || c = '\n' || c = '\r'

/-- Value of a hexadecimal digit. -/
def hexVal (c : Char) : Option Nat :=
  if 48 ≤ c.toNat ∧ c.toNat ≤ 57 then some (c.toNat - 48)
  else if 97 ≤ c.toNat ∧ c.toNat ≤ 102 then some (c.toNat - 87)
  else if 65 ≤ c.toNat ∧ c.toNat ≤ 70 then some (c.toNat - 55)
  else none

/-- Value of four hexadecimal digits. -/
def hex4 (a b c d : Char) : Option Nat :=
  (hexVal a).bind fun x => (hexVal b).bind fun y => (hexVal c).bind fun z =>
  (hexVal d).bind fun w => some (((x * 16 + y) * 16 + z) * 16 + w)

/-- The character a two-character escape stands for. -/
def simpleEscape (e : Char) : Option Char :=
  if e = dq then some dq
  else if e = bsl then some bsl
  else if e = '/' then some '/'
  else if e = 'b' then some (Char.ofNat 8)
  else if e = 'f' then some (Char.ofNat 12)
  else if e = 'n' then some '\n'
  else if e = 'r' then some '\r'
  else if e = 't' then some '\t'
  else none

/-- Decode a `\u` escape, the backslash and the `u` already consumed: four hexadecimal
digits, and for the first half of a surrogate pair the second half as well. -/
def unicodeEscape (cs : List Char) : Option (Char × List Char) :=
  match cs with
  | a :: b :: x :: y :: cs1 =>
    (hex4 a b x y).bind fun hi =>
      if 0xD800 ≤ hi ∧ hi < 0xDC00 then
        match cs1 with
        | b1 :: u1 :: a2 :: b2 :: x2 :: y2 :: cs2 =>
          if b1 = bsl ∧ u1 = 'u' then
            (hex4 a2 b2 x2 y2).bind fun lo =>
              if 0xDC00 ≤ lo ∧ lo < 0xE000 then
                some (Char.ofNat (0x10000 + (hi - 0xD800) * 0x400 + (lo - 0xDC00)), cs2)
              else none
          else none
        | _ => none
      else if 0xDC00 ≤ hi ∧ hi < 0xE000 then none
      else some (Char.ofNat hi, cs1)
  | _ => none

/-- Read the body of a string literal, the opening quote already consumed: the decoded
characters and the text after the closing quote. A raw control character ends the reading
with an error, and so does a backslash that starts no escape. -/
def lexString : Nat → List Char → Option (List Char × List Char)
  | 0, _ => none
  | _ + 1, [] => none
  | fuel + 1, c :: cs =>
    if c = dq then some ([], cs)
    else if c = bsl then
      match cs with
      | [] => none
      | e :: cs1 =>
        if e = 'u' then
          (unicodeEscape cs1).bind fun q => (lexString fuel q.2).map fun p => (q.1 :: p.1, p.2)
        else
          (simpleEscape e).bind fun ch => (lexString fuel cs1).map fun p => (ch :: p.1, p.2)
    else if c.toNat < 32 then none
    else (lexString fuel cs).map fun p => (c :: p.1, p.2)

/-- Decode a complete JSON string literal. -/
def jsonString (text : List Char) : Option (List Char) :=
  match text with
  | [] => none
  | c :: cs =>
    if c = dq then
      match lexString (cs.length + 1) cs with
      | some (s, []) => some s
      | _ => none
    else none

/-- Value of a run of decimal digits. -/
def digitsValue (ds : List Char) : Nat :=
  ds.foldl (fun a c => 10 * a + (c.toNat - 48)) 0

/-- The optional fraction part of a number: its lexeme (empty when absent) and the rest. -/
def lexFrac (r : List Char) : Option (List Char × List Char) :=
  match r with
  | [] => some ([], [])
  | c :: r1 =>
    if c = '.' then
      if r1.takeWhile Char.isDigit = [] then none
      else some ('.' :: r1.takeWhile Char.isDigit, r1.dropWhile Char.isDigit)
    else some ([], c :: r1)

/-- The optional exponent part of a number: its lexeme (empty when absent) and the rest. -/
def lexExp (r : List Char) : Option (List Char × List Char) :=
  match r with
  | [] => some ([], [])
  | e :: r1 =>
    if e = 'e' ∨ e = 'E' then
      let sg := match r1 with
        | s :: _ => if s = '+' ∨ s = '-' then [s] else []
        | [] => []
      let r2 := r1.drop sg.length
      if r2.takeWhile Char.isDigit = [] then none
      else some (e :: sg ++ r2.takeWhile Char.isDigit, r2.dropWhile Char.isDigit)
    else some ([], e :: r1)

/-- Read a number after its optional minus sign: an integer part without a superfluous
leading zero, then an optional fraction and exponent. A number with neither is an integer
token. -/
def lexUnsigned (neg : Bool) (cs : List Char) : Option (Token × List Char) :=
  if cs.takeWhile Char.isDigit = [] then none
  else if 1 < (cs.takeWhile Char.isDigit).length ∧ (cs.takeWhile Char.isDigit).head? = some '0'
  then none
  else
    (lexFrac (cs.dropWhile Char.isDigit)).bind fun fr =>
    (lexExp fr.2).bind fun ex =>
      if fr.1 = [] ∧ ex.1 = [] then
        some (Token.num (if neg then -(digitsValue (cs.takeWhile Char.isDigit) : Int)
                         else (digitsValue (cs.takeWhile Char.isDigit) : Int)), ex.2)
      else
        some (Token.real ((if neg then ['-'] else []) ++ cs.takeWhile Char.isDigit
                ++ fr.1 ++ ex.1), ex.2)

/-- Read a number: an optional minus sign, then `lexUnsigned`. -/
def lexNumber (cs : List Char) : Option (Token × List Char) :=
  match cs with
  | [] => none
  | c :: r => if c = '-' then lexUnsigned true r else lexUnsigned false (c :: r)

/-- Read what starts with the character `c`: `some (none, rest)` for insignificant
whitespace, `some (some t, rest)` for a token, `none` when no token starts there. -/
def lexToken (c : Char) (cs : List Char) : Option (Option Token × List Char) :=
  if isWs c then some (none, cs)
  else if c = '{' then some (some Token.lbrace, cs)
  else if c = '}' then some (some Token.rbrace, cs)
  else if c = '[' then some (some Token.lbrack, cs)
  else if c = ']' then some (some Token.rbrack, cs)
  else if c = ',' then some (some Token.comma, cs)
  else if c = ':' then some (some Token.colon, cs)
  else if c = dq then
    (lexString (cs.length + 1) cs).map fun p => (some (Token.str p.1), p.2)
  else if c = '-' ∨ c.isDigit then
    (lexNumber (c :: cs)).map fun p => (some p.1, p.2)
  else if ['t', 'r', 'u', 'e'].isPrefixOf (c :: cs) then some (some (Token.bool true), cs.drop 3)
  else if ['f', 'a', 'l', 's', 'e'].isPrefixOf (c :: cs) then
    some (some (Token.bool false), cs.drop 4)
  else if ['n', 'u', 'l', 'l'].isPrefixOf (c :: cs) then some (some Token.null, cs.drop 3)
  else none

/-- The lexer: split a text into tokens, dropping insignificant whitespace. -/
def lex : Nat → List Char → Option (List Token)
  | _, [] => some []
  | 0, _ :: _ => none
  | fuel + 1, c :: cs =>
    (lexToken c cs).bind fun p =>
      (lex fuel p.2).map fun ts =>
        match p.1 with
        | some t => t :: ts
        | none => ts

mutual
/-- Parse one value from the front of a token list. -/
def parseValue : Nat → List Token → Option (JVal × List Token)
  | 0, _ => none
  | _ + 1, [] => none
  | fuel + 1, t :: ts =>
    match t with
    | .null => some (.null, ts)
    | .bool b => some (.bool b, ts)
    | .num n => some (.num n, ts)
    | .real l => some (.real l, ts)
    | .str s => some (.str s, ts)
    | .lbrack =>
      match ts with
      | .rbrack :: ts1 => some (.arr [], ts1)
      | _ => (parseElems fuel ts).map fun p => (.arr p.1, p.2)
    | .lbrace =>
      match ts with
      | .rbrace :: ts1 => some (.obj [], ts1)
      | _ => (parseMembers fuel ts).map fun p => (.obj p.1, p.2)
    | _ => none
/-- Parse the elements of a non-empty array up to and including the closing bracket. -/
def parseElems : Nat → List Token → Option (List JVal × List Token)
  | 0, _ => none
  | fuel + 1, ts =>
    (parseValue fuel ts).bind fun p =>
      match p.2 with
      | .comma :: ts2 => (parseElems fuel ts2).map fun q => (p.1 :: q.1, q.2)
      | .rbrack :: ts2 => some ([p.1], ts2)
      | _ => none
/-- Parse the members of a non-empty object up to and including the closing brace. -/
def parseMembers : Nat → List Token → Option (List (List Char × JVal) × List Token)
  | 0, _ => none
  | fuel + 1, .str k :: .colon :: ts =>
    (parseValue fuel ts).bind fun p =>
      match p.2 with
      | .comma :: ts2 => (parseMembers fuel ts2).map fun q => ((k, p.1) :: q.1, q.2)
      | .rbrace :: ts2 => some ([(k, p.1)], ts2)
      | _ => none
  | _ + 1, _ => none
end

/-- Parse a complete JSON text: one value, nothing but whitespace around it. -/
def jsonParse (text : List Char) : Option JVal :=
  (lex (text.length + 1) text).bind fun toks =>
  (parseValue (toks.length + 1) toks).bind fun p =>
    match p.2 with
    | [] => some p.1
    | _ => none

/-! ## The projection `convert` (main.cpp, lines 138 to 213)

`world.pb.h` is not part of the sources. The decoded record is a structure with one field per
accessor `convert` calls; what the header would have fixed (the values of two enum constants,
the integer type of the dimensions) is the parameter `Schema`. -/

/-- The C++ integer types a protobuf integer field can have. -/
inductive IntType where
  | int32
  | int64
  | uint32
  | uint64
  deriving DecidableEq, Repr

/-- The width of the type in bits. -/
def IntType.bits : IntType → Nat
  | .int32 => 32
  | .int64 => 64
  | .uint32 => 32
  | .uint64 => 64

/-- Whether the type is signed. -/
def IntType.signed : IntType → Bool
  | .int32 => true
  | .int64 => true
  | .uint32 => false
  | .uint64 => false

/-- The value an arithmetic result has in the type: reduced modulo `2 ^ bits`, into the
two's-complement range when the type is signed (what mainstream compilers produce for a
signed overflow, which the C++ standard leaves undefined). -/
def IntType.wrap (t : IntType) (v : Int) : Int :=
  if t.signed then (v + 2 ^ (t.bits - 1)) % 2 ^ t.bits - 2 ^ (t.bits - 1)
  else v % 2 ^ t.bits

/-- The values the type can represent. -/
def IntType.holds (t : IntType) (v : Int) : Prop :=
  if t.signed then -(2 ^ (t.bits - 1)) ≤ v ∧ v < 2 ^ (t.bits - 1)
  else 0 ≤ v ∧ v < 2 ^ t.bits

instance (t : IntType) (v : Int) : Decidable (t.holds v) := by
  unfold IntType.holds
  exact inferInstance

/-- Modelled from the spec: the declarations of `world.pb.h` that `convert` relies on, namely
the enum constants `FileDoor::ONE_WAY` and `FileDoor::DOOR_OPEN` and the integer type in which
`world.width() * 8` and `world.height() * 8` are computed. -/
structure Schema where
  ONE_WAY : Int
  DOOR_OPEN : Int
  dim : IntType
  deriving DecidableEq, Repr

/-- Modelled from the spec: the accessors of a decoded door. -/
structure FileDoor where
  start_x : Int
  start_y : Int
  end_x : Int
  end_y : Int
  type : Int
  state : Int
  color : Int
  deriving DecidableEq, Repr

/-- Modelled from the spec: the accessors of a decoded cog. -/
structure FileCog where
  cog_x : Int
  cog_y : Int
  deriving DecidableEq, Repr

/-- Modelled from the spec: the accessors of a decoded button. -/
structure FileButton where
  behavior : Int
  position_x : Int
  position_y : Int
  door_index : List Int
  color : Int
  deriving DecidableEq, Repr

/-- Modelled from the spec: the accessors of a decoded sign. -/
structure FileSign where
  sign_x : Int
  sign_y : Int
  text : List Char
  deriving DecidableEq, Repr

/-- Modelled from the spec: the accessors of a decoded enemy; `type_name` is the string
`FileEnemy_EnemyType_Name(enemy.type())` returns. -/
structure FileEnemy where
  type_name : List Char
  center_x : Int
  center_y : Int
  color : Int
  angle : Int
  deriving DecidableEq, Repr

/-- Modelled from the spec: the accessors of a decoded record. -/
structure FileWorld where
  unique_id : Int
  width : Int
  height : Int
  players_start_x : Int
  players_start_y : Int
  players_end_x : Int
  players_end_y : Int
  door : List FileDoor
  cog : List FileCog
  button : List FileButton
  sign : List FileSign
  enemy : List FileEnemy
  deriving DecidableEq, Repr

/-- The calls of lines 139 to 144. -/
def headCalls (sch : Schema) (world : FileWorld) : List Call :=
  [ .name "unique_id".toList, .value (.int world.unique_id),
    .name "width".toList, .value (.int (sch.dim.wrap (world.width * 8))),
    .name "height".toList, .value (.int (sch.dim.wrap (world.height * 8))),
    .name "start".toList, .value2 (.int world.players_start_x) (.int world.players_start_y),
    .name "end".toList, .value2 (.int world.players_end_x) (.int world.players_end_y),
    .name "entities".toList, .array ]

/-- The calls of one iteration of the door loop. -/
def doorCalls (sch : Schema) (door : FileDoor) : List Call :=
  [ .object,
    .name "class".toList, .value (.str "wall".toList),
    .name "start".toList, .value2 (.int door.start_x) (.int door.start_y),
    .name "end".toList, .value2 (.int door.end_x) (.int door.end_y),
    .name "oneway".toList, .value (.bool (decide (door.type = sch.ONE_WAY))),
    .name "open".toList, .value (.bool (decide (door.state = sch.DOOR_OPEN))),
    .name "color".toList, .value (.int door.color),
    .end_ ]

/-- The calls of one iteration of the cog loop. -/
def cogCalls (cog : FileCog) : List Call :=
  [ .object,
    .name "class".toList, .value (.str "cog".toList),
    .name "pos".toList, .value2 (.int cog.cog_x) (.int cog.cog_y),
    .end_ ]

/-- The calls of one iteration of the button loop. -/
def buttonCalls (button : FileButton) : List Call :=
  [ .object,
    .name "class".toList, .value (.str "button".toList),
    .name "type".toList, .value (.int button.behavior),
    .name "pos".toList, .value2 (.int button.position_x) (.int button.position_y),
    .name "walls".toList, .array ]
  ++ button.door_index.map (fun d => Call.value (.int d))
  ++ [ .end_,
       .name "color".toList, .value (.int button.color),
       .end_ ]

/-- The calls of one iteration of the sign loop. -/
def signCalls (sign : FileSign) : List Call :=
  [ .object,
    .name "class".toList, .value (.str "sign".toList),
    .name "pos".toList, .value2 (.int sign.sign_x) (.int sign.sign_y),
    .name "text".toList, .value (.str sign.text),
    .end_ ]

/-- Lines 198 to 201: the enemy type name made into the text written under `type`. -/
def enemyType (type_name : List Char) : Option (List Char) :=
  (sub type_name "ENEMY_".toList []).bind fun a =>
  (sub a ['_'] [' ']).bind fun b =>
  some (b.map Char.toLower)

/-- The calls of one iteration of the enemy loop. -/
def enemyCalls (enemy : FileEnemy) : Option (List Call) :=
  (enemyType enemy.type_name).bind fun type =>
  some
    [ .object,
      .name "class".toList, .value (.str "enemy".toList),
      .name "type".toList, .value (.str type),
      .name "pos".toList, .value2 (.int enemy.center_x) (.int enemy.center_y),
      .name "color".toList, .value (.int enemy.color),
      .name "angle".toList, .value (.int enemy.angle),
      .end_ ]

/-- The calls of the whole enemy loop. -/
def enemiesCalls : List FileEnemy → Option (List Call)
  | [] => some []
  | e :: es => (enemyCalls e).bind fun c => (enemiesCalls es).map fun cs => c ++ cs

/-- Every call `convert` makes on its writer, in order. -/
def convertCalls (sch : Schema) (world : FileWorld) : Option (List Call) :=
  (enemiesCalls world.enemy).map fun enemies =>
    headCalls sch world
    ++ (world.door.map (doorCalls sch)).flatten
    ++ (world.cog.map cogCalls).flatten
    ++ (world.button.map buttonCalls).flatten
    ++ (world.sign.map signCalls).flatten
    ++ enemies
    ++ [Call.end_]

/-- The text `convert` leaves in the output file, from `JSON json(&out, pack)` to the end of
the function (both files opened and the record parsed). -/
def convert (sch : Schema) (world : FileWorld) (pack : Bool) : Option (List Char) :=
  (convertCalls sch world).bind (document pack)

/-! ## Call sequences that mirror a JSON tree -/

mutual
/-- A value as a caller issues it: a scalar, a pair, or a container with its entries. -/
inductive Node where
  | scalar (x : Scalar)
  | pair (x y : Scalar)
  | object (ms : Members)
  | array (xs : Elems)
/-- The members of an object, in call order. -/
inductive Members where
  | nil
  | cons (k : List Char) (v : Node) (tl : Members)
/-- The elements of an array, in call order. -/
inductive Elems where
  | nil
  | cons (v : Node) (tl : Elems)
end

mutual
/-- The calls that issue a value. -/
def Node.calls : Node → List Call
  | .scalar x => [Call.value x]
  | .pair x y => [Call.value2 x y]
  | .object ms => Call.object :: (ms.calls ++ [Call.end_])
  | .array xs => Call.array :: (xs.calls ++ [Call.end_])
/-- The calls that issue the members of an object: each key, then its value. -/
def Members.calls : Members → List Call
  | .nil => []
  | .cons k v tl => Call.name k :: (v.calls ++ tl.calls)
/-- The calls that issue the elements of an array. -/
def Elems.calls : Elems → List Call
  | .nil => []
  | .cons v tl => v.calls ++ tl.calls
end

/-- The JSON value a scalar stands for. -/
def Scalar.toJ : Scalar → JVal
  | .int n => .num n
  | .bool b => .bool b
  | .str s => .str s

mutual
/-- The JSON value a call tree stands for; a pair is a two-element array. -/
def Node.toJ : Node → JVal
  | .scalar x => x.toJ
  | .pair x y => .arr [x.toJ, y.toJ]
  | .object ms => .obj ms.toJ
  | .array xs => .arr xs.toJ
/-- The members of the JSON object, keys in call order. -/
def Members.toJ : Members → List (List Char × JVal)
  | .nil => []
  | .cons k v tl => (k, v.toJ) :: tl.toJ
/-- The elements of the JSON array, in call order. -/
def Elems.toJ : Elems → List JVal
  | .nil => []
  | .cons v tl => v.toJ :: tl.toJ
end

/-- A string value the writer renders as a JSON string literal: no control character. -/
def textOk (s : List Char) : Bool := s.all fun c => decide (32 ≤ c.toNat)

/-- A key the writer renders as a JSON string literal: it is written unescaped, so it may hold
no control character, no double quote and no backslash. -/
def keyOk (k : List Char) : Bool :=
  k.all fun c => decide (32 ≤ c.toNat) && decide (c ≠ dq) && decide (c ≠ bsl)

/-- Every string of the scalar is `textOk`. -/
def Scalar.ok : Scalar → Bool
  | .str s => textOk s
  | _ => true

mutual
/-- Every key of the tree is `keyOk` and every string value `textOk`. -/
def Node.ok : Node → Bool
  | .scalar x => x.ok
  | .pair x y => x.ok && y.ok
  | .object ms => ms.ok
  | .array xs => xs.ok
/-- Every key of the members is `keyOk` and every string value `textOk`. -/
def Members.ok : Members → Bool
  | .nil => true
  | .cons k v tl => keyOk k && v.ok && tl.ok
/-- Every key of the elements is `keyOk` and every string value `textOk`. -/
def Elems.ok : Elems → Bool
  | .nil => true
  | .cons v tl => v.ok && tl.ok
end

/-! ## Closed forms used in the proofs -/

/-- Replace, scanning left to right, every occurrence of a non-empty `oldStr` by `newStr`;
`skip` counts the characters of a matched occurrence still to be passed over. -/
def replaceAll (oldStr newStr : List Char) : Nat → List Char → List Char
  | _, [] => []
  | skip + 1, _ :: cs => replaceAll oldStr newStr skip cs
  | 0, c :: cs =>
    if oldStr.isPrefixOf (c :: cs) then newStr ++ replaceAll oldStr newStr (oldStr.length - 1) cs
    else c :: replaceAll oldStr newStr 0 cs

/-- The escape of one character: a backslash before a backslash or a double quote. -/
def escapeChar (c : Char) : List Char :=
  if c = bsl then [bsl, bsl] else if c = dq then [bsl, dq] else [c]

/-- The single-pass escape of a string, character by character. -/
def escape (s : List Char) : List Char := (s.map escapeChar).flatten

/-- The text of a scalar. -/
def valText : Scalar → List Char
  | .int n => decimal n
  | .bool b => if b then "true".toList else "false".toList
  | .str s => dq :: escape s ++ [dq]

/-- The separator before an entry. -/
def sepText (first : Bool) : List Char := if first then [] else [',']

/-- The line break and indentation before an entry or a closing bracket at depth `d`. -/
def nlText (pack : Bool) (d : Nat) : List Char :=
  if pack then [] else '\n' :: List.replicate (2 * d) ' '

/-- The space after a colon or after the comma of a pair. -/
def spText (pack : Bool) : List Char := if pack then [] else [' ']

/-- What a value-producing call writes before the value: nothing outside an array, the
separator and the line break inside one. -/
def JSON.lead (j : JSON) (d : Nat) : List Char :=
  if j.in_array then sepText j.first ++ nlText j.pack d else []

mutual
/-- The text of a value issued at indent depth `d`, without the separator before it. -/
def Node.render (pack : Bool) : Nat → Node → List Char
  | _, .scalar x => valText x
  | _, .pair x y => '[' :: valText x ++ ',' :: spText pack ++ valText y ++ [']']
  | d, .object ms => '{' :: ms.render pack (d + 1) true ++ nlText pack d ++ ['}']
  | d, .array xs => '[' :: xs.render pack (d + 1) true ++ nlText pack d ++ [']']
/-- The text of the members of an object at indent depth `d`. -/
def Members.render (pack : Bool) : Nat → Bool → Members → List Char
  | _, _, .nil => []
  | d, first, .cons k v tl =>
    sepText first ++ nlText pack d ++ dq :: k ++ dq :: ':' :: spText pack
      ++ v.render pack d ++ tl.render pack d false
/-- The text of the elements of an array at indent depth `d`. -/
def Elems.render (pack : Bool) : Nat → Bool → Elems → List Char
  | _, _, .nil => []
  | d, first, .cons v tl =>
    sepText first ++ nlText pack d ++ v.render pack d ++ tl.render pack d false
end

/-- The token of a scalar. -/
def Scalar.token : Scalar → Token
  | .int n => .num n
  | .bool b => .bool b
  | .str s => .str s

mutual
/-- The tokens of a value. -/
def Node.tokens : Node → List Token
  | .scalar x => [x.token]
  | .pair x y => [.lbrack, x.token, .comma, y.token, .rbrack]
  | .object ms => .lbrace :: (ms.tokens true ++ [.rbrace])
  | .array xs => .lbrack :: (xs.tokens true ++ [.rbrack])
/-- The tokens of the members of an object. -/
def Members.tokens : Bool → Members → List Token
  | _, .nil => []
  | first, .cons k v tl =>
    (if first then [] else [.comma]) ++ .str k :: .colon :: (v.tokens ++ tl.tokens false)
/-- The tokens of the elements of an array. -/
def Elems.tokens : Bool → Elems → List Token
  | _, .nil => []
  | first, .cons v tl => (if first then [] else [.comma]) ++ (v.tokens ++ tl.tokens false)
end

/-- The writer invariant: the indent depth is the stack size plus one. -/
def JSON.Inv (j : JSON) : Prop := j.i = (j.s.length : Int) + 1

/-- The text that may follow a number: it starts with a comma, a line feed or a closing
bracket. -/
def Delim (X : List Char) : Prop :=
  ∃ c r, X = c :: r ∧ (c = ',' ∨ c = '\n' ∨ c = ']' ∨ c = '}')

/-- No condition on the text that follows. -/
def Free (_ : List Char) : Prop := True

/-- The text `piece` lexes to the tokens `ptoks` in front of every continuation that
satisfies `C`, with one unit of fuel per character. -/
def LexesTo (C : List Char → Prop) (piece : List Char) (ptoks : List Token) : Prop :=
  ∀ (X : List Char) (f : Nat) (toks : List Token), C X → lex f X = some toks →
    lex (f + piece.length) (piece ++ X) = some (ptoks ++ toks)

/-! ## The tree `convert` issues -/

/-- The elements of an array, from a list. -/
def Elems.ofList : List Node → Elems
  | [] => .nil
  | v :: vs => .cons v (Elems.ofList vs)

/-- The members of an object, from a list. -/
def Members.ofList : List (List Char × Node) → Members
  | [] => .nil
  | m :: ms => .cons m.1 m.2 (Members.ofList ms)

/-- The object of one door. -/
def doorNode (sch : Schema) (door : FileDoor) : Node :=
  .object (Members.ofList
    [ ("class".toList, .scalar (.str "wall".toList)),
      ("start".toList, .pair (.int door.start_x) (.int door.start_y)),
      ("end".toList, .pair (.int door.end_x) (.int door.end_y)),
      ("oneway".toList, .scalar (.bool (decide (door.type = sch.ONE_WAY)))),
      ("open".toList, .scalar (.bool (decide (door.state = sch.DOOR_OPEN)))),
      ("color".toList, .scalar (.int door.color)) ])

/-- The object of one cog. -/
def cogNode (cog : FileCog) : Node :=
  .object (Members.ofList
    [ ("class".toList, .scalar (.str "cog".toList)),
      ("pos".toList, .pair (.int cog.cog_x) (.int cog.cog_y)) ])

/-- The object of one button. -/
def buttonNode (button : FileButton) : Node :=
  .object (Members.ofList
    [ ("class".toList, .scalar (.str "button".toList)),
      ("type".toList, .scalar (.int button.behavior)),
      ("pos".toList, .pair (.int button.position_x) (.int button.position_y)),
      ("walls".toList, .array (Elems.ofList (button.door_index.map fun d => .scalar (.int d)))),
      ("color".toList, .scalar (.int button.color)) ])

/-- The object of one sign. -/
def signNode (sign : FileSign) : Node :=
  .object (Members.ofList
    [ ("class".toList, .scalar (.str "sign".toList)),
      ("pos".toList, .pair (.int sign.sign_x) (.int sign.sign_y)),
      ("text".toList, .scalar (.str sign.text)) ])

/-- The text written under `type`, in closed form: every `ENEMY_` removed, every underscore
made a space, every letter made lower case. -/
def enemyTypeText (type_name : List Char) : List Char :=
  (replaceAll ['_'] [' '] 0 (replaceAll "ENEMY_".toList [] 0 type_name)).map Char.toLower

/-- The object of one enemy. -/
def enemyNode (enemy : FileEnemy) : Node :=
  .object (Members.ofList
    [ ("class".toList, .scalar (.str "enemy".toList)),
      ("type".toList, .scalar (.str (enemyTypeText enemy.type_name))),
      ("pos".toList, .pair (.int enemy.center_x) (.int enemy.center_y)),
      ("color".toList, .scalar (.int enemy.color)),
      ("angle".toList, .scalar (.int enemy.angle)) ])

/-- The entries of `entities`, in the order of the five loops. -/
def entityNodes (sch : Schema) (world : FileWorld) : List Node :=
  world.door.map (doorNode sch) ++ world.cog.map cogNode ++ world.button.map buttonNode
    ++ world.sign.map signNode ++ world.enemy.map enemyNode

/-- The members after `height`: both coordinate pairs and the entities. -/
def worldTail (sch : Schema) (world : FileWorld) : Members :=
  Members.ofList
    [ ("start".toList, .pair (.int world.players_start_x) (.int world.players_start_y)),
      ("end".toList, .pair (.int world.players_end_x) (.int world.players_end_y)),
      ("entities".toList, .array (Elems.ofList (entityNodes sch world))) ]

/-- The members of the root object `convert` issues. -/
def worldTree (sch : Schema) (world : FileWorld) : Members :=
  .cons "unique_id".toList (.scalar (.int world.unique_id))
    (.cons "width".toList (.scalar (.int (sch.dim.wrap (world.width * 8))))
      (.cons "height".toList (.scalar (.int (sch.dim.wrap (world.height * 8))))
        (worldTail sch world)))

/-- The value of the first member with key `k`, when the value is an object. -/
def JVal.field (k : List Char) : JVal → Option JVal
  | .obj ms => (ms.find? fun m => decide (m.1 = k)).map fun m => m.2
  | _ => none

/-- Whether the value is an array. -/
def JVal.isArr : JVal → Bool
  | .arr _ => true
  | _ => false

/-- The keys of an object whose values are arrays, in document order. -/
def JVal.arrayKeys : JVal → List (List Char)
  | .obj ms => (ms.filter fun m => m.2.isArr).map fun m => m.1
  | _ => []

/-- The specification's reading of the enemy type: drop the leading `ENEMY_`, turn each
underscore into a space, lower the case. -/
def specEnemyType (type_name : List Char) : List Char :=
  ((type_name.drop 6).map fun c => if c = '_' then ' ' else c).map Char.toLower

/-! ## The writer with its formatting marked

`Traced` is the class `JSON` once more, each written character paired with a mark: `true` for
the whitespace the writer emits as formatting (the line feed and the indentation of
`newline_indent`, `end` and the destructor, the space after a colon and after the comma of a
pair), `false` for everything else. Erasing the marks gives `JSON` back
(`Traced.run_erase`). -/

/-- Characters written as content. -/
def lit (s : List Char) : List (Char × Bool) := s.map fun c => (c, false)

/-- Characters written as formatting. -/
def fmt (s : List Char) : List (Char × Bool) := s.map fun c => (c, true)

/-- The data members of `JSON`, the output marked. -/
structure Traced where
  pack : Bool
  s : List Kind
  o : List (Char × Bool)
  first : Bool
  i : Int

namespace Traced

/-- The member `indent()`, its spaces marked as formatting. -/
def indent (j : Traced) : Option (List (Char × Bool)) :=
  if j.pack then some []
  else if 0 ≤ 2 * j.i then some (fmt (List.replicate (2 * j.i).toNat ' '))
  else none

/-- The member `in_array()`. -/
def in_array (j : Traced) : Bool :=
  match j.s with
  | [] => false
  | t :: _ => decide (t = Kind.ARRAY)

/-- The member `newline_indent()`, its line feed marked as formatting. -/
def newline_indent (j : Traced) : Option Traced :=
  j.indent.bind fun ind =>
  some { j with
    o := j.o ++ (if j.pack then (if j.first then [] else lit [','])
                 else (if j.first then fmt ['\n'] else lit [','] ++ fmt ['\n'])) ++ ind
    first := false }

/-- The constructor. -/
def new (should_pack : Bool) : Traced :=
  { pack := should_pack, s := [], o := lit ['{'], first := true, i := 1 }

/-- The destructor, both line feeds marked as formatting. -/
def finish (j : Traced) : List (Char × Bool) :=
  j.o ++ (if j.pack then lit ['}'] else fmt ['\n'] ++ lit ['}'] ++ fmt ['\n'])

/-- The member `name(name)`, the space after the colon marked as formatting. -/
def name (nm : List Char) (j : Traced) : Option Traced :=
  j.newline_indent.bind fun j1 =>
  some { j1 with
    o := j1.o ++ lit [dq] ++ lit nm ++ lit [dq, ':'] ++ (if j1.pack then [] else fmt [' '])
    first := false }

/-- The scalar overload `value(x)`. -/
def value (x : Scalar) (j : Traced) : Option Traced :=
  (if j.in_array then j.newline_indent else some j).bind fun j1 =>
  (val x).bind fun tx =>
  some { j1 with o := j1.o ++ lit tx }

/-- The pair overload `value(x, y)`, the space after the comma marked as formatting. -/
def value2 (x y : Scalar) (j : Traced) : Option Traced :=
  (if j.in_array then j.newline_indent else some j).bind fun j1 =>
  (val x).bind fun tx =>
  (val y).bind fun ty =>
  some { j1 with
    o := j1.o ++ lit ['['] ++ lit tx ++ lit [','] ++ (if j1.pack then [] else fmt [' '])
           ++ lit ty ++ lit [']'] }

/-- The member `array()`. -/
def array (j : Traced) : Option Traced :=
  (if j.in_array then j.newline_indent else some j).bind fun j1 =>
  some { j1 with o := j1.o ++ lit ['['], first := true, i := j1.i + 1, s := Kind.ARRAY :: j1.s }

/-- The member `object()`. -/
def object (j : Traced) : Option Traced :=
  (if j.in_array then j.newline_indent else some j).bind fun j1 =>
  some { j1 with o := j1.o ++ lit ['{'], first := true, i := j1.i + 1, s := Kind.OBJECT :: j1.s }

/-- The member `end()`, its line feed and indentation marked as formatting. -/
def end_ (j : Traced) : Option Traced :=
  match j.s with
  | [] => none
  | t :: rest =>
    let j1 := { j with first := false, i := j.i - 1 }
    j1.indent.bind fun ind =>
    some { j1 with
      o := j1.o ++ (if j1.pack then [] else fmt ['\n']) ++ ind
             ++ lit [if t = Kind.ARRAY then ']' else '}']
      s := rest }

/-- Perform one call. -/
def step (j : Traced) : Call → Option Traced
  | .name nm => j.name nm
  | .value x => j.value x
  | .value2 x y => j.value2 x y
  | .array => j.array
  | .object => j.object
  | .end_ => j.end_

/-- Perform a sequence of calls, in order. -/
def run : List Call → Traced → Option Traced
  | [], j => some j
  | c :: cs, j => (j.step c).bind (run cs)

/-- The writer state with the marks erased. -/
def erase (j : Traced) : JSON :=
  { pack := j.pack, s := j.s, o := j.o.map Prod.fst, first := j.first, i := j.i }

/-- The state of the packed writer: the formatting characters deleted. -/
def strip (j : Traced) : JSON :=
  { pack := true, s := j.s, o := (j.o.filter fun m => !m.2).map Prod.fst, first := j.first,
    i := j.i }

end Traced

/-- The marked text of a pretty document. -/
def tracedDocument (cs : List Call) : Option (List (Char × Bool)) :=
  (Traced.run cs (Traced.new false)).map Traced.finish

/-- Every marked character of the text is a space or a line feed. -/
def MarksAreBlank (l : List (Char × Bool)) : Prop :=
  ∀ m ∈ l, m.2 = true → m.1 = ' ' ∨ m.1 = '\n'

/-- What a value-producing call of the pretty traced writer writes before the value. -/
def Traced.lead (j : Traced) (d : Nat) : List (Char × Bool) :=
  if j.in_array then lit (sepText j.first) ++ fmt (nlText false d) else []

/-! ## `main`: the output path (main.cpp, lines 244 to 247) -/

/-- The scan of `string::rfind`: try the start positions from `j` downwards. -/
def rfindFrom (str pat : List Char) : Nat → Option Nat
  | 0 => if pat.isPrefixOf str then some 0 else none
  | j + 1 => if pat.isPrefixOf (str.drop (j + 1)) then some (j + 1) else rfindFrom str pat j

/-- The call `str.rfind(pat)`: the greatest position at which `pat` occurs, `none` standing
for `string::npos`. -/
def rfind (str pat : List Char) : Option Nat :=
  if pat.length ≤ str.length then rfindFrom str pat (str.length - pat.length) else none

/-- Lines 245 to 247 of `main`, for a `size_t` of `w` bits: `npos` is `2 ^ w - 1`, the
difference `output.size() - 4` is taken modulo `2 ^ w`, and `substr(0, n)` keeps at most `n`
characters. -/
def outputPath (w : Nat) (input : List Char) : List Char :=
  let found := match rfind input ".lvl".toList with
    | some j => j
    | none => 2 ^ w - 1
  let k := (input.length + 2 ^ w - 4) % 2 ^ w
  (if found = k then input.take k else input) ++ ".json".toList

/-! ## Well-formed call sequences

The caller contract of the writer, as an automaton over the calls: the open containers with
the number of entries begun in each, the number of entries begun in the root object, and
whether a key is waiting for its value. -/

/-- What a caller has issued so far: `frames` has the innermost open container first. -/
structure Shape where
  frames : List (Kind × Nat)
  root : Nat
  pending : Bool
  deriving DecidableEq, Repr

namespace Shape

/-- Nothing issued yet: only the implicit root object is open. -/
def init : Shape := { frames := [], root := 0, pending := false }

/-- The number of entries begun in the innermost open container. -/
def count (c : Shape) : Nat :=
  match c.frames with
  | [] => c.root
  | f :: _ => f.2

/-- Whether the innermost open container is an array. -/
def inArray (c : Shape) : Bool :=
  match c.frames with
  | [] => false
  | f :: _ => decide (f.1 = Kind.ARRAY)

/-- One more entry begun in the innermost open container. -/
def bump (c : Shape) : Shape :=
  match c.frames with
  | [] => { c with root := c.root + 1 }
  | f :: fs => { c with frames := (f.1, f.2 + 1) :: fs }

/-- A value issued: it completes a waiting key, or it is a new element of an array. -/
def fill (c : Shape) : Shape :=
  if c.pending then { c with pending := false } else c.bump

/-- Whether a value may be issued: after a key, or inside an array. -/
def expectsValue (c : Shape) : Bool := c.pending || c.inArray

/-- One call of a well-formed sequence; `none` when the contract forbids the call. -/
def step (c : Shape) : Call → Option Shape
  | .name _ => if !c.pending && !c.inArray then some { c.bump with pending := true } else none
  | .value _ => if c.expectsValue then some c.fill else none
  | .value2 _ _ => if c.expectsValue then some c.fill else none
  | .array =>
    if c.expectsValue then some { c.fill with frames := (Kind.ARRAY, 0) :: c.fill.frames }
    else none
  | .object =>
    if c.expectsValue then some { c.fill with frames := (Kind.OBJECT, 0) :: c.fill.frames }
    else none
  | .end_ =>
    if c.pending then none
    else
      match c.frames with
      | [] => none
      | _ :: fs => some { c with frames := fs }

/-- A sequence of calls, in order. -/
def run : List Call → Shape → Option Shape
  | [], c => some c
  | x :: xs, c => (c.step x).bind (run xs)

/-- Whether the call begins a new entry of the innermost open container: a key, or a value
or container that is not the value of a waiting key. -/
def startsEntry (c : Shape) : Call → Bool
  | .name _ => true
  | .end_ => false
  | _ => !c.pending

/-- Every container that has a container open inside it has begun an entry, and so has the
container of a waiting key, which is not an array. -/
def Sound (c : Shape) : Prop :=
  (∀ f ∈ c.frames.tail, 1 ≤ f.2) ∧ (c.frames ≠ [] → 1 ≤ c.root)
    ∧ (c.pending = true → 1 ≤ c.count ∧ c.inArray = false)

/-- The writer state agrees with what the caller has issued: the same open containers, the
first-item flag set exactly when the innermost one has no entry yet, and the indent depth
one more than the stack size. -/
def Matches (c : Shape) (j : JSON) : Prop :=
  j.s = c.frames.map Prod.fst ∧ (j.first = true ↔ c.count = 0)
    ∧ j.i = ((j.s.length + 1 : Nat) : Int)

end Shape

/-- Whether the keys and strings of a call are free of spaces and line feeds. -/
def Scalar.noBlank : Scalar → Bool
  | .str s => s.all fun c => decide (c ≠ ' ') && decide (c ≠ '\n')
  | _ => true

/-- Whether the key and the strings of a call are free of spaces and line feeds. -/
def Call.noBlank : Call → Bool
  | .name k => k.all fun c => decide (c ≠ ' ') && decide (c ≠ '\n')
  | .value x => x.noBlank
  | .value2 x y => x.noBlank && y.noBlank
  | _ => true

/-- The number of `array` and `object` calls of a sequence. -/
def opened (cs : List Call) : Nat :=
  (cs.filter fun c => decide (c = Call.array) || decide (c = Call.object)).length

/-- The number of `end` calls of a sequence. -/
def closed (cs : List Call) : Nat :=
  (cs.filter fun c => decide (c = Call.end_)).length

/-- The text holds neither a space nor a line feed. -/
def NoBlank (l : List Char) : Prop := ∀ c ∈ l, c ≠ ' ' ∧ c ≠ '\n'

/-- A text that is not empty and neither begins nor ends with a comma. -/
def NoEdgeComma (t : List Char) : Prop :=
  (∃ a r, t = a :: r ∧ a ≠ ',') ∧ ∃ r z, t = r ++ [z] ∧ z ≠ ','

/-! ## `sub` and `quote` -/

theorem replaceAll_skip (oldStr newStr : List Char) (k : Nat) (cs : List Char) :
    replaceAll oldStr newStr k cs = replaceAll oldStr newStr 0 (cs.drop k) := by
  induction k generalizing cs with
  | zero => simp
  | succ k ih =>
    cases cs with
    | nil => simp [replaceAll]
    | cons c cs => simp [replaceAll, ih]

theorem find_hit (str oldStr : List Char) (i : Nat) (hi : i ≤ str.length)
    (h : oldStr.isPrefixOf (str.drop i) = true) : find str oldStr i = some i := by
  unfold find
  have : str.length + 1 - i = (str.length - i) + 1 := by omega
  rw [this, findAux, if_pos h]

theorem find_miss (str oldStr : List Char) (i : Nat) (hi : i < str.length)
    (h : oldStr.isPrefixOf (str.drop i) = false) :
    find str oldStr i = find str oldStr (i + 1) := by
  unfold find
  have e1 : str.length + 1 - i = (str.length + 1 - (i + 1)) + 1 := by omega
  rw [e1, findAux]
  simp [h]

theorem find_end (str oldStr : List Char) (h : oldStr ≠ []) :
    find str oldStr str.length = none := by
  unfold find
  have : str.length + 1 - str.length = 0 + 1 := by omega
  rw [this, findAux]
  cases oldStr with
  | nil => exact absurd rfl h
  | cons a as => simp [findAux, List.isPrefixOf]

theorem subLoop_eq (oldStr newStr : List Char) (h : oldStr ≠ []) :
    ∀ (n : Nat) (suf pre : List Char) (fuel : Nat), suf.length ≤ n → n < fuel →
      subLoop oldStr newStr fuel (pre ++ suf) pre.length
        = some (pre ++ replaceAll oldStr newStr 0 suf) := by
  intro n
  induction n with
  | zero =>
    intro suf pre fuel hs hf
    have : suf = [] := List.length_eq_zero.mp (by omega)
    subst this
    obtain ⟨f, rfl⟩ : ∃ f, fuel = f + 1 := ⟨fuel - 1, by omega⟩
    have := find_end pre oldStr h
    simp [subLoop, replaceAll, this]
  | succ n ih =>
    intro suf pre fuel hs hf
    obtain ⟨f, rfl⟩ : ∃ f, fuel = f + 1 := ⟨fuel - 1, by omega⟩
    cases suf with
    | nil =>
      have := find_end pre oldStr h
      simp [subLoop, replaceAll, this]
    | cons c cs =>
      have hlen : 1 ≤ oldStr.length := by
        cases oldStr with
        | nil => exact absurd rfl h
        | cons a as => simp
      by_cases hp : oldStr.isPrefixOf (c :: cs) = true
      · have hf1 : find (pre ++ c :: cs) oldStr pre.length = some pre.length :=
          find_hit _ _ _ (by simp) (by simpa using hp)
        have hrep : replace (pre ++ c :: cs) pre.length oldStr.length newStr
            = (pre ++ newStr) ++ (c :: cs).drop oldStr.length := by
          simp [replace, List.take_append_eq_append_take, List.drop_append_eq_append_drop]
        have hl : pre.length + newStr.length = (pre ++ newStr).length := by simp
        rw [subLoop, hf1]
        simp only []
        rw [hrep, hl, ih _ _ f (by simp at hs ⊢; omega) (by omega)]
        simp only [replaceAll, hp, if_true]
        rw [replaceAll_skip oldStr newStr (oldStr.length - 1) cs]
        have : (c :: cs).drop oldStr.length = cs.drop (oldStr.length - 1) := by
          obtain ⟨m, hm⟩ : ∃ m, oldStr.length = m + 1 := ⟨oldStr.length - 1, by omega⟩
          simp [hm]
        rw [this]
        simp
      · have hp2 : oldStr.isPrefixOf (c :: cs) = false := Bool.eq_false_iff.mpr hp
        have hf1 : find (pre ++ c :: cs) oldStr pre.length
            = find (pre ++ c :: cs) oldStr (pre.length + 1) :=
          find_miss _ _ _ (by simp) (by simpa using hp2)
        have hstep : subLoop oldStr newStr (f + 1) (pre ++ c :: cs) pre.length
            = subLoop oldStr newStr (f + 1) (pre ++ c :: cs) (pre.length + 1) := by
          rw [subLoop, subLoop, hf1]
        have e : pre ++ c :: cs = (pre ++ [c]) ++ cs := by simp
        have hl : pre.length + 1 = (pre ++ [c]).length := by simp
        rw [hstep, e, hl, ih cs (pre ++ [c]) (f + 1) (by simp at hs; omega) (by omega)]
        simp [replaceAll, hp2]

/-- For a non-empty pattern the loop of `sub` ends within its fuel, with every occurrence
replaced from left to right. -/
theorem sub_eq_replaceAll (str oldStr newStr : List Char) (h : oldStr ≠ []) :
    sub str oldStr newStr = some (replaceAll oldStr newStr 0 str) := by
  have := subLoop_eq oldStr newStr h str.length str [] (str.length + 1) (le_refl _) (by omega)
  simpa [sub] using this

/-- With a one-character pattern, replacement acts on each character on its own. -/
theorem replaceAll_single (a : Char) (newStr s : List Char) :
    replaceAll [a] newStr 0 s = (s.map fun c => if c = a then newStr else [c]).flatten := by
  induction s with
  | nil => simp [replaceAll]
  | cons c cs ih =>
    by_cases h : c = a
    · subst h
      simp [replaceAll, List.isPrefixOf, ih]
    · have h2 : ¬ a = c := fun e => h e.symm
      simp [replaceAll, List.isPrefixOf, ih, h, h2]

theorem escape_two_pass (s : List Char) :
    replaceAll [dq] [bsl, dq] 0 (replaceAll [bsl] [bsl, bsl] 0 s) = escape s := by
  rw [replaceAll_single, replaceAll_single]
  induction s with
  | nil => simp [escape]
  | cons c cs ih =>
    have hne : bsl ≠ dq := by decide
    simp only [List.map_cons, List.flatten_cons, List.map_append, List.flatten_append, ih, escape]
    congr 1
    by_cases h1 : c = bsl
    · subst h1
      simp [escapeChar, hne]
    · by_cases h2 : c = dq
      · subst h2
        simp [escapeChar, h1]
      · simp [escapeChar, h1, h2]

theorem quote_eq (s : List Char) : quote s = some (dq :: escape s ++ [dq]) := by
  unfold quote
  rw [sub_eq_replaceAll _ _ _ (by simp)]
  simp only [Option.some_bind, Option.bind_eq_bind]
  rw [sub_eq_replaceAll _ _ _ (by simp)]
  simp [escape_two_pass]

theorem val_eq (x : Scalar) : val x = some (valText x) := by
  cases x <;> simp [val, valText, quote_eq]

/-! ## Closed forms of the writer operations -/

theorem JSON.indent_eq (j : JSON) (d : Nat) (h : j.i = (d : Int)) :
    j.indent = some (if j.pack then [] else List.replicate (2 * d) ' ') := by
  unfold JSON.indent
  have h1 : (0 : Int) ≤ 2 * j.i := by omega
  have h2 : (2 * j.i).toNat = 2 * d := by omega
  cases hp : j.pack <;> simp [h1, h2]

theorem JSON.newline_indent_eq (j : JSON) (d : Nat) (h : j.i = (d : Int)) :
    j.newline_indent
      = some { j with o := j.o ++ (sepText j.first ++ nlText j.pack d), first := false } := by
  unfold JSON.newline_indent
  rw [JSON.indent_eq j d h]
  cases hp : j.pack <;> cases hf : j.first <;> simp [sepText, nlText]

theorem JSON.name_eq (j : JSON) (d : Nat) (h : j.i = (d : Int)) (k : List Char) :
    j.name k
      = some { j with
          o := j.o ++ (sepText j.first ++ nlText j.pack d ++ dq :: k ++ dq :: ':' :: spText j.pack)
          first := false } := by
  unfold JSON.name
  rw [JSON.newline_indent_eq j d h]
  cases hp : j.pack <;> simp [spText]

theorem JSON.enter_eq (j : JSON) (d : Nat) (h : j.i = (d : Int)) :
    (if j.in_array then j.newline_indent else some j)
      = some { j with o := j.o ++ j.lead d, first := j.first && !j.in_array } := by
  unfold JSON.lead
  cases ha : j.in_array
  · simp
  · simp [JSON.newline_indent_eq j d h]

theorem JSON.value_eq (j : JSON) (d : Nat) (h : j.i = (d : Int)) (x : Scalar) :
    j.value x
      = some { j with o := j.o ++ (j.lead d ++ valText x), first := j.first && !j.in_array } := by
  unfold JSON.value
  rw [JSON.enter_eq j d h, val_eq]
  simp

theorem JSON.value2_eq (j : JSON) (d : Nat) (h : j.i = (d : Int)) (x y : Scalar) :
    j.value2 x y
      = some { j with
          o := j.o ++ (j.lead d ++ ('[' :: valText x ++ ',' :: spText j.pack ++ valText y ++ [']']))
          first := j.first && !j.in_array } := by
  unfold JSON.value2
  rw [JSON.enter_eq j d h, val_eq, val_eq]
  cases hp : j.pack <;> simp [spText]

theorem JSON.array_eq (j : JSON) (d : Nat) (h : j.i = (d : Int)) :
    j.array
      = some { j with
          o := j.o ++ (j.lead d ++ ['[']), first := true, i := j.i + 1,
          s := Kind.ARRAY :: j.s } := by
  unfold JSON.array
  rw [JSON.enter_eq j d h]
  simp

theorem JSON.object_eq (j : JSON) (d : Nat) (h : j.i = (d : Int)) :
    j.object
      = some { j with
          o := j.o ++ (j.lead d ++ ['{']), first := true, i := j.i + 1,
          s := Kind.OBJECT :: j.s } := by
  unfold JSON.object
  rw [JSON.enter_eq j d h]
  simp

theorem JSON.end_eq (j : JSON) (d : Nat) (h : j.i = (d : Int) + 1) (t : Kind) (rest : List Kind)
    (hs : j.s = t :: rest) :
    j.end_
      = some { j with
          o := j.o ++ (nlText j.pack d ++ [if t = Kind.ARRAY then ']' else '}'])
          first := false, i := j.i - 1, s := rest } := by
  unfold JSON.end_
  rw [hs]
  simp only []
  rw [JSON.indent_eq _ d (by simp [h])]
  cases hp : j.pack <;> simp [nlText]

/-! ## The invariant -/

theorem JSON.new_inv (p : Bool) : (JSON.new p).Inv := by
  simp [JSON.Inv, JSON.new]

theorem JSON.step_inv (j j1 : JSON) (c : Call) (h : j.Inv) (hs : j.step c = some j1) :
    j1.Inv ∧ j1.pack = j.pack := by
  have hd : j.i = ((j.s.length + 1 : Nat) : Int) := by simpa [JSON.Inv] using h
  cases c with
  | name k =>
    rw [JSON.step, JSON.name_eq j _ hd] at hs
    cases hs
    exact ⟨h, rfl⟩
  | value x =>
    rw [JSON.step, JSON.value_eq j _ hd] at hs
    cases hs
    exact ⟨h, rfl⟩
  | value2 x y =>
    rw [JSON.step, JSON.value2_eq j _ hd] at hs
    cases hs
    exact ⟨h, rfl⟩
  | array =>
    rw [JSON.step, JSON.array_eq j _ hd] at hs
    cases hs
    simp only [JSON.Inv] at h ⊢
    simp [h]
  | object =>
    rw [JSON.step, JSON.object_eq j _ hd] at hs
    cases hs
    simp only [JSON.Inv] at h ⊢
    simp [h]
  | end_ =>
    cases hst : j.s with
    | nil => simp [JSON.step, JSON.end_, hst] at hs
    | cons t rest =>
      have hd2 : j.i = ((rest.length + 1 : Nat) : Int) + 1 := by
        simp only [JSON.Inv, hst] at h
        simp [h]
      rw [JSON.step, JSON.end_eq j _ hd2 t rest hst] at hs
      cases hs
      simp only [JSON.Inv]
      simp [hd2]

theorem JSON.run_inv (cs : List Call) : ∀ (j j1 : JSON), j.Inv → JSON.run cs j = some j1 →
    j1.Inv ∧ j1.pack = j.pack := by
  induction cs with
  | nil =>
    intro j j1 h hr
    simp only [JSON.run, Option.some.injEq] at hr
    subst hr
    exact ⟨h, rfl⟩
  | cons c cs ih =>
    intro j j1 h hr
    simp only [JSON.run] at hr
    cases hs : j.step c with
    | none => simp [hs] at hr
    | some j2 =>
      rw [hs] at hr
      have h2 := JSON.step_inv j j2 c h hs
      have h3 := ih j2 j1 h2.1 hr
      exact ⟨h3.1, h3.2.trans h2.2⟩

/-- A state a writer can be in: reached from construction by some calls. -/
theorem JSON.reach_inv (p : Bool) (cs : List Call) (j : JSON)
    (h : JSON.run cs (JSON.new p) = some j) : j.i = ((j.s.length + 1 : Nat) : Int) ∧ j.pack = p := by
  have := JSON.run_inv cs _ j (JSON.new_inv p) h
  refine ⟨?_, this.2⟩
  simpa [JSON.Inv] using this.1

/-! ## The escape primitive and the single calls -/

/-- C9: for every string `s`, both passes of `quote(s)` end, and the result is a double quote,
then `s` with each backslash replaced by two backslashes and each double quote by a backslash
and a double quote (every other character unchanged, each original character handled once),
then a double quote: the second pass never touches a backslash the first one wrote. -/
theorem quote_is_single_pass_escape (s : List Char) :
    (∃ a, sub s [bsl] [bsl, bsl] = some a
        ∧ sub a [dq] [bsl, dq]
            = some (s.map fun c => if c = bsl then [bsl, bsl] else if c = dq then [bsl, dq] else [c]).flatten)
    ∧ quote s
        = some (dq :: (s.map fun c =>
            if c = bsl then [bsl, bsl] else if c = dq then [bsl, dq] else [c]).flatten ++ [dq]) := by
  refine ⟨⟨_, sub_eq_replaceAll _ _ _ (by simp), ?_⟩, ?_⟩
  · rw [sub_eq_replaceAll _ _ _ (by simp), escape_two_pass]
    rfl
  · rw [quote_eq]
    rfl

/-- C10: in every state a writer can reach, `name(k)` (the `key` operation) succeeds and appends
a comma exactly when the first-item flag is off, then in pretty mode a line feed and `2 * i`
spaces, then the key between double quotes and a colon, then one space in pretty mode and
nothing in packed mode; the stack and the indent depth stay as they were. -/
theorem name_appends_key (p : Bool) (cs : List Call) (j : JSON)
    (h : JSON.run cs (JSON.new p) = some j) (k : List Char) :
    ∃ j1, j.name k = some j1
      ∧ j1.o = j.o ++ (if j.first then [] else [','])
                 ++ (if p then [] else '\n' :: List.replicate (2 * j.i).toNat ' ')
                 ++ [dq] ++ k ++ [dq, ':'] ++ (if p then [] else [' '])
      ∧ j1.s = j.s ∧ j1.i = j.i ∧ j1.pack = j.pack := by
  obtain ⟨hi, hp⟩ := JSON.reach_inv p cs j h
  refine ⟨_, JSON.name_eq j _ hi k, ?_, rfl, rfl, rfl⟩
  have h2 : (2 * j.i).toNat = 2 * (j.s.length + 1) := by omega
  simp [sepText, nlText, spText, hp, h2]

/-- Witness of C10: the second key of a pretty document, after `"a": 1`. -/
theorem name_appends_key_witness :
    ∃ j1, JSON.name "b".toList
        { pack := false, s := [], o := "\x7b\n  \"a\": 1".toList, first := false, i := 1 } = some j1
      ∧ j1.o = "\x7b\n  \"a\": 1,\n  \"b\": ".toList ∧ j1.s = [] ∧ j1.i = 1 := by
  obtain ⟨j1, h1, h2, h3, h4, _⟩ :=
    name_appends_key false [Call.name "a".toList, Call.value (Scalar.int 1)]
      { pack := false, s := [], o := "\x7b\n  \"a\": 1".toList, first := false, i := 1 }
      (by decide) "b".toList
  exact ⟨j1, h1, by rw [h2]; decide, h3, h4⟩

/-- C4: in every state a writer can reach and for all integers `x` and `y`, the pair overload
`value(x, y)` succeeds and appends the prefix the scalar `value(x)` appends in that state
(empty unless the top frame is an array, else the separator and line break of a new element),
then `[`, `x`, a comma, one space in pretty mode only, `y` and `]`; it leaves the stack and
the indent depth as they were. -/
theorem pair_value_text (p : Bool) (cs : List Call) (j : JSON)
    (h : JSON.run cs (JSON.new p) = some j) (x y : Int) :
    ∃ pre j1 j2, j.value (.int x) = some j1 ∧ j.value2 (.int x) (.int y) = some j2
      ∧ pre = (if j.in_array
                then (if j.first then [] else [','])
                  ++ (if p then [] else '\n' :: List.replicate (2 * j.i).toNat ' ')
                else [])
      ∧ j1.o = j.o ++ pre ++ decimal x
      ∧ j2.o = j.o ++ pre ++ ['['] ++ decimal x ++ (if p then [','] else [',', ' '])
                 ++ decimal y ++ [']']
      ∧ j2.s = j.s ∧ j2.i = j.i := by
  obtain ⟨hi, hp⟩ := JSON.reach_inv p cs j h
  refine ⟨_, _, _, JSON.value_eq j _ hi _, JSON.value2_eq j _ hi _ _, rfl, ?_, ?_, rfl, rfl⟩
  · have h2 : (2 * j.i).toNat = 2 * (j.s.length + 1) := by omega
    cases ha : j.in_array <;> simp [JSON.lead, sepText, nlText, valText, hp, h2, ha]
  · have h2 : (2 * j.i).toNat = 2 * (j.s.length + 1) := by omega
    cases ha : j.in_array <;> cases p <;>
      simp [JSON.lead, sepText, nlText, spText, valText, hp, h2, ha]

/-- Witness of C4: `value(3, -2)` after a key, in pretty and in packed mode. -/
theorem pair_value_text_witness :
    (∃ j2, JSON.value2 (.int 3) (.int (-2))
        { pack := false, s := [], o := "\x7b\n  \"a\": ".toList, first := false, i := 1 } = some j2
      ∧ j2.o = "\x7b\n  \"a\": [3, -2]".toList)
    ∧ (∃ j2, JSON.value2 (.int 3) (.int (-2))
        { pack := true, s := [], o := "\x7b\"a\":".toList, first := false, i := 1 } = some j2
      ∧ j2.o = "\x7b\"a\":[3,-2]".toList) := by
  constructor
  · obtain ⟨pre, j1, j2, _, h2, h3, _, h5, _⟩ :=
      pair_value_text false [Call.name "a".toList]
        { pack := false, s := [], o := "\x7b\n  \"a\": ".toList, first := false, i := 1 }
        (by decide) 3 (-2)
    refine ⟨j2, h2, ?_⟩
    rw [h5, h3]
    decide
  · obtain ⟨pre, j1, j2, _, h2, h3, _, h5, _⟩ :=
      pair_value_text true [Call.name "a".toList]
        { pack := true, s := [], o := "\x7b\"a\":".toList, first := false, i := 1 }
        (by decide) 3 (-2)
    refine ⟨j2, h2, ?_⟩
    rw [h5, h3]
    decide

/-! ## Reading back a quoted string -/

theorem escape_cons (c : Char) (s : List Char) : escape (c :: s) = escapeChar c ++ escape s := by
  simp [escape]

theorem lexString_escape (s : List Char) : ∀ (rest : List Char) (fuel : Nat),
    textOk s = true → s.length < fuel →
    lexString fuel (escape s ++ dq :: rest) = some (s, rest) := by
  induction s with
  | nil =>
    intro rest fuel _ hf
    obtain ⟨f, rfl⟩ : ∃ f, fuel = f + 1 := ⟨fuel - 1, by simp at hf; omega⟩
    simp [escape, lexString]
  | cons c s ih =>
    intro rest fuel hok hf
    obtain ⟨f, rfl⟩ : ∃ f, fuel = f + 1 := ⟨fuel - 1, by omega⟩
    have hc : 32 ≤ c.toNat := by
      simp [textOk] at hok
      exact hok.1
    have hs : textOk s = true := by
      simp [textOk] at hok ⊢
      exact hok.2
    have ih2 := ih rest f hs (by simp at hf; omega)
    have hne : bsl ≠ dq := by decide
    rw [escape_cons]
    by_cases h1 : c = bsl
    · subst h1
      have hu : bsl ≠ 'u' := by decide
      simp [escapeChar, lexString, hne, hu, simpleEscape, ih2]
    · by_cases h2 : c = dq
      · subst h2
        have hu : dq ≠ 'u' := by decide
        simp [escapeChar, lexString, h1, hne, hu, simpleEscape, ih2]
      · have h3 : ¬ c.toNat < 32 := by omega
        simp [escapeChar, lexString, h1, h2, h3, ih2]

theorem escape_length (s : List Char) : s.length ≤ (escape s).length := by
  induction s with
  | nil => simp [escape]
  | cons c s ih =>
    rw [escape_cons]
    have : 1 ≤ (escapeChar c).length := by
      unfold escapeChar
      split_ifs <;> simp
    simp only [List.length_append, List.length_cons]
    omega

/-- C2, as the code has it: for every string `s` without a control character (below U+0020),
`quote(s)` is a JSON string literal that the reader decodes to exactly `s`; backslashes and
double quotes may occur freely. -/
theorem quote_round_trip (s : List Char) (h : textOk s = true) :
    (quote s).bind jsonString = some s := by
  rw [quote_eq]
  have hl := escape_length s
  have := lexString_escape s [] ((escape s).length + 1 + 1) h (by omega)
  simp [jsonString, this]

/-- Witness of C2: the text `a"b\c`, with a double quote and a backslash together. -/
theorem quote_round_trip_witness :
    textOk "a\"b\\c".toList = true ∧ (quote "a\"b\\c".toList).bind jsonString = some "a\"b\\c".toList :=
  ⟨by decide, quote_round_trip "a\"b\\c".toList (by decide)⟩

/-- C2 does not hold for every string: `quote` leaves a line feed as it is, and a JSON string
literal may not contain a raw control character, so the reader rejects the result. -/
theorem quote_round_trip_fails_on_control :
    quote ['a', '\n', 'b'] = some [dq, 'a', '\n', 'b', dq]
    ∧ (quote ['a', '\n', 'b']).bind jsonString = none := by
  decide

/-! ## Lexing the written text -/

theorem lex_nil (f : Nat) : lex f [] = some [] := by
  cases f <;> simp [lex]

theorem lex_cons (f : Nat) (c : Char) (cs : List Char) :
    lex (f + 1) (c :: cs)
      = (lexToken c cs).bind fun p =>
          (lex f p.2).map fun ts =>
            match p.1 with
            | some t => t :: ts
            | none => ts := by
  simp [lex]

theorem lex_mono : ∀ (f f1 : Nat) (s : List Char) (toks : List Token),
    f ≤ f1 → lex f s = some toks → lex f1 s = some toks := by
  intro f
  induction f with
  | zero =>
    intro f1 s toks _ h
    cases s with
    | nil =>
      rw [lex_nil] at h ⊢
      exact h
    | cons c cs => simp [lex] at h
  | succ f ih =>
    intro f1 s toks hle h
    obtain ⟨g, rfl⟩ : ∃ g, f1 = g + 1 := ⟨f1 - 1, by omega⟩
    have hfg : f ≤ g := by omega
    cases s with
    | nil =>
      rw [lex_nil] at h ⊢
      exact h
    | cons c cs =>
      rw [lex_cons] at h ⊢
      cases hp : lexToken c cs with
      | none => simp [hp] at h
      | some p =>
        rw [hp] at h
        simp only [Option.some_bind] at h ⊢
        cases hx : lex f p.2 with
        | none => simp [hx] at h
        | some t =>
          rw [hx] at h
          rw [ih g p.2 t hfg hx]
          exact h

theorem LexesTo.weaken {C : List Char → Prop} {p : List Char} {t : List Token}
    (h : LexesTo Free p t) : LexesTo C p t :=
  fun X f toks _ hx => h X f toks trivial hx

theorem LexesTo.nil (C : List Char → Prop) : LexesTo C [] [] :=
  fun _ _ _ _ hx => by simpa using hx

theorem LexesTo.append {C1 C2 : List Char → Prop} {p1 p2 : List Char} {t1 t2 : List Token}
    (h1 : LexesTo C1 p1 t1) (h2 : LexesTo C2 p2 t2) (hc : ∀ X, C2 X → C1 (p2 ++ X)) :
    LexesTo C2 (p1 ++ p2) (t1 ++ t2) := by
  intro X f toks hX hx
  have a := h2 X f toks hX hx
  have b := h1 (p2 ++ X) (f + p2.length) (t2 ++ toks) (hc X hX) a
  have e : f + (p1 ++ p2).length = f + p2.length + p1.length := by
    simp only [List.length_append]
    omega
  rw [e, List.append_assoc, List.append_assoc]
  exact b

theorem LexesTo.append_free {C : List Char → Prop} {p1 p2 : List Char} {t1 t2 : List Token}
    (h1 : LexesTo Free p1 t1) (h2 : LexesTo C p2 t2) : LexesTo C (p1 ++ p2) (t1 ++ t2) :=
  LexesTo.append h1 h2 (fun _ _ => trivial)

/-- A piece that is one token read by `lexToken` in one step. -/
theorem LexesTo.of_token (C : List Char → Prop) (c : Char) (cs : List Char) (t : Token)
    (h : ∀ X, C X → lexToken c (cs ++ X) = some (some t, X)) : LexesTo C (c :: cs) [t] := by
  intro X f toks hX hx
  have e : f + (c :: cs).length = (f + cs.length) + 1 := by simp; omega
  rw [e, List.cons_append, lex_cons, h X hX]
  simp only [Option.some_bind]
  rw [lex_mono f (f + cs.length) X toks (by omega) hx]
  rfl

theorem LexesTo.ws (c : Char) (h : isWs c = true) : LexesTo Free [c] [] := by
  intro X f toks _ hx
  have : lexToken c X = some (none, X) := by simp [lexToken, h]
  simp only [List.length_singleton, List.singleton_append, lex_cons, this, Option.some_bind, hx]
  rfl

theorem LexesTo.spaces (n : Nat) : LexesTo Free (List.replicate n ' ') [] := by
  induction n with
  | zero => exact LexesTo.nil _
  | succ n ih =>
    have := LexesTo.append_free (LexesTo.ws ' ' (by decide)) ih
    simpa [List.replicate_succ] using this

theorem LexesTo.of_nl (pack : Bool) (d : Nat) : LexesTo Free (nlText pack d) [] := by
  unfold nlText
  cases pack
  · have := LexesTo.append_free (LexesTo.ws '\n' (by decide)) (LexesTo.spaces (2 * d))
    simpa using this
  · exact LexesTo.nil _

theorem LexesTo.of_sp (pack : Bool) : LexesTo Free (spText pack) [] := by
  unfold spText
  cases pack
  · exact LexesTo.ws ' ' (by decide)
  · exact LexesTo.nil _

theorem LexesTo.lbrace : LexesTo Free ['{'] [Token.lbrace] :=
  LexesTo.of_token _ _ [] _ (fun X _ => by simp [lexToken, isWs])

theorem LexesTo.rbrace : LexesTo Free ['}'] [Token.rbrace] :=
  LexesTo.of_token _ _ [] _ (fun X _ => by simp [lexToken, isWs])

theorem LexesTo.lbrack : LexesTo Free ['['] [Token.lbrack] :=
  LexesTo.of_token _ _ [] _ (fun X _ => by simp [lexToken, isWs])

theorem LexesTo.rbrack : LexesTo Free [']'] [Token.rbrack] :=
  LexesTo.of_token _ _ [] _ (fun X _ => by simp [lexToken, isWs])

theorem LexesTo.comma : LexesTo Free [','] [Token.comma] :=
  LexesTo.of_token _ _ [] _ (fun X _ => by simp [lexToken, isWs])

theorem LexesTo.colon : LexesTo Free [':'] [Token.colon] :=
  LexesTo.of_token _ _ [] _ (fun X _ => by simp [lexToken, isWs])

theorem LexesTo.of_sep (first : Bool) :
    LexesTo Free (sepText first) (if first then [] else [Token.comma]) := by
  unfold sepText
  cases first
  · exact LexesTo.comma
  · exact LexesTo.nil _

theorem LexesTo.bool (b : Bool) :
    LexesTo Free (if b then "true".toList else "false".toList) [Token.bool b] := by
  cases b
  · exact LexesTo.of_token _ 'f' ['a', 'l', 's', 'e'] _
      (fun X _ => by simp [lexToken, isWs, dq, List.isPrefixOf])
  · exact LexesTo.of_token _ 't' ['r', 'u', 'e'] _
      (fun X _ => by simp [lexToken, isWs, dq, List.isPrefixOf])

/-! ## Lexing scalars -/

theorem digitChar_isDigit (d : Nat) (h : d < 10) : (digitChar d).isDigit = true := by
  interval_cases d <;> decide

theorem digitChar_toNat (d : Nat) (h : d < 10) : (digitChar d).toNat - 48 = d := by
  interval_cases d <;> decide

theorem digitChar_zero (d : Nat) (h : d < 10) (hz : digitChar d = '0') : d = 0 := by
  interval_cases d
  · rfl
  all_goals exact absurd hz (by decide)

theorem digitsValue_snoc (ds : List Char) (c : Char) :
    digitsValue (ds ++ [c]) = 10 * digitsValue ds + (c.toNat - 48) := by
  simp [digitsValue, List.foldl_append]

theorem decimalAux_spec : ∀ (fuel n : Nat), n ≤ fuel →
    (∀ c ∈ decimalAux fuel n, c.isDigit = true)
    ∧ digitsValue (decimalAux fuel n) = n
    ∧ ∃ c r, decimalAux fuel n = c :: r ∧ (c = '0' → n = 0 ∧ r = []) := by
  intro fuel
  induction fuel with
  | zero =>
    intro n hn
    have : n = 0 := by omega
    subst this
    refine ⟨?_, ?_, _, _, rfl, fun _ => ⟨rfl, rfl⟩⟩
    · simp [decimalAux, digitChar_isDigit]
    · simp [decimalAux, digitsValue, digitChar_toNat]
  | succ fuel ih =>
    intro n hn
    by_cases h : n < 10
    · refine ⟨?_, ?_, digitChar n, [], ?_, ?_⟩
      · simp [decimalAux, h, digitChar_isDigit]
      · simp [decimalAux, h, digitsValue, digitChar_toNat]
      · simp [decimalAux, h]
      · intro hz
        exact ⟨digitChar_zero n h hz, rfl⟩
    · obtain ⟨h1, h2, c, r, h3, h4⟩ := ih (n / 10) (by omega)
      have hm : n % 10 < 10 := Nat.mod_lt _ (by omega)
      have hdef : decimalAux (fuel + 1) n = decimalAux fuel (n / 10) ++ [digitChar (n % 10)] := by
        simp [decimalAux, h]
      refine ⟨?_, ?_, c, r ++ [digitChar (n % 10)], ?_, ?_⟩
      · intro x hx
        rw [hdef] at hx
        rcases List.mem_append.mp hx with hx | hx
        · exact h1 x hx
        · simp at hx
          subst hx
          exact digitChar_isDigit _ hm
      · rw [hdef, digitsValue_snoc, h2, digitChar_toNat _ hm]
        omega
      · rw [hdef, h3]
        simp
      · intro hz
        have := (h4 hz).1
        omega

theorem takeWhile_append_stop (p : Char → Bool) (ds X : List Char) (h : ∀ c ∈ ds, p c = true)
    (hX : ∀ c r, X = c :: r → p c = false) :
    (ds ++ X).takeWhile p = ds ∧ (ds ++ X).dropWhile p = X := by
  induction ds with
  | nil =>
    cases X with
    | nil => simp
    | cons c r => simp [List.takeWhile, List.dropWhile, hX c r rfl]
  | cons d ds ih =>
    have hd : p d = true := h d (by simp)
    have := ih (fun c hc => h c (by simp [hc]))
    simp [List.takeWhile, List.dropWhile, hd, this]

theorem Delim.head {X : List Char} (h : Delim X) :
    ∃ c r, X = c :: r ∧ c.isDigit = false ∧ c ≠ '.' ∧ c ≠ 'e' ∧ c ≠ 'E' := by
  obtain ⟨c, r, rfl, hc⟩ := h
  refine ⟨c, r, rfl, ?_⟩
  rcases hc with rfl | rfl | rfl | rfl <;> decide

theorem lexUnsigned_digits (neg : Bool) (ds X : List Char) (h : ∀ c ∈ ds, c.isDigit = true)
    (hne : ∃ c r, ds = c :: r ∧ (c = '0' → r = [])) (hX : Delim X) :
    lexUnsigned neg (ds ++ X)
      = some (Token.num (if neg then -(digitsValue ds : Int) else (digitsValue ds : Int)), X) := by
  obtain ⟨x, r, hx, hd, h1, h2, h3⟩ := hX.head
  obtain ⟨tw, dw⟩ := takeWhile_append_stop Char.isDigit ds X h
    (fun c r1 e => by
      rw [hx] at e
      cases e
      exact hd)
  obtain ⟨c, r0, hds, hz⟩ := hne
  unfold lexUnsigned
  rw [tw, dw]
  have n1 : ds ≠ [] := by simp [hds]
  have n2 : ¬ (1 < ds.length ∧ ds.head? = some '0') := by
    rintro ⟨hl, hh⟩
    rw [hds] at hl hh
    simp at hh
    have := hz hh
    subst this
    simp at hl
  simp only [n1, n2, if_false]
  simp [hx, lexFrac, lexExp, h1, h2, h3]

theorem decimalNat_spec (n : Nat) :
    (∀ c ∈ decimalNat n, c.isDigit = true) ∧ digitsValue (decimalNat n) = n
    ∧ ∃ c r, decimalNat n = c :: r ∧ (c = '0' → r = []) := by
  obtain ⟨h1, h2, c, r, h3, h4⟩ := decimalAux_spec n n (le_refl _)
  exact ⟨h1, h2, c, r, h3, fun hz => (h4 hz).2⟩

theorem lexToken_number (c : Char) (cs : List Char) (h : c = '-' ∨ c.isDigit = true) :
    lexToken c cs = (lexNumber (c :: cs)).map fun p => (some p.1, p.2) := by
  have hw : isWs c = false := by
    rcases h with rfl | h
    · decide
    · cases hw : isWs c
      · rfl
      · simp only [isWs, Bool.or_eq_true, decide_eq_true_eq] at hw
        rcases hw with ((rfl | rfl) | rfl) | rfl <;> exact absurd h (by decide)
  have ne : ∀ x : Char, x ≠ '-' → x.isDigit = false → c ≠ x := by
    intro x hx1 hx2 e
    subst e
    rcases h with h | h
    · exact hx1 h
    · rw [hx2] at h
      exact absurd h (by decide)
  unfold lexToken
  simp [hw, ne '{' (by decide) (by decide), ne '}' (by decide) (by decide),
    ne '[' (by decide) (by decide), ne ']' (by decide) (by decide),
    ne ',' (by decide) (by decide), ne ':' (by decide) (by decide),
    ne dq (by decide) (by decide), h]

theorem LexesTo.of_decimal (n : Int) : LexesTo Delim (decimal n) [Token.num n] := by
  by_cases hn : n < 0
  · obtain ⟨h1, h2, c, r, h3, h4⟩ := decimalNat_spec n.natAbs
    have hd : LevelConverter.decimal n = '-' :: decimalNat n.natAbs := by
      simp [LevelConverter.decimal, hn]
    rw [hd]
    refine LexesTo.of_token _ _ _ _ (fun X hX => ?_)
    rw [lexToken_number _ _ (Or.inl rfl)]
    have := lexUnsigned_digits true (decimalNat n.natAbs) X h1 ⟨c, r, h3, h4⟩ hX
    simp only [lexNumber, if_true, this, h2, Option.map_some']
    have e : -((n.natAbs : Nat) : Int) = n := by omega
    simp only [if_true, e]
  · obtain ⟨h1, h2, c, r, h3, h4⟩ := decimalNat_spec n.toNat
    have hd : LevelConverter.decimal n = c :: r := by simp [LevelConverter.decimal, hn, h3]
    have hc : c.isDigit = true := h1 c (by simp [h3])
    have hm : c ≠ '-' := by
      intro e
      subst e
      exact absurd hc (by decide)
    rw [hd]
    refine LexesTo.of_token _ _ _ _ (fun X hX => ?_)
    rw [lexToken_number _ _ (Or.inr hc)]
    have := lexUnsigned_digits false (decimalNat n.toNat) X h1 ⟨c, r, h3, h4⟩ hX
    rw [h3] at this
    simp only [lexNumber, hm, if_false, List.cons_append] at this ⊢
    rw [this]
    have e : ((n.toNat : Nat) : Int) = n := by omega
    have h2b : digitsValue (c :: r) = n.toNat := by rw [← h3]; exact h2
    simp [h2b, e]

theorem lexString_plain (k : List Char) : ∀ (rest : List Char) (fuel : Nat),
    keyOk k = true → k.length < fuel → lexString fuel (k ++ dq :: rest) = some (k, rest) := by
  induction k with
  | nil =>
    intro rest fuel _ hf
    obtain ⟨f, rfl⟩ : ∃ f, fuel = f + 1 := ⟨fuel - 1, by simp at hf; omega⟩
    simp [lexString]
  | cons c k ih =>
    intro rest fuel hok hf
    obtain ⟨f, rfl⟩ : ∃ f, fuel = f + 1 := ⟨fuel - 1, by omega⟩
    simp only [keyOk, List.all_cons, Bool.and_eq_true, decide_eq_true_eq] at hok
    obtain ⟨⟨⟨hc, h2⟩, h1⟩, hk⟩ := hok
    have ih2 := ih rest f (by simpa [keyOk] using hk) (by simp at hf; omega)
    have h3 : ¬ c.toNat < 32 := by omega
    simp [lexString, h1, h2, h3, ih2]

theorem LexesTo.key (k : List Char) (h : keyOk k = true) :
    LexesTo Free (dq :: k ++ [dq]) [Token.str k] := by
  refine LexesTo.of_token _ _ _ _ (fun X _ => ?_)
  have := lexString_plain k X ((k ++ [dq] ++ X).length + 1) h (by simp; omega)
  have e : k ++ [dq] ++ X = k ++ dq :: X := by simp
  rw [e] at this
  simp [lexToken, isWs, dq, e] at this ⊢
  simp [this]

theorem LexesTo.text (s : List Char) (h : textOk s = true) :
    LexesTo Free (dq :: escape s ++ [dq]) [Token.str s] := by
  refine LexesTo.of_token _ _ _ _ (fun X _ => ?_)
  have hl := escape_length s
  have := lexString_escape s X ((escape s ++ [dq] ++ X).length + 1) h (by simp; omega)
  have e : escape s ++ [dq] ++ X = escape s ++ dq :: X := by simp
  rw [e] at this
  simp [lexToken, isWs, dq, e] at this ⊢
  simp [this]

theorem LexesTo.of_val (x : Scalar) (h : x.ok = true) : LexesTo Delim (valText x) [x.token] := by
  cases x with
  | int n => exact LexesTo.of_decimal n
  | bool b => exact (LexesTo.bool b).weaken
  | str s => exact (LexesTo.text s h).weaken

/-! ## Lexing the text of a tree -/

theorem LexesTo.cast {C : List Char → Prop} {p q : List Char} {t u : List Token}
    (h : LexesTo C p t) (e : q = p) (e2 : u = t) : LexesTo C q u := by
  subst e
  subst e2
  exact h

theorem Delim.of_comma (X : List Char) : Delim (',' :: X) := ⟨_, _, rfl, Or.inl rfl⟩

theorem Delim.sep (pack : Bool) (d : Nat) (Y : List Char) :
    Delim (sepText false ++ nlText pack d ++ Y) := by
  simp [sepText, Delim.of_comma]

theorem Delim.close (pack : Bool) (d : Nat) (c : Char) (hc : c = ']' ∨ c = '}') (X : List Char) :
    Delim (nlText pack d ++ c :: X) := by
  cases pack
  · exact ⟨'\n', List.replicate (2 * d) ' ' ++ c :: X, by simp [nlText], Or.inr (Or.inl rfl)⟩
  · exact ⟨c, X, by simp [nlText], Or.inr (Or.inr hc)⟩

theorem Members.render_delim_m (pack : Bool) (d : Nat) (ms : Members) (X : List Char)
    (h : Delim X) : Delim (ms.render pack d false ++ X) := by
  cases ms with
  | nil => simpa [Members.render] using h
  | cons k v tl =>
    simp only [Members.render, List.append_assoc]
    exact Delim.sep pack d _ |> fun h => by simpa [List.append_assoc] using h

theorem Elems.render_delim_e (pack : Bool) (d : Nat) (xs : Elems) (X : List Char)
    (h : Delim X) : Delim (xs.render pack d false ++ X) := by
  cases xs with
  | nil => simpa [Elems.render] using h
  | cons v tl =>
    simp only [Elems.render, List.append_assoc]
    exact Delim.sep pack d _ |> fun h => by simpa [List.append_assoc] using h

theorem LexesTo.pair (pack : Bool) (x y : Scalar) (hx : x.ok = true) (hy : y.ok = true) :
    LexesTo Delim ('[' :: valText x ++ ',' :: spText pack ++ valText y ++ [']'])
      [Token.lbrack, x.token, Token.comma, y.token, Token.rbrack] := by
  have hy2 : LexesTo Delim (valText y ++ [']']) ([y.token] ++ [Token.rbrack]) :=
    LexesTo.append (LexesTo.of_val y hy) (LexesTo.rbrack.weaken (C := Delim))
      (fun X _ => ⟨']', X, rfl, Or.inr (Or.inr (Or.inl rfl))⟩)
  have h3 := LexesTo.append_free (LexesTo.of_sp pack) hy2
  have h4 := LexesTo.append_free LexesTo.comma h3
  have h5 := LexesTo.append (LexesTo.of_val x hx) h4 (fun X _ => by
    simpa using Delim.of_comma _)
  have h6 := LexesTo.append_free LexesTo.lbrack h5
  exact h6.cast (by simp) (by simp)

mutual
theorem Node.lexes_node (pack : Bool) : ∀ (d : Nat) (v : Node), v.ok = true →
    LexesTo Delim (v.render pack d) v.tokens
  | _, .scalar x, h => by
    simpa [Node.render, Node.tokens] using LexesTo.of_val x (by simpa [Node.ok] using h)
  | _, .pair x y, h => by
    simp only [Node.ok, Bool.and_eq_true] at h
    simpa [Node.render, Node.tokens] using LexesTo.pair pack x y h.1 h.2
  | d, .object ms, h => by
    have hm := Members.lexes_members pack (d + 1) true ms (by simpa [Node.ok] using h)
    have hc : LexesTo Delim (nlText pack d ++ ['}']) ([] ++ [Token.rbrace]) :=
      LexesTo.append_free (LexesTo.of_nl pack d) (LexesTo.rbrace.weaken (C := Delim))
    have h2 := LexesTo.append hm hc (fun X _ => by
      simpa using Delim.close pack d '}' (Or.inr rfl) X)
    have h3 := LexesTo.append_free LexesTo.lbrace h2
    exact h3.cast (by simp [Node.render]) (by simp [Node.tokens])
  | d, .array xs, h => by
    have hm := Elems.lexes_elems pack (d + 1) true xs (by simpa [Node.ok] using h)
    have hc : LexesTo Delim (nlText pack d ++ [']']) ([] ++ [Token.rbrack]) :=
      LexesTo.append_free (LexesTo.of_nl pack d) (LexesTo.rbrack.weaken (C := Delim))
    have h2 := LexesTo.append hm hc (fun X _ => by
      simpa using Delim.close pack d ']' (Or.inl rfl) X)
    have h3 := LexesTo.append_free LexesTo.lbrack h2
    exact h3.cast (by simp [Node.render]) (by simp [Node.tokens])
theorem Members.lexes_members (pack : Bool) : ∀ (d : Nat) (first : Bool) (ms : Members), ms.ok = true →
    LexesTo Delim (ms.render pack d first) (ms.tokens first)
  | _, _, .nil, _ => by
    simpa [Members.render, Members.tokens] using LexesTo.nil Delim
  | d, first, .cons k v tl, h => by
    simp only [Members.ok, Bool.and_eq_true] at h
    have hv := Node.lexes_node pack d v h.1.2
    have ht := Members.lexes_members pack d false tl h.2
    have h1 := LexesTo.append hv ht (fun X hX => Members.render_delim_m pack d tl X hX)
    have h2 := LexesTo.append_free (LexesTo.of_sp pack) h1
    have h3 := LexesTo.append_free LexesTo.colon h2
    have h4 := LexesTo.append_free (LexesTo.key k h.1.1) h3
    have h5 := LexesTo.append_free (LexesTo.of_nl pack d) h4
    have h6 := LexesTo.append_free (LexesTo.of_sep first) h5
    exact h6.cast (by simp [Members.render]) (by cases first <;> simp [Members.tokens])
theorem Elems.lexes_elems (pack : Bool) : ∀ (d : Nat) (first : Bool) (xs : Elems), xs.ok = true →
    LexesTo Delim (xs.render pack d first) (xs.tokens first)
  | _, _, .nil, _ => by
    simpa [Elems.render, Elems.tokens] using LexesTo.nil Delim
  | d, first, .cons v tl, h => by
    simp only [Elems.ok, Bool.and_eq_true] at h
    have hv := Node.lexes_node pack d v h.1
    have ht := Elems.lexes_elems pack d false tl h.2
    have h1 := LexesTo.append hv ht (fun X hX => Elems.render_delim_e pack d tl X hX)
    have h5 := LexesTo.append_free (LexesTo.of_nl pack d) h1
    have h6 := LexesTo.append_free (LexesTo.of_sep first) h5
    exact h6.cast (by simp [Elems.render]) (by cases first <;> simp [Elems.tokens])
end

/-! ## Running the calls of a tree -/

theorem JSON.run_append (a b : List Call) (j : JSON) :
    JSON.run (a ++ b) j = (JSON.run a j).bind (JSON.run b) := by
  induction a generalizing j with
  | nil => simp [JSON.run]
  | cons c a ih =>
    simp only [List.cons_append, JSON.run]
    cases h : j.step c with
    | none => simp
    | some j1 => simp [ih]

theorem JSON.run_cons (c : Call) (cs : List Call) (j : JSON) :
    JSON.run (c :: cs) j = (j.step c).bind (JSON.run cs) := rfl

theorem JSON.run_step (c : Call) (cs : List Call) (j j1 : JSON) (h : j.step c = some j1) :
    JSON.run (c :: cs) j = JSON.run cs j1 := by
  rw [JSON.run_cons, h]
  rfl

theorem JSON.lead_nil (j : JSON) (d : Nat) (h : j.in_array = false) : j.lead d = [] := by
  simp [JSON.lead, h]

mutual
theorem Node.run_node : ∀ (v : Node) (rest : List Call) (j : JSON) (d : Nat), j.i = (d : Int) →
    (j.in_array = true ∨ j.first = false) →
    JSON.run (v.calls ++ rest) j
      = JSON.run rest { j with o := j.o ++ (j.lead d ++ v.render j.pack d), first := false }
  | .scalar x, rest, j, d, hi, hf => by
    have e : (j.first && !j.in_array) = false := by
      rcases hf with h | h <;> simp [h]
    simp [Node.calls, JSON.run_cons, JSON.step, JSON.value_eq j d hi, Node.render, e]
  | .pair x y, rest, j, d, hi, hf => by
    have e : (j.first && !j.in_array) = false := by
      rcases hf with h | h <;> simp [h]
    simp [Node.calls, JSON.run_cons, JSON.step, JSON.value2_eq j d hi, Node.render, e]
  | .object ms, rest, j, d, hi, _ => by
    have s1 : j.step Call.object
        = some ⟨j.pack, Kind.OBJECT :: j.s, j.o ++ (j.lead d ++ ['{']), true, j.i + 1⟩ := by
      simp [JSON.step, JSON.object_eq j d hi]
    obtain ⟨b, hb⟩ := Members.run_members ms (Call.end_ :: rest)
      ⟨j.pack, Kind.OBJECT :: j.s, j.o ++ (j.lead d ++ ['{']), true, j.i + 1⟩
      (d + 1) (by simp [hi]) (by simp [JSON.in_array])
    have s2 : JSON.step ⟨j.pack, Kind.OBJECT :: j.s,
          j.o ++ (j.lead d ++ ['{']) ++ ms.render j.pack (d + 1) true, b, j.i + 1⟩ Call.end_
        = some { j with o := j.o ++ (j.lead d ++ (Node.object ms).render j.pack d),
                        first := false } := by
      rw [JSON.step, JSON.end_eq _ d (by simp [hi]) Kind.OBJECT j.s rfl]
      simp [Node.render]
    have e : (Node.object ms).calls ++ rest = Call.object :: (ms.calls ++ Call.end_ :: rest) := by
      simp [Node.calls]
    rw [e, JSON.run_step _ _ _ _ s1, hb]
    exact JSON.run_step _ _ _ _ s2
  | .array xs, rest, j, d, hi, _ => by
    have s1 : j.step Call.array
        = some ⟨j.pack, Kind.ARRAY :: j.s, j.o ++ (j.lead d ++ ['[']), true, j.i + 1⟩ := by
      simp [JSON.step, JSON.array_eq j d hi]
    obtain ⟨b, hb⟩ := Elems.run_elems xs (Call.end_ :: rest)
      ⟨j.pack, Kind.ARRAY :: j.s, j.o ++ (j.lead d ++ ['[']), true, j.i + 1⟩
      (d + 1) (by simp [hi]) (by simp [JSON.in_array])
    have s2 : JSON.step ⟨j.pack, Kind.ARRAY :: j.s,
          j.o ++ (j.lead d ++ ['[']) ++ xs.render j.pack (d + 1) true, b, j.i + 1⟩ Call.end_
        = some { j with o := j.o ++ (j.lead d ++ (Node.array xs).render j.pack d),
                        first := false } := by
      rw [JSON.step, JSON.end_eq _ d (by simp [hi]) Kind.ARRAY j.s rfl]
      simp [Node.render]
    have e : (Node.array xs).calls ++ rest = Call.array :: (xs.calls ++ Call.end_ :: rest) := by
      simp [Node.calls]
    rw [e, JSON.run_step _ _ _ _ s1, hb]
    exact JSON.run_step _ _ _ _ s2
theorem Members.run_members : ∀ (ms : Members) (rest : List Call) (j : JSON) (d : Nat),
    j.i = (d : Int) → j.in_array = false →
    ∃ b, JSON.run (ms.calls ++ rest) j
      = JSON.run rest { j with o := j.o ++ ms.render j.pack d j.first, first := b }
  | .nil, rest, j, d, _, _ => ⟨j.first, by simp [Members.calls, Members.render]⟩
  | .cons k v tl, rest, j, d, hi, ha => by
    have s1 : j.step (Call.name k)
        = some ⟨j.pack, j.s,
            j.o ++ (sepText j.first ++ nlText j.pack d ++ dq :: k ++ dq :: ':' :: spText j.pack),
            false, j.i⟩ := by
      simp [JSON.step, JSON.name_eq j d hi]
    have hv := Node.run_node v (tl.calls ++ rest)
      ⟨j.pack, j.s,
        j.o ++ (sepText j.first ++ nlText j.pack d ++ dq :: k ++ dq :: ':' :: spText j.pack),
        false, j.i⟩ d hi (Or.inr rfl)
    rw [JSON.lead_nil _ d (by simpa [JSON.in_array] using ha)] at hv
    obtain ⟨b, hb⟩ := Members.run_members tl rest
      ⟨j.pack, j.s,
        j.o ++ (sepText j.first ++ nlText j.pack d ++ dq :: k ++ dq :: ':' :: spText j.pack)
          ++ ([] ++ v.render j.pack d),
        false, j.i⟩ d hi (by simpa [JSON.in_array] using ha)
    refine ⟨b, ?_⟩
    have e : (Members.cons k v tl).calls ++ rest = Call.name k :: (v.calls ++ (tl.calls ++ rest)) := by
      simp [Members.calls]
    rw [e, JSON.run_step _ _ _ _ s1, hv, hb]
    congr 1
    simp [Members.render]
theorem Elems.run_elems : ∀ (xs : Elems) (rest : List Call) (j : JSON) (d : Nat),
    j.i = (d : Int) → j.in_array = true →
    ∃ b, JSON.run (xs.calls ++ rest) j
      = JSON.run rest { j with o := j.o ++ xs.render j.pack d j.first, first := b }
  | .nil, rest, j, d, _, _ => ⟨j.first, by simp [Elems.calls, Elems.render]⟩
  | .cons v tl, rest, j, d, hi, ha => by
    have hv := Node.run_node v (tl.calls ++ rest) j d hi (Or.inl ha)
    obtain ⟨b, hb⟩ := Elems.run_elems tl rest
      { j with o := j.o ++ (j.lead d ++ v.render j.pack d), first := false } d hi
      (by simpa [JSON.in_array] using ha)
    refine ⟨b, ?_⟩
    have e : (Elems.cons v tl).calls ++ rest = v.calls ++ (tl.calls ++ rest) := by
      simp [Elems.calls]
    rw [e, hv, hb]
    congr 1
    simp [Elems.render, JSON.lead, ha]
end

/-! ## Parsing the tokens of a tree -/

theorem Scalar.parses_scalar (x : Scalar) (f : Nat) (rest : List Token) :
    parseValue (f + 1) (x.token :: rest) = some (x.toJ, rest) := by
  cases x <;> simp [Scalar.token, Scalar.toJ, parseValue]

theorem Members.tokens_false_m (k : List Char) (v : Node) (tl : Members) :
    (Members.cons k v tl).tokens false = Token.comma :: (Members.cons k v tl).tokens true := by
  simp [Members.tokens]

theorem Elems.tokens_false_e (v : Node) (tl : Elems) :
    (Elems.cons v tl).tokens false = Token.comma :: (Elems.cons v tl).tokens true := by
  simp [Elems.tokens]

theorem Node.tokens_pos (v : Node) : 1 ≤ v.tokens.length := by
  cases v <;> simp [Node.tokens]

theorem Node.tokens_head (v : Node) : ∃ t r, v.tokens = t :: r ∧ t ≠ Token.rbrack := by
  cases v with
  | scalar x => cases x <;> simp [Node.tokens, Scalar.token]
  | pair x y => simp [Node.tokens]
  | object ms => simp [Node.tokens]
  | array xs => simp [Node.tokens]

theorem parseValue_lbrack (f : Nat) (ts : List Token)
    (h : ∃ t r, ts = t :: r ∧ t ≠ Token.rbrack) :
    parseValue (f + 1) (Token.lbrack :: ts) = (parseElems f ts).map fun p => (JVal.arr p.1, p.2) := by
  obtain ⟨t, r, rfl, ht⟩ := h
  cases t <;> first | exact absurd rfl ht | simp [parseValue]

theorem parseValue_lbrace (f : Nat) (k : List Char) (ts : List Token) :
    parseValue (f + 1) (Token.lbrace :: Token.str k :: ts)
      = (parseMembers f (Token.str k :: ts)).map fun p => (JVal.obj p.1, p.2) := by
  simp [parseValue]

theorem parseElems_succ (f : Nat) (ts : List Token) :
    parseElems (f + 1) ts
      = (parseValue f ts).bind fun p =>
          match p.2 with
          | .comma :: ts2 => (parseElems f ts2).map fun q => (p.1 :: q.1, q.2)
          | .rbrack :: ts2 => some ([p.1], ts2)
          | _ => none := by
  simp [parseElems]

theorem parseMembers_succ (f : Nat) (k : List Char) (ts : List Token) :
    parseMembers (f + 1) (Token.str k :: Token.colon :: ts)
      = (parseValue f ts).bind fun p =>
          match p.2 with
          | .comma :: ts2 => (parseMembers f ts2).map fun q => ((k, p.1) :: q.1, q.2)
          | .rbrace :: ts2 => some ([(k, p.1)], ts2)
          | _ => none := by
  simp [parseMembers]

mutual
theorem Node.parses_node : ∀ (v : Node) (fuel : Nat) (rest : List Token), v.tokens.length ≤ fuel →
    parseValue fuel (v.tokens ++ rest) = some (v.toJ, rest)
  | .scalar x, fuel, rest, h => by
    obtain ⟨f, rfl⟩ : ∃ f, fuel = f + 1 := ⟨fuel - 1, by simp [Node.tokens] at h; omega⟩
    simpa [Node.tokens, Node.toJ] using Scalar.parses_scalar x f rest
  | .pair x y, fuel, rest, h => by
    obtain ⟨f, rfl⟩ : ∃ f, fuel = f + 5 := ⟨fuel - 5, by simp [Node.tokens] at h; omega⟩
    have e : (Node.pair x y).tokens ++ rest
        = Token.lbrack :: x.token :: Token.comma :: y.token :: Token.rbrack :: rest := by
      simp [Node.tokens]
    rw [e, parseValue_lbrack (f + 4) _ ⟨x.token, _, rfl, by cases x <;> simp [Scalar.token]⟩,
      parseElems_succ, Scalar.parses_scalar x (f + 2)]
    simp only [Option.some_bind]
    rw [parseElems_succ, Scalar.parses_scalar y (f + 1)]
    simp [Node.toJ]
  | .object .nil, fuel, rest, h => by
    obtain ⟨f, rfl⟩ : ∃ f, fuel = f + 1 := ⟨fuel - 1, by simp [Node.tokens] at h; omega⟩
    simp [Node.tokens, Members.tokens, Node.toJ, Members.toJ, parseValue]
  | .object (.cons k v tl), fuel, rest, h => by
    obtain ⟨f, rfl⟩ : ∃ f, fuel = f + 1 := ⟨fuel - 1, by simp [Node.tokens] at h; omega⟩
    have hm := Members.parses_members (.cons k v tl) f rest (by simp) (by simp [Node.tokens] at h; omega)
    have e : (Node.object (.cons k v tl)).tokens ++ rest
        = Token.lbrace :: Token.str k ::
            (Token.colon :: (v.tokens ++ tl.tokens false) ++ Token.rbrace :: rest) := by
      simp [Node.tokens, Members.tokens]
    have e2 : (Members.cons k v tl).tokens true ++ Token.rbrace :: rest
        = Token.str k :: (Token.colon :: (v.tokens ++ tl.tokens false) ++ Token.rbrace :: rest) := by
      simp [Members.tokens]
    rw [e, parseValue_lbrace, ← e2, hm]
    simp [Node.toJ]
  | .array .nil, fuel, rest, h => by
    obtain ⟨f, rfl⟩ : ∃ f, fuel = f + 1 := ⟨fuel - 1, by simp [Node.tokens] at h; omega⟩
    simp [Node.tokens, Elems.tokens, Node.toJ, Elems.toJ, parseValue]
  | .array (.cons v tl), fuel, rest, h => by
    obtain ⟨f, rfl⟩ : ∃ f, fuel = f + 1 := ⟨fuel - 1, by simp [Node.tokens] at h; omega⟩
    have hm := Elems.parses_elems (.cons v tl) f rest (by simp) (by simp [Node.tokens] at h; omega)
    have e : (Node.array (.cons v tl)).tokens ++ rest
        = Token.lbrack :: ((Elems.cons v tl).tokens true ++ Token.rbrack :: rest) := by
      simp [Node.tokens]
    obtain ⟨t, r, ht, hne⟩ := v.tokens_head
    rw [e, parseValue_lbrack f _ ⟨t, r ++ tl.tokens false ++ Token.rbrack :: rest,
      by simp [Elems.tokens, ht], hne⟩, hm]
    simp [Node.toJ]
theorem Members.parses_members : ∀ (ms : Members) (fuel : Nat) (rest : List Token), ms ≠ .nil →
    (ms.tokens true).length + 1 ≤ fuel →
    parseMembers fuel (ms.tokens true ++ Token.rbrace :: rest) = some (ms.toJ, rest)
  | .nil, _, _, hne, _ => absurd rfl hne
  | .cons k v .nil, fuel, rest, _, h => by
    obtain ⟨f, rfl⟩ : ∃ f, fuel = f + 1 := ⟨fuel - 1, by omega⟩
    have hv := Node.parses_node v f (Token.rbrace :: rest) (by simp [Members.tokens] at h; omega)
    have e : (Members.cons k v .nil).tokens true ++ Token.rbrace :: rest
        = Token.str k :: Token.colon :: (v.tokens ++ Token.rbrace :: rest) := by
      simp [Members.tokens]
    rw [e, parseMembers_succ, hv]
    simp [Members.toJ]
  | .cons k v (.cons k2 v2 tl2), fuel, rest, _, h => by
    obtain ⟨f, rfl⟩ : ∃ f, fuel = f + 1 := ⟨fuel - 1, by omega⟩
    have hl : ((Members.cons k v (.cons k2 v2 tl2)).tokens true).length
        = 2 + v.tokens.length + (1 + ((Members.cons k2 v2 tl2).tokens true).length) := by
      simp [Members.tokens]
      omega
    have hv := Node.parses_node v f
      (Token.comma :: ((Members.cons k2 v2 tl2).tokens true ++ Token.rbrace :: rest)) (by omega)
    have ht := Members.parses_members (.cons k2 v2 tl2) f rest (by simp) (by omega)
    have e : (Members.cons k v (.cons k2 v2 tl2)).tokens true ++ Token.rbrace :: rest
        = Token.str k :: Token.colon :: (v.tokens
            ++ Token.comma :: ((Members.cons k2 v2 tl2).tokens true ++ Token.rbrace :: rest)) := by
      simp [Members.tokens]
    rw [e, parseMembers_succ, hv]
    simp only [Option.some_bind]
    rw [ht]
    simp [Members.toJ]
theorem Elems.parses_elems : ∀ (xs : Elems) (fuel : Nat) (rest : List Token), xs ≠ .nil →
    (xs.tokens true).length + 1 ≤ fuel →
    parseElems fuel (xs.tokens true ++ Token.rbrack :: rest) = some (xs.toJ, rest)
  | .nil, _, _, hne, _ => absurd rfl hne
  | .cons v .nil, fuel, rest, _, h => by
    obtain ⟨f, rfl⟩ : ∃ f, fuel = f + 1 := ⟨fuel - 1, by omega⟩
    have hv := Node.parses_node v f (Token.rbrack :: rest) (by simp [Elems.tokens] at h; omega)
    have e : (Elems.cons v .nil).tokens true ++ Token.rbrack :: rest
        = v.tokens ++ Token.rbrack :: rest := by
      simp [Elems.tokens]
    rw [e, parseElems_succ, hv]
    simp [Elems.toJ]
  | .cons v (.cons v2 tl2), fuel, rest, _, h => by
    obtain ⟨f, rfl⟩ : ∃ f, fuel = f + 1 := ⟨fuel - 1, by omega⟩
    have hl : ((Elems.cons v (.cons v2 tl2)).tokens true).length
        = v.tokens.length + (1 + ((Elems.cons v2 tl2).tokens true).length) := by
      simp [Elems.tokens]
      omega
    have hp := v.tokens_pos
    have hv := Node.parses_node v f
      (Token.comma :: ((Elems.cons v2 tl2).tokens true ++ Token.rbrack :: rest)) (by omega)
    have ht := Elems.parses_elems (.cons v2 tl2) f rest (by simp) (by omega)
    have e : (Elems.cons v (.cons v2 tl2)).tokens true ++ Token.rbrack :: rest
        = v.tokens
            ++ Token.comma :: ((Elems.cons v2 tl2).tokens true ++ Token.rbrack :: rest) := by
      simp [Elems.tokens]
    rw [e, parseElems_succ, hv]
    simp only [Option.some_bind]
    rw [ht]
    simp [Elems.toJ]
end

/-! ## Whole documents -/

theorem Members.lexes_closed (pack : Bool) (d : Nat) (ms : Members) (h : ms.ok = true) :
    LexesTo Free ('{' :: ms.render pack (d + 1) true ++ nlText pack d ++ ['}'])
      (Token.lbrace :: (ms.tokens true ++ [Token.rbrace])) := by
  have hm := Members.lexes_members pack (d + 1) true ms h
  have hc : LexesTo Free (nlText pack d ++ ['}']) ([] ++ [Token.rbrace]) :=
    LexesTo.append_free (LexesTo.of_nl pack d) LexesTo.rbrace
  have h2 := LexesTo.append hm hc (fun X _ => by
    simpa using Delim.close pack d '}' (Or.inr rfl) X)
  have h3 := LexesTo.append_free LexesTo.lbrace h2
  exact h3.cast (by simp) (by simp)

/-- The text of the document whose root object has the members `ms`. -/
theorem document_tree (pack : Bool) (ms : Members) :
    document pack ms.calls
      = some ('{' :: ms.render pack 1 true ++ nlText pack 0 ++ ['}']
               ++ (if pack then [] else ['\n'])) := by
  obtain ⟨b, hb⟩ := Members.run_members ms [] (JSON.new pack) 1 rfl rfl
  rw [List.append_nil] at hb
  unfold document
  rw [hb]
  cases pack <;> simp [JSON.run, JSON.finish, JSON.new, nlText]

theorem jsonParse_tree (pack : Bool) (ms : Members) (h : ms.ok = true) :
    jsonParse ('{' :: ms.render pack 1 true ++ nlText pack 0 ++ ['}']
               ++ (if pack then [] else ['\n'])) = some (JVal.obj ms.toJ) := by
  have hw : LexesTo Free (if pack then [] else ['\n']) [] := by
    cases pack
    · exact LexesTo.ws '\n' (by decide)
    · exact LexesTo.nil _
  have hl := LexesTo.append_free (Members.lexes_closed pack 0 ms h) hw
  have hx := hl [] 0 [] trivial (lex_nil 0)
  rw [List.append_nil, List.append_nil, List.append_nil] at hx
  simp only [Nat.zero_add] at hx
  have hx2 := lex_mono _ (('{' :: ms.render pack 1 true ++ nlText pack 0 ++ ['}']
               ++ (if pack then [] else ['\n'])).length + 1) _ _ (by omega) hx
  have hp := Node.parses_node (Node.object ms) ((Token.lbrace :: (ms.tokens true ++ [Token.rbrace])).length + 1) []
    (by simp [Node.tokens])
  have e : (Node.object ms).tokens ++ [] = Token.lbrace :: (ms.tokens true ++ [Token.rbrace]) := by
    simp [Node.tokens]
  rw [e] at hp
  unfold jsonParse
  rw [hx2]
  simp only [Option.some_bind]
  rw [hp]
  simp [Node.toJ]

/-- C1, as the code has it: for every call sequence that mirrors a JSON object tree whose keys
hold no control character, double quote or backslash and whose string values hold no control
character, and for either pack mode, the text written from construction through finalization
is valid JSON and parses back to the tree: same keys in call order, same values, same nesting
(a pair being a two-element array). -/
theorem tree_document_parses (ms : Members) (h : ms.ok = true) (pack : Bool) :
    ∃ text, document pack ms.calls = some text ∧ jsonParse text = some (JVal.obj ms.toJ) :=
  ⟨_, document_tree pack ms, jsonParse_tree pack ms h⟩

/-- Witness of C1: an object with a number, a nested array holding a pair, and a string. -/
theorem tree_document_parses_witness :
    ∃ text, document false
        (Members.cons "a".toList (.scalar (.int 3))
          (.cons "b".toList (.array (.cons (.pair (.int 1) (.str "x\"y".toList)) .nil))
            .nil)).calls = some text
      ∧ jsonParse text = some (JVal.obj
          [("a".toList, .num 3), ("b".toList, .arr [.arr [.num 1, .str "x\"y".toList]])]) :=
  tree_document_parses
    (Members.cons "a".toList (.scalar (.int 3))
      (.cons "b".toList (.array (.cons (.pair (.int 1) (.str "x\"y".toList)) .nil)) .nil))
    (by decide) false

/-- C1 does not hold for every call sequence that mirrors a tree: `name` writes the key
unescaped, so a key with a double quote in it gives a text that is not JSON, and `quote`
leaves a line feed inside a string value raw, which JSON does not allow either. -/
theorem tree_document_unescaped_key :
    (document true (Members.cons ['a', dq, 'b'] (.scalar (.int 1)) .nil).calls
        = some "\x7b\"a\"b\":1\x7d".toList
      ∧ (jsonParse "\x7b\"a\"b\":1\x7d".toList).isNone = true)
    ∧ (document true (Members.cons ['k'] (.scalar (.str ['a', '\n', 'b'])) .nil).calls
        = some "\x7b\"k\":\"a\nb\"\x7d".toList
      ∧ (jsonParse "\x7b\"k\":\"a\nb\"\x7d".toList).isNone = true) := by
  decide

/-! ## The calls of `convert` are the calls of a tree -/

theorem enemyType_eq (nm : List Char) : enemyType nm = some (enemyTypeText nm) := by
  unfold enemyType
  rw [sub_eq_replaceAll _ _ _ (by decide)]
  simp only [Option.some_bind]
  rw [sub_eq_replaceAll _ _ _ (by simp)]
  rfl

theorem Elems.calls_ofList (ns : List Node) :
    (Elems.ofList ns).calls = (ns.map Node.calls).flatten := by
  induction ns with
  | nil => simp [Elems.ofList, Elems.calls]
  | cons v vs ih => simp [Elems.ofList, Elems.calls, ih]

theorem doorCalls_eq (sch : Schema) (door : FileDoor) :
    doorCalls sch door = (doorNode sch door).calls := by
  simp [doorCalls, doorNode, Members.ofList, Node.calls, Members.calls]

theorem cogCalls_eq (cog : FileCog) : cogCalls cog = (cogNode cog).calls := by
  simp [cogCalls, cogNode, Members.ofList, Node.calls, Members.calls]

theorem signCalls_eq (sign : FileSign) : signCalls sign = (signNode sign).calls := by
  simp [signCalls, signNode, Members.ofList, Node.calls, Members.calls]

theorem buttonCalls_eq (button : FileButton) : buttonCalls button = (buttonNode button).calls := by
  simp [buttonCalls, buttonNode, Members.ofList, Node.calls, Members.calls, Elems.calls_ofList,
    List.map_map, Function.comp_def]
  induction button.door_index with
  | nil => simp
  | cons d ds ih => simp [ih]

theorem enemyCalls_eq (enemy : FileEnemy) : enemyCalls enemy = some (enemyNode enemy).calls := by
  simp [enemyCalls, enemyType_eq, enemyNode, Members.ofList, Node.calls, Members.calls]

theorem enemiesCalls_eq (es : List FileEnemy) :
    enemiesCalls es = some ((es.map fun e => (enemyNode e).calls).flatten) := by
  induction es with
  | nil => simp [enemiesCalls]
  | cons e es ih => simp [enemiesCalls, enemyCalls_eq, ih]

theorem Node.calls_scalar (x : Scalar) : (Node.scalar x).calls = [Call.value x] := by
  simp [Node.calls]

theorem Node.calls_pair (x y : Scalar) : (Node.pair x y).calls = [Call.value2 x y] := by
  simp [Node.calls]

theorem Node.calls_array (xs : Elems) :
    (Node.array xs).calls = Call.array :: (xs.calls ++ [Call.end_]) := by
  simp [Node.calls]

theorem Members.calls_cons (k : List Char) (v : Node) (tl : Members) :
    (Members.cons k v tl).calls = Call.name k :: (v.calls ++ tl.calls) := by
  simp [Members.calls]

theorem Members.calls_nil : Members.nil.calls = [] := by
  simp [Members.calls]

theorem entityNodes_calls (sch : Schema) (world : FileWorld) :
    ((entityNodes sch world).map Node.calls).flatten
      = (world.door.map (doorCalls sch)).flatten ++ (world.cog.map cogCalls).flatten
        ++ (world.button.map buttonCalls).flatten ++ (world.sign.map signCalls).flatten
        ++ (world.enemy.map fun e => (enemyNode e).calls).flatten := by
  have e1 : doorCalls sch = fun d => (doorNode sch d).calls := funext (doorCalls_eq sch)
  have e2 : cogCalls = fun d => (cogNode d).calls := funext cogCalls_eq
  have e3 : buttonCalls = fun d => (buttonNode d).calls := funext buttonCalls_eq
  have e4 : signCalls = fun d => (signNode d).calls := funext signCalls_eq
  rw [e1, e2, e3, e4]
  simp only [entityNodes, List.map_append, List.flatten_append, List.map_map, Function.comp_def]

theorem convertCalls_eq (sch : Schema) (world : FileWorld) :
    convertCalls sch world = some (worldTree sch world).calls := by
  unfold convertCalls
  rw [enemiesCalls_eq]
  simp only [Option.map_some', Option.some.injEq, worldTree, worldTail, Members.ofList,
    Members.calls_cons, Members.calls_nil, Node.calls_scalar, Node.calls_pair, Node.calls_array,
    Elems.calls_ofList, entityNodes_calls, headCalls]
  simp

/-- The text `convert` writes is the text of the tree. -/
theorem convert_eq (sch : Schema) (world : FileWorld) (pack : Bool) :
    convert sch world pack
      = some ('{' :: (worldTree sch world).render pack 1 true ++ nlText pack 0 ++ ['}']
               ++ (if pack then [] else ['\n'])) := by
  unfold convert
  rw [convertCalls_eq]
  exact document_tree pack _

theorem IntType.wrap_of_holds (t : IntType) (v : Int) (h : t.holds v) : t.wrap v = v := by
  cases t <;> simp [IntType.holds, IntType.wrap, IntType.bits, IntType.signed] at h ⊢ <;> omega

/-! ## The projection: enemy type, empty records, dimensions -/

theorem replaceAll_no_infix (oldStr newStr : List Char) :
    ∀ s : List Char, ¬ oldStr <:+: s → replaceAll oldStr newStr 0 s = s := by
  intro s
  induction s with
  | nil => intro _; simp [replaceAll]
  | cons c cs ih =>
    intro h
    have hp : oldStr.isPrefixOf (c :: cs) = false := by
      apply Bool.eq_false_iff.mpr
      intro hp
      exact h (List.isPrefixOf_iff_prefix.mp hp).isInfix
    have hcs : ¬ oldStr <:+: cs := fun hi => h (hi.trans (List.suffix_cons c cs).isInfix)
    simp [replaceAll, hp, ih hcs]

theorem replaceAll_at_start (oldStr newStr rest : List Char) (h : oldStr ≠ []) :
    replaceAll oldStr newStr 0 (oldStr ++ rest) = newStr ++ replaceAll oldStr newStr 0 rest := by
  cases oldStr with
  | nil => exact absurd rfl h
  | cons a as =>
    have hp : (a :: as).isPrefixOf (a :: (as ++ rest)) = true :=
      List.isPrefixOf_iff_prefix.mpr (by simp)
    simp only [List.cons_append, replaceAll, hp, if_true]
    rw [replaceAll_skip]
    simp

theorem map_single (a b : Char) (s : List Char) :
    (s.map fun c => if c = a then [b] else [c]).flatten = s.map fun c => if c = a then b else c := by
  induction s with
  | nil => simp
  | cons c cs ih =>
    by_cases h : c = a <;> simp [h, ih]

theorem enemyTypeText_stripped (rest : List Char) (hn : ¬ "ENEMY_".toList <:+: rest) :
    enemyTypeText ("ENEMY_".toList ++ rest)
      = (rest.map fun c => if c = '_' then ' ' else c).map Char.toLower := by
  unfold enemyTypeText
  rw [replaceAll_at_start _ _ _ (by decide), replaceAll_no_infix _ _ _ hn, replaceAll_single,
    map_single]
  simp

/-- C5, as the code has it: for every enemy type name that starts with `ENEMY_` and has no
further occurrence of `ENEMY_` after that prefix, the string `convert` passes to the writer
under the key `type` is the name with the prefix stripped, every underscore turned into a
space, and lowercased. -/
theorem enemy_type_normalised (enemy : FileEnemy) (rest : List Char)
    (h : enemy.type_name = "ENEMY_".toList ++ rest) (hn : ¬ "ENEMY_".toList <:+: rest) :
    enemyType enemy.type_name
        = some ((rest.map fun c => if c = '_' then ' ' else c).map Char.toLower)
    ∧ enemyCalls enemy = some
        [ .object,
          .name "class".toList, .value (.str "enemy".toList),
          .name "type".toList,
          .value (.str ((rest.map fun c => if c = '_' then ' ' else c).map Char.toLower)),
          .name "pos".toList, .value2 (.int enemy.center_x) (.int enemy.center_y),
          .name "color".toList, .value (.int enemy.color),
          .name "angle".toList, .value (.int enemy.angle),
          .end_ ] := by
  have e := enemyTypeText_stripped rest hn
  constructor
  · rw [enemyType_eq, h, e]
  · unfold enemyCalls
    rw [enemyType_eq, h, e]
    rfl

/-- Witness of C5: `ENEMY_FIRE_IMP` is written as `fire imp`. -/
theorem enemy_type_normalised_witness :
    enemyType "ENEMY_FIRE_IMP".toList = some "fire imp".toList := by
  have h := (enemy_type_normalised ⟨"ENEMY_FIRE_IMP".toList, 0, 0, 0, 0⟩ "FIRE_IMP".toList
    (by decide) (by decide)).1
  rw [h]
  decide

/-- C5 does not hold for every name with the prefix: `sub` removes every `ENEMY_`, not only
the leading one, so `ENEMY_SUPER_ENEMY_BOSS` is written as `super boss`, while stripping the
prefix alone gives `super enemy boss`. -/
theorem enemy_type_inner_occurrence :
    enemyType "ENEMY_SUPER_ENEMY_BOSS".toList = some "super boss".toList
    ∧ specEnemyType "ENEMY_SUPER_ENEMY_BOSS".toList = "super enemy boss".toList
    ∧ enemyType "ENEMY_SUPER_ENEMY_BOSS".toList
        ≠ some (specEnemyType "ENEMY_SUPER_ENEMY_BOSS".toList) := by
  decide

theorem worldTree_empty_ok (sch : Schema) (world : FileWorld) (hd : world.door = [])
    (hc : world.cog = []) (hb : world.button = []) (hs : world.sign = [])
    (he : world.enemy = []) : (worldTree sch world).ok = true := by
  simp [worldTree, worldTail, entityNodes, hd, hc, hb, hs, he, Members.ofList, Elems.ofList,
    Members.ok, Node.ok, Elems.ok, Scalar.ok]
  decide

theorem suffix_cons_right {s l : List Char} (a : Char) (h : s <:+ l) : s <:+ a :: l :=
  h.trans (List.suffix_cons a l)

theorem suffix_append_right {s l : List Char} (p : List Char) (h : s <:+ l) : s <:+ p ++ l :=
  h.trans (List.suffix_append p l)

/-- The document of a record without entities, and what it parses to. -/
theorem convert_empty (sch : Schema) (world : FileWorld) (pack : Bool) (hd : world.door = [])
    (hc : world.cog = []) (hb : world.button = []) (hs : world.sign = [])
    (he : world.enemy = []) :
    ∃ text, convert sch world pack = some text
      ∧ jsonParse text = some (JVal.obj
          [ ("unique_id".toList, .num world.unique_id),
            ("width".toList, .num (sch.dim.wrap (world.width * 8))),
            ("height".toList, .num (sch.dim.wrap (world.height * 8))),
            ("start".toList, .arr [.num world.players_start_x, .num world.players_start_y]),
            ("end".toList, .arr [.num world.players_end_x, .num world.players_end_y]),
            ("entities".toList, .arr []) ]) := by
  refine ⟨_, convert_eq sch world pack, ?_⟩
  rw [jsonParse_tree pack _ (worldTree_empty_ok sch world hd hc hb hs he)]
  simp [worldTree, worldTail, entityNodes, hd, hc, hb, hs, he, Members.ofList, Elems.ofList,
    Members.toJ, Node.toJ, Elems.toJ, Scalar.toJ]

/-- C6: for every record with zero doors, cogs, buttons, signs and enemies, and for both pack
modes, `convert` writes a document that parses to an object whose `entities` member is the
empty array; in packed mode its text is `[]`, in pretty mode `[`, a line feed, two spaces
and `]`. -/
theorem empty_record_entities (sch : Schema) (world : FileWorld) (pack : Bool)
    (hd : world.door = []) (hc : world.cog = []) (hb : world.button = [])
    (hs : world.sign = []) (he : world.enemy = []) :
    ∃ text doc, convert sch world pack = some text ∧ jsonParse text = some doc
      ∧ doc.field "entities".toList = some (JVal.arr [])
      ∧ (if pack then "\"entities\":[]\x7d".toList
         else "\"entities\": [\n  ]\n\x7d\n".toList) <:+ text := by
  obtain ⟨text, h1, h2⟩ := convert_empty sch world pack hd hc hb hs he
  refine ⟨text, _, h1, h2, ?_, ?_⟩
  · simp [JVal.field, List.find?]
  · rw [convert_eq] at h1
    cases h1
    cases pack
    · simp [worldTree, worldTail, entityNodes, hd, hc, hb, hs, he, Members.ofList, Elems.ofList,
        Members.render, Node.render, Elems.render, nlText, spText, sepText]
      repeat (first
        | exact List.suffix_refl _
        | apply suffix_cons_right
        | apply suffix_append_right)
    · simp [worldTree, worldTail, entityNodes, hd, hc, hb, hs, he, Members.ofList, Elems.ofList,
        Members.render, Node.render, Elems.render, nlText, spText, sepText]
      repeat (first
        | exact List.suffix_refl _
        | apply suffix_cons_right
        | apply suffix_append_right)

/-- Witness of C6: a record without entities, packed. -/
theorem empty_record_entities_witness :
    ∃ text doc, convert ⟨1, 1, .int32⟩ ⟨7, 10, 12, 1, 2, 3, 4, [], [], [], [], []⟩ true = some text
      ∧ jsonParse text = some doc
      ∧ doc.field "entities".toList = some (JVal.arr [])
      ∧ (if true then "\"entities\":[]\x7d".toList
         else "\"entities\": [\n  ]\n\x7d\n".toList) <:+ text :=
  empty_record_entities ⟨1, 1, .int32⟩ ⟨7, 10, 12, 1, 2, 3, 4, [], [], [], [], []⟩ true
    rfl rfl rfl rfl rfl

/-- C7, as the code has it: for every record with zero entities of every kind, and for both
pack modes, the keys of the emitted document whose values are arrays are `start` and `end`
(the two-element arrays the pair overload writes) and `entities` (the empty array), in that
order; every other key holds a number. -/
theorem empty_record_array_keys (sch : Schema) (world : FileWorld) (pack : Bool)
    (hd : world.door = []) (hc : world.cog = []) (hb : world.button = [])
    (hs : world.sign = []) (he : world.enemy = []) :
    ∃ text doc, convert sch world pack = some text ∧ jsonParse text = some doc
      ∧ doc.arrayKeys = ["start".toList, "end".toList, "entities".toList]
      ∧ doc.field "start".toList
          = some (JVal.arr [.num world.players_start_x, .num world.players_start_y])
      ∧ doc.field "end".toList
          = some (JVal.arr [.num world.players_end_x, .num world.players_end_y])
      ∧ doc.field "unique_id".toList = some (JVal.num world.unique_id)
      ∧ doc.field "width".toList = some (JVal.num (sch.dim.wrap (world.width * 8)))
      ∧ doc.field "height".toList = some (JVal.num (sch.dim.wrap (world.height * 8))) := by
  obtain ⟨text, h1, h2⟩ := convert_empty sch world pack hd hc hb hs he
  refine ⟨text, _, h1, h2, ?_, ?_, ?_, ?_, ?_, ?_⟩ <;>
    simp [JVal.arrayKeys, JVal.isArr, JVal.field, List.find?, List.filter]

/-- Witness of C7: a record without entities, pretty. -/
theorem empty_record_array_keys_witness :
    ∃ text doc, convert ⟨1, 1, .int32⟩ ⟨7, 10, 12, 1, 2, 3, 4, [], [], [], [], []⟩ false = some text
      ∧ jsonParse text = some doc
      ∧ doc.arrayKeys = ["start".toList, "end".toList, "entities".toList] := by
  obtain ⟨text, doc, h1, h2, h3, _⟩ :=
    empty_record_array_keys ⟨1, 1, .int32⟩ ⟨7, 10, 12, 1, 2, 3, 4, [], [], [], [], []⟩ false
      rfl rfl rfl rfl rfl
  exact ⟨text, doc, h1, h2, h3⟩

/-- C7 does not hold as stated: in the document of a record without entities the key `start`
holds an array as well, the pair `[1,2]`. -/
theorem empty_record_start_is_array :
    ∃ text doc, convert ⟨1, 1, .int32⟩ ⟨7, 10, 12, 1, 2, 3, 4, [], [], [], [], []⟩ true = some text
      ∧ text = "\x7b\"unique_id\":7,\"width\":80,\"height\":96,\"start\":[1,2],\"end\":[3,4],\"entities\":[]\x7d".toList
      ∧ jsonParse text = some doc
      ∧ doc.field "start".toList = some (JVal.arr [.num 1, .num 2])
      ∧ "start".toList ∈ doc.arrayKeys ∧ "start".toList ≠ "entities".toList := by
  obtain ⟨text, h1, h2⟩ :=
    convert_empty ⟨1, 1, .int32⟩ ⟨7, 10, 12, 1, 2, 3, 4, [], [], [], [], []⟩ true rfl rfl rfl rfl rfl
  refine ⟨text, _, h1, ?_, h2, ?_, ?_, by decide⟩
  · have h3 : convert ⟨1, 1, .int32⟩ ⟨7, 10, 12, 1, 2, 3, 4, [], [], [], [], []⟩ true
        = some "\x7b\"unique_id\":7,\"width\":80,\"height\":96,\"start\":[1,2],\"end\":[3,4],\"entities\":[]\x7d".toList := by
      decide
    rw [h3] at h1
    exact (Option.some.inj h1).symm
  · simp [JVal.field, List.find?]
  · simp [JVal.arrayKeys, JVal.isArr, List.filter]

/-- C8, as the code has it: for every record whose `8 * width` and `8 * height` are
representable in the integer type of the dimension fields, `convert` passes `8 * width` under
the key `width` and `8 * height` under the key `height`, and the document starts with the
`unique_id` member followed by `"width":` and `"height":` with these products in decimal. -/
theorem dimensions_scaled (sch : Schema) (world : FileWorld) (pack : Bool)
    (hw : sch.dim.holds (world.width * 8)) (hh : sch.dim.holds (world.height * 8)) :
    (∃ rest, convertCalls sch world = some
        ([ Call.name "unique_id".toList, .value (.int world.unique_id),
           .name "width".toList, .value (.int (world.width * 8)),
           .name "height".toList, .value (.int (world.height * 8)) ] ++ rest))
    ∧ ∃ tail, convert sch world pack = some
        ('{' :: (if pack then [] else "\n  ".toList) ++ "\"unique_id\":".toList
          ++ (if pack then [] else [' ']) ++ decimal world.unique_id
          ++ ',' :: (if pack then [] else "\n  ".toList) ++ "\"width\":".toList
          ++ (if pack then [] else [' ']) ++ decimal (world.width * 8)
          ++ ',' :: (if pack then [] else "\n  ".toList) ++ "\"height\":".toList
          ++ (if pack then [] else [' ']) ++ decimal (world.height * 8) ++ tail) := by
  constructor
  · refine ⟨(worldTail sch world).calls, ?_⟩
    rw [convertCalls_eq]
    simp [worldTree, Members.calls_cons, Node.calls_scalar, IntType.wrap_of_holds _ _ hw,
      IntType.wrap_of_holds _ _ hh]
  · refine ⟨(worldTail sch world).render pack 1 false ++ nlText pack 0 ++ ['}']
      ++ (if pack then [] else ['\n']), ?_⟩
    rw [convert_eq]
    cases pack <;>
      simp [worldTree, Members.render, Node.render, valText, sepText, nlText, spText, dq,
        IntType.wrap_of_holds _ _ hw, IntType.wrap_of_holds _ _ hh]

/-- Witness of C8: a stored width of 10 is written as 80. -/
theorem dimensions_scaled_witness :
    ∃ tail, convert ⟨1, 1, .int32⟩ ⟨7, 10, 12, 1, 2, 3, 4, [], [], [], [], []⟩ true = some
        ("\x7b\"unique_id\":7,\"width\":80,\"height\":96".toList ++ tail) := by
  obtain ⟨tail, h⟩ :=
    (dimensions_scaled ⟨1, 1, .int32⟩ ⟨7, 10, 12, 1, 2, 3, 4, [], [], [], [], []⟩ true
      (by decide) (by decide)).2
  refine ⟨tail, ?_⟩
  rw [h]
  rfl

/-- C8 does not hold for every record: the product is computed in the integer type of the
field, so a stored width of `2 ^ 28` in a 32-bit signed field is written as `-2147483648`
and not as `2147483648`; the same happens at the upper end of each of the other types. -/
theorem dimensions_overflow :
    (convert ⟨1, 1, .int32⟩ ⟨7, 268435456, 12, 1, 2, 3, 4, [], [], [], [], []⟩ true
        = some "\x7b\"unique_id\":7,\"width\":-2147483648,\"height\":96,\"start\":[1,2],\"end\":[3,4],\"entities\":[]\x7d".toList
      ∧ IntType.int32.holds 268435456
      ∧ decimal (268435456 * 8) = "2147483648".toList)
    ∧ (convert ⟨1, 1, .uint32⟩ ⟨7, 536870912, 12, 1, 2, 3, 4, [], [], [], [], []⟩ true
        = some "\x7b\"unique_id\":7,\"width\":0,\"height\":96,\"start\":[1,2],\"end\":[3,4],\"entities\":[]\x7d".toList
      ∧ IntType.uint32.holds 536870912)
    ∧ (convert ⟨1, 1, .int64⟩ ⟨7, 1152921504606846976, 12, 1, 2, 3, 4, [], [], [], [], []⟩ true
        = some "\x7b\"unique_id\":7,\"width\":-9223372036854775808,\"height\":96,\"start\":[1,2],\"end\":[3,4],\"entities\":[]\x7d".toList
      ∧ IntType.int64.holds 1152921504606846976)
    ∧ (convert ⟨1, 1, .uint64⟩ ⟨7, 2305843009213693952, 12, 1, 2, 3, 4, [], [], [], [], []⟩ true
        = some "\x7b\"unique_id\":7,\"width\":0,\"height\":96,\"start\":[1,2],\"end\":[3,4],\"entities\":[]\x7d".toList
      ∧ IntType.uint64.holds 2305843009213693952) := by
  decide

/-! ## Pretty output is packed output plus formatting -/

@[simp] theorem lit_fst (s : List Char) : (lit s).map Prod.fst = s := by
  simp [lit, Function.comp_def]

@[simp] theorem fmt_fst (s : List Char) : (fmt s).map Prod.fst = s := by
  simp [fmt, Function.comp_def]

@[simp] theorem lit_keep (s : List Char) : ((lit s).filter fun m => !m.2) = lit s := by
  simp [lit, List.filter_map, Function.comp_def]

@[simp] theorem fmt_drop (s : List Char) : ((fmt s).filter fun m => !m.2) = [] := by
  simp [fmt, List.filter_map, Function.comp_def]

theorem Traced.in_array_erase (t : Traced) : t.erase.in_array = t.in_array := rfl

theorem Traced.in_array_strip (t : Traced) : t.strip.in_array = t.in_array := rfl

theorem Traced.newline_indent_erase (t : Traced) :
    t.newline_indent.map Traced.erase = t.erase.newline_indent := by
  unfold Traced.newline_indent JSON.newline_indent Traced.indent JSON.indent Traced.erase
  cases hp : t.pack <;> cases hf : t.first <;> by_cases h : 0 ≤ 2 * t.i <;> simp [h]

theorem Traced.enter_erase (t : Traced) :
    (if t.in_array then t.newline_indent else some t).map Traced.erase
      = (if t.erase.in_array then t.erase.newline_indent else some t.erase) := by
  rw [Traced.in_array_erase]
  cases t.in_array
  · simp
  · simpa using Traced.newline_indent_erase t

theorem Traced.step_erase (t : Traced) (c : Call) :
    (t.step c).map Traced.erase = t.erase.step c := by
  cases c with
  | name k =>
    have h := Traced.newline_indent_erase t
    simp only [Traced.step, JSON.step, Traced.name, JSON.name]
    rw [← h]
    cases t.newline_indent with
    | none => rfl
    | some t1 => cases hp : t1.pack <;> simp [Traced.erase, hp]
  | value x =>
    have h := Traced.enter_erase t
    simp only [Traced.step, JSON.step, Traced.value, JSON.value]
    rw [← h]
    cases (if t.in_array then t.newline_indent else some t) with
    | none => rfl
    | some t1 =>
      cases val x with
      | none => rfl
      | some tx => simp [Traced.erase]
  | value2 x y =>
    have h := Traced.enter_erase t
    simp only [Traced.step, JSON.step, Traced.value2, JSON.value2]
    rw [← h]
    cases (if t.in_array then t.newline_indent else some t) with
    | none => rfl
    | some t1 =>
      cases val x with
      | none => rfl
      | some tx =>
        cases val y with
        | none => rfl
        | some ty => cases hp : t1.pack <;> simp [Traced.erase, hp]
  | array =>
    have h := Traced.enter_erase t
    simp only [Traced.step, JSON.step, Traced.array, JSON.array]
    rw [← h]
    cases (if t.in_array then t.newline_indent else some t) with
    | none => rfl
    | some t1 => simp [Traced.erase]
  | object =>
    have h := Traced.enter_erase t
    simp only [Traced.step, JSON.step, Traced.object, JSON.object]
    rw [← h]
    cases (if t.in_array then t.newline_indent else some t) with
    | none => rfl
    | some t1 => simp [Traced.erase]
  | end_ =>
    obtain ⟨pack, s, o, first, i⟩ := t
    cases s with
    | nil => rfl
    | cons k rest =>
      simp only [Traced.step, JSON.step, Traced.end_, JSON.end_, Traced.erase, Traced.indent,
        JSON.indent]
      cases pack <;> by_cases h : 0 ≤ 2 * (i - 1) <;> simp [h, Traced.erase]

theorem Traced.run_erase (cs : List Call) : ∀ t : Traced,
    (Traced.run cs t).map Traced.erase = JSON.run cs t.erase := by
  induction cs with
  | nil => intro t; rfl
  | cons c cs ih =>
    intro t
    simp only [Traced.run, JSON.run]
    rw [← Traced.step_erase]
    cases t.step c with
    | none => rfl
    | some t1 => simpa using ih t1

theorem Traced.indent_tr (t : Traced) (d : Nat) (hp : t.pack = false) (h : t.i = (d : Int)) :
    t.indent = some (fmt (List.replicate (2 * d) ' ')) := by
  unfold Traced.indent
  have h1 : (0 : Int) ≤ 2 * t.i := by omega
  have h2 : (2 * t.i).toNat = 2 * d := by omega
  simp [hp, h1, h2]

theorem Traced.newline_indent_tr (t : Traced) (d : Nat) (hp : t.pack = false)
    (h : t.i = (d : Int)) :
    t.newline_indent
      = some { t with o := t.o ++ (lit (sepText t.first) ++ fmt (nlText false d)),
                      first := false } := by
  unfold Traced.newline_indent
  rw [Traced.indent_tr t d hp h]
  cases hf : t.first <;> simp [hp, sepText, nlText, lit, fmt]

theorem Traced.enter_tr (t : Traced) (d : Nat) (hp : t.pack = false) (h : t.i = (d : Int)) :
    (if t.in_array then t.newline_indent else some t)
      = some { t with o := t.o ++ t.lead d, first := t.first && !t.in_array } := by
  unfold Traced.lead
  cases ha : t.in_array
  · simp
  · simp [Traced.newline_indent_tr t d hp h]

theorem Traced.name_tr (t : Traced) (d : Nat) (hp : t.pack = false) (h : t.i = (d : Int))
    (k : List Char) :
    t.step (Call.name k)
      = some { t with
          o := t.o ++ (lit (sepText t.first) ++ fmt (nlText false d)
                 ++ lit (dq :: k ++ [dq, ':']) ++ fmt [' '])
          first := false } := by
  simp [Traced.step, Traced.name, Traced.newline_indent_tr t d hp h, hp, lit]

theorem Traced.value_tr (t : Traced) (d : Nat) (hp : t.pack = false) (h : t.i = (d : Int))
    (x : Scalar) :
    t.step (Call.value x)
      = some { t with o := t.o ++ (t.lead d ++ lit (valText x)),
                      first := t.first && !t.in_array } := by
  simp [Traced.step, Traced.value, Traced.enter_tr t d hp h, val_eq]

theorem Traced.value2_tr (t : Traced) (d : Nat) (hp : t.pack = false) (h : t.i = (d : Int))
    (x y : Scalar) :
    t.step (Call.value2 x y)
      = some { t with
          o := t.o ++ (t.lead d ++ lit ('[' :: valText x ++ [',']) ++ fmt [' ']
                 ++ lit (valText y ++ [']']))
          first := t.first && !t.in_array } := by
  simp [Traced.step, Traced.value2, Traced.enter_tr t d hp h, val_eq, hp, lit]

theorem Traced.array_tr (t : Traced) (d : Nat) (hp : t.pack = false) (h : t.i = (d : Int)) :
    t.step Call.array
      = some { t with o := t.o ++ (t.lead d ++ lit ['[']), first := true, i := t.i + 1,
                      s := Kind.ARRAY :: t.s } := by
  simp [Traced.step, Traced.array, Traced.enter_tr t d hp h]

theorem Traced.object_tr (t : Traced) (d : Nat) (hp : t.pack = false) (h : t.i = (d : Int)) :
    t.step Call.object
      = some { t with o := t.o ++ (t.lead d ++ lit ['{']), first := true, i := t.i + 1,
                      s := Kind.OBJECT :: t.s } := by
  simp [Traced.step, Traced.object, Traced.enter_tr t d hp h]

theorem Traced.end_tr (t : Traced) (d : Nat) (hp : t.pack = false) (h : t.i = (d : Int) + 1)
    (k : Kind) (rest : List Kind) (hs : t.s = k :: rest) :
    t.step Call.end_
      = some { t with
          o := t.o ++ (fmt (nlText false d) ++ lit [if k = Kind.ARRAY then ']' else '}'])
          first := false, i := t.i - 1, s := rest } := by
  simp only [Traced.step, Traced.end_]
  rw [hs]
  simp only []
  rw [Traced.indent_tr { pack := t.pack, s := k :: rest, o := t.o, first := false, i := t.i - 1 }
    d hp (by simp [h])]
  simp [hp, nlText, fmt]

theorem Traced.end_nil (t : Traced) (hs : t.s = []) : t.step Call.end_ = none := by
  simp [Traced.step, Traced.end_, hs]

theorem MarksAreBlank.app {a b : List (Char × Bool)} (ha : MarksAreBlank a)
    (hb : MarksAreBlank b) : MarksAreBlank (a ++ b) := by
  intro m hm
  rcases List.mem_append.mp hm with h | h
  · exact ha m h
  · exact hb m h

theorem MarksAreBlank.lit (s : List Char) : MarksAreBlank (lit s) := by
  intro m hm h
  simp [LevelConverter.lit] at hm
  obtain ⟨c, _, rfl⟩ := hm
  simp at h

theorem MarksAreBlank.nl (d : Nat) : MarksAreBlank (fmt (nlText false d)) := by
  intro m hm _
  simp [fmt, nlText] at hm
  rcases hm with rfl | ⟨_, rfl⟩
  · exact Or.inr rfl
  · exact Or.inl rfl

theorem MarksAreBlank.sp : MarksAreBlank (fmt [' ']) := by
  intro m hm _
  simp [fmt] at hm
  subst hm
  exact Or.inl rfl

theorem MarksAreBlank.lead (t : Traced) (d : Nat) : MarksAreBlank (t.lead d) := by
  unfold Traced.lead
  split
  · exact (MarksAreBlank.lit _).app (MarksAreBlank.nl d)
  · intro m hm
    simp at hm

theorem Traced.lead_strip (t : Traced) (d : Nat) :
    ((t.lead d).filter fun m => !m.2).map Prod.fst = t.strip.lead d := by
  unfold Traced.lead JSON.lead
  rw [Traced.in_array_strip]
  cases t.in_array <;> simp [Traced.strip, nlText]

theorem Traced.step_strip (t : Traced) (c : Call) (hp : t.pack = false)
    (hi : t.i = ((t.s.length + 1 : Nat) : Int)) :
    (t.step c).map Traced.strip = t.strip.step c := by
  have hd : t.strip.i = ((t.s.length + 1 : Nat) : Int) := hi
  cases c with
  | name k =>
    rw [Traced.name_tr t _ hp hi, JSON.step, JSON.name_eq _ _ hd]
    simp [Traced.strip, nlText, spText]
  | value x =>
    rw [Traced.value_tr t _ hp hi, JSON.step, JSON.value_eq _ _ hd, ← Traced.lead_strip]
    simp [Traced.strip, Traced.in_array, JSON.in_array]
  | value2 x y =>
    rw [Traced.value2_tr t _ hp hi, JSON.step, JSON.value2_eq _ _ hd, ← Traced.lead_strip]
    simp [Traced.strip, Traced.in_array, JSON.in_array, spText]
  | array =>
    rw [Traced.array_tr t _ hp hi, JSON.step, JSON.array_eq _ _ hd, ← Traced.lead_strip]
    simp [Traced.strip]
  | object =>
    rw [Traced.object_tr t _ hp hi, JSON.step, JSON.object_eq _ _ hd, ← Traced.lead_strip]
    simp [Traced.strip]
  | end_ =>
    cases hs : t.s with
    | nil =>
      rw [Traced.end_nil t hs]
      simp [JSON.step, JSON.end_, Traced.strip, hs]
    | cons k rest =>
      have hi2 : t.i = ((rest.length + 1 : Nat) : Int) + 1 := by
        rw [hi, hs]
        simp
      rw [Traced.end_tr t _ hp hi2 k rest hs, JSON.step,
        JSON.end_eq t.strip _ hi2 k rest (by simp [Traced.strip, hs])]
      simp [Traced.strip, nlText, lit]

theorem Traced.step_good (t t1 : Traced) (c : Call) (hp : t.pack = false)
    (hi : t.i = ((t.s.length + 1 : Nat) : Int)) (hg : MarksAreBlank t.o)
    (h : t.step c = some t1) :
    MarksAreBlank t1.o ∧ t1.pack = false ∧ t1.i = ((t1.s.length + 1 : Nat) : Int) := by
  cases c with
  | name k =>
    rw [Traced.name_tr t _ hp hi] at h
    cases h
    exact ⟨hg.app ((((MarksAreBlank.lit _).app (MarksAreBlank.nl _)).app
      (MarksAreBlank.lit _)).app MarksAreBlank.sp), hp, hi⟩
  | value x =>
    rw [Traced.value_tr t _ hp hi] at h
    cases h
    exact ⟨hg.app ((MarksAreBlank.lead t _).app (MarksAreBlank.lit _)), hp, hi⟩
  | value2 x y =>
    rw [Traced.value2_tr t _ hp hi] at h
    cases h
    exact ⟨hg.app ((((MarksAreBlank.lead t _).app (MarksAreBlank.lit _)).app
      MarksAreBlank.sp).app (MarksAreBlank.lit _)), hp, hi⟩
  | array =>
    rw [Traced.array_tr t _ hp hi] at h
    cases h
    refine ⟨hg.app ((MarksAreBlank.lead t _).app (MarksAreBlank.lit _)), hp, ?_⟩
    simp [hi]
  | object =>
    rw [Traced.object_tr t _ hp hi] at h
    cases h
    refine ⟨hg.app ((MarksAreBlank.lead t _).app (MarksAreBlank.lit _)), hp, ?_⟩
    simp [hi]
  | end_ =>
    cases hs : t.s with
    | nil =>
      rw [Traced.end_nil t hs] at h
      cases h
    | cons k rest =>
      have hi2 : t.i = ((rest.length + 1 : Nat) : Int) + 1 := by
        rw [hi, hs]
        simp
      rw [Traced.end_tr t _ hp hi2 k rest hs] at h
      cases h
      refine ⟨hg.app ((MarksAreBlank.nl _).app (MarksAreBlank.lit _)), hp, ?_⟩
      simp [hi2]

theorem Traced.run_strip (cs : List Call) : ∀ t : Traced, t.pack = false →
    t.i = ((t.s.length + 1 : Nat) : Int) → MarksAreBlank t.o →
    (Traced.run cs t).map Traced.strip = JSON.run cs t.strip
    ∧ ∀ t1, Traced.run cs t = some t1 → MarksAreBlank t1.o ∧ t1.pack = false := by
  induction cs with
  | nil =>
    intro t hp _ hg
    refine ⟨rfl, ?_⟩
    intro t1 h
    simp only [Traced.run, Option.some.injEq] at h
    subst h
    exact ⟨hg, hp⟩
  | cons c cs ih =>
    intro t hp hi hg
    have hs := Traced.step_strip t c hp hi
    simp only [Traced.run, JSON.run]
    rw [← hs]
    cases h : t.step c with
    | none =>
      refine ⟨rfl, ?_⟩
      intro t1 h1
      simp at h1
    | some t2 =>
      obtain ⟨g2, p2, i2⟩ := Traced.step_good t t2 c hp hi hg h
      simpa using ih t2 p2 i2 g2

/-- The marked pretty text of every call sequence the packed writer can perform: without the
marks it is the pretty output, its marked characters are spaces and line feeds, and without
the marked characters it is the packed output. -/
theorem traced_document (cs : List Call) (jq : JSON)
    (h : JSON.run cs (JSON.new true) = some jq) :
    ∃ jp marked, JSON.run cs (JSON.new false) = some jp
      ∧ tracedDocument cs = some marked
      ∧ marked.map Prod.fst = jp.finish
      ∧ MarksAreBlank marked
      ∧ (marked.filter fun m => !m.2).map Prod.fst = jq.finish := by
  have hs := Traced.run_strip cs (Traced.new false) rfl rfl (MarksAreBlank.lit _)
  have he := Traced.run_erase cs (Traced.new false)
  have e1 : (Traced.new false).strip = JSON.new true := by
    simp [Traced.strip, Traced.new, JSON.new, lit]
  have e2 : (Traced.new false).erase = JSON.new false := by
    simp [Traced.erase, Traced.new, JSON.new, lit]
  rw [e1, h] at hs
  rw [e2] at he
  cases ht : Traced.run cs (Traced.new false) with
  | none =>
    rw [ht] at hs
    simp at hs
  | some t =>
    rw [ht] at hs he
    obtain ⟨hg, hp⟩ := hs.2 t rfl
    have hq : t.strip = jq := by simpa using hs.1
    refine ⟨t.erase, t.finish, he.symm, by simp [tracedDocument, ht], ?_, ?_, ?_⟩
    · simp [Traced.finish, JSON.finish, Traced.erase, hp]
    · simp only [Traced.finish, hp]
      exact hg.app (((MarksAreBlank.nl 0).app (MarksAreBlank.lit _)).app
        (by simpa [nlText] using MarksAreBlank.nl 0))
    · rw [← hq]
      simp [Traced.finish, JSON.finish, Traced.strip, hp]

/-- C3, as the code has it: for every sequence of writer calls the packed writer can perform
(`end()` only on a non-empty stack), the pretty writer performs it too, and deleting from the
pretty output the spaces and line feeds the writer emits as formatting yields exactly the
packed output; and when the sequence mirrors a JSON object tree whose keys hold no control
character, double quote or backslash and whose string values hold no control character, both
outputs parse to the same keys, values and nesting. -/
theorem pretty_packed_same_document (cs : List Call) (jq : JSON)
    (h : JSON.run cs (JSON.new true) = some jq) :
    (∃ tp tq marked, document false cs = some tp ∧ document true cs = some tq
        ∧ tracedDocument cs = some marked
        ∧ marked.map Prod.fst = tp
        ∧ (∀ m ∈ marked, m.2 = true → m.1 = ' ' ∨ m.1 = '\n')
        ∧ (marked.filter fun m => !m.2).map Prod.fst = tq)
    ∧ ∀ ms : Members, cs = ms.calls → ms.ok = true →
        ∃ tp tq, document false cs = some tp ∧ document true cs = some tq
          ∧ jsonParse tp = some (JVal.obj ms.toJ) ∧ jsonParse tq = some (JVal.obj ms.toJ) := by
  constructor
  · obtain ⟨jp, marked, h1, h2, h3, h4, h5⟩ := traced_document cs jq h
    exact ⟨jp.finish, jq.finish, marked, by simp [document, h1], by simp [document, h], h2, h3,
      h4, h5⟩
  · intro ms hcs hok
    subst hcs
    exact ⟨_, _, document_tree false ms, document_tree true ms, jsonParse_tree false ms hok,
      jsonParse_tree true ms hok⟩

/-- Witness of C3: a key, a number, and an array holding a string with a space in it. -/
theorem pretty_packed_same_document_witness :
    ∃ tp tq marked,
      document false [.name "a".toList, .value (.int 1), .name "b".toList, .array,
        .value (.str "x y".toList), .end_] = some tp
      ∧ document true [.name "a".toList, .value (.int 1), .name "b".toList, .array,
        .value (.str "x y".toList), .end_] = some tq
      ∧ tracedDocument [.name "a".toList, .value (.int 1), .name "b".toList, .array,
        .value (.str "x y".toList), .end_] = some marked
      ∧ marked.map Prod.fst = tp
      ∧ (∀ m ∈ marked, m.2 = true → m.1 = ' ' ∨ m.1 = '\n')
      ∧ (marked.filter fun m => !m.2).map Prod.fst = tq :=
  (pretty_packed_same_document
    [.name "a".toList, .value (.int 1), .name "b".toList, .array, .value (.str "x y".toList),
      .end_]
    { pack := true, s := [], o := "\x7b\"a\":1,\"b\":[\"x y\"]".toList, first := false, i := 1 }
    (by decide)).1

/-- C3 does not hold for every sequence: keys are written unescaped, and with the keys
`a":1,` and `:2,"z` the packed output is a JSON object with the three keys `a`, `:5,` and `z`,
while in the pretty output the formatting after the first colon and before the second key
falls inside a string literal, which then holds a raw line feed: the pretty output does not
parse. -/
theorem pretty_packed_parse_differently :
    document true (Members.cons "a\":1,".toList (.scalar (.int 5))
        (.cons ":2,\"z".toList (.scalar (.int 3)) .nil)).calls
      = some "\x7b\"a\":1,\":5,\":2,\"z\":3\x7d".toList
    ∧ document false (Members.cons "a\":1,".toList (.scalar (.int 5))
        (.cons ":2,\"z".toList (.scalar (.int 3)) .nil)).calls
      = some "\x7b\n  \"a\":1,\": 5,\n  \":2,\"z\": 3\n\x7d\n".toList
    ∧ (jsonParse "\x7b\"a\":1,\":5,\":2,\"z\":3\x7d".toList).map JVal.arrayKeys = some []
    ∧ (jsonParse "\x7b\"a\":1,\":5,\":2,\"z\":3\x7d".toList).bind (JVal.field ":5,".toList)
        = some (JVal.num 2)
    ∧ (jsonParse "\x7b\n  \"a\":1,\": 5,\n  \":2,\"z\": 3\n\x7d\n".toList).isNone = true := by
  refine ⟨by decide, by decide, by decide, rfl, by decide⟩

/-! ## `end`, the shape of a document, the stack invariant -/

/-- C11: in every state a writer can reach, `end()` has no result exactly when the nesting
stack is empty; on a stack `t :: rest` it succeeds, writes (in pretty mode after a line feed
and `2 * (i - 1)` spaces, in packed mode after nothing) `]` when `t` is an array frame and `}`
when it is an object frame, leaves `rest` as the stack and lowers the indent depth by one. -/
theorem end_pops_one_frame (p : Bool) (cs : List Call) (j : JSON)
    (h : JSON.run cs (JSON.new p) = some j) :
    (j.end_ = none ↔ j.s = [])
    ∧ ∀ t rest, j.s = t :: rest →
        ∃ j1, j.end_ = some j1
          ∧ j1.o = j.o ++ (if p then [] else '\n' :: List.replicate (2 * (j.i - 1)).toNat ' ')
                     ++ [if t = Kind.ARRAY then ']' else '}']
          ∧ j1.s = rest ∧ j1.i = j.i - 1 ∧ j1.pack = j.pack := by
  obtain ⟨hi, hp⟩ := JSON.reach_inv p cs j h
  have key : ∀ t rest, j.s = t :: rest →
      ∃ j1, j.end_ = some j1
        ∧ j1.o = j.o ++ (if p then [] else '\n' :: List.replicate (2 * (j.i - 1)).toNat ' ')
                   ++ [if t = Kind.ARRAY then ']' else '}']
        ∧ j1.s = rest ∧ j1.i = j.i - 1 ∧ j1.pack = j.pack := by
    intro t rest hs
    have hi2 : j.i = ((rest.length + 1 : Nat) : Int) + 1 := by
      rw [hi, hs]
      simp
    refine ⟨_, JSON.end_eq j _ hi2 t rest hs, ?_, rfl, rfl, rfl⟩
    have h2 : (2 * (j.i - 1)).toNat = 2 * (rest.length + 1) := by omega
    cases p <;> simp [nlText, hp, h2]
  refine ⟨⟨?_, ?_⟩, key⟩
  · intro hn
    cases hs : j.s with
    | nil => rfl
    | cons t rest =>
      obtain ⟨j1, h1, _⟩ := key t rest hs
      rw [hn] at h1
      cases h1
  · intro hs
    simp [JSON.end_, hs]

/-- Witness of C11: closing the array opened under a key, in pretty mode. -/
theorem end_pops_one_frame_witness :
    ∃ j1, JSON.end_
        { pack := false, s := [Kind.ARRAY], o := "\x7b\n  \"a\": [".toList, first := true, i := 2 }
        = some j1
      ∧ j1.o = "\x7b\n  \"a\": [\n  ]".toList ∧ j1.s = [] ∧ j1.i = 1 := by
  obtain ⟨j1, h1, h2, h3, h4, _⟩ :=
    (end_pops_one_frame false [Call.name "a".toList, Call.array]
      { pack := false, s := [Kind.ARRAY], o := "\x7b\n  \"a\": [".toList, first := true, i := 2 }
      (by decide)).2 Kind.ARRAY [] rfl
  refine ⟨j1, h1, ?_, h3, ?_⟩
  · rw [h2]
    decide
  · rw [h4]
    rfl

/-- In a reachable state a call only appends to the output. -/
theorem JSON.step_appends (j j1 : JSON) (c : Call)
    (hi : j.i = ((j.s.length + 1 : Nat) : Int)) (h : j.step c = some j1) :
    ∃ extra, j1.o = j.o ++ extra := by
  cases c with
  | name k =>
    rw [JSON.step, JSON.name_eq j _ hi] at h
    cases h
    exact ⟨_, rfl⟩
  | value x =>
    rw [JSON.step, JSON.value_eq j _ hi] at h
    cases h
    exact ⟨_, rfl⟩
  | value2 x y =>
    rw [JSON.step, JSON.value2_eq j _ hi] at h
    cases h
    exact ⟨_, rfl⟩
  | array =>
    rw [JSON.step, JSON.array_eq j _ hi] at h
    cases h
    exact ⟨_, rfl⟩
  | object =>
    rw [JSON.step, JSON.object_eq j _ hi] at h
    cases h
    exact ⟨_, rfl⟩
  | end_ =>
    cases hs : j.s with
    | nil => simp [JSON.step, JSON.end_, hs] at h
    | cons t rest =>
      have hi2 : j.i = ((rest.length + 1 : Nat) : Int) + 1 := by
        rw [hi, hs]
        simp
      rw [JSON.step, JSON.end_eq j _ hi2 t rest hs] at h
      cases h
      exact ⟨_, rfl⟩

theorem JSON.run_appends (cs : List Call) : ∀ (j j1 : JSON), j.Inv → JSON.run cs j = some j1 →
    ∃ extra, j1.o = j.o ++ extra := by
  induction cs with
  | nil =>
    intro j j1 _ h
    simp only [JSON.run, Option.some.injEq] at h
    subst h
    exact ⟨[], by simp⟩
  | cons c cs ih =>
    intro j j1 hinv h
    simp only [JSON.run] at h
    cases hs : j.step c with
    | none => simp [hs] at h
    | some j2 =>
      rw [hs] at h
      have hi : j.i = ((j.s.length + 1 : Nat) : Int) := by simpa [JSON.Inv] using hinv
      obtain ⟨e1, h1⟩ := JSON.step_appends j j2 c hi hs
      obtain ⟨e2, h2⟩ := ih j2 j1 (JSON.step_inv j j2 c hinv hs).1 h
      exact ⟨e1 ++ e2, by rw [h2, h1, List.append_assoc]⟩

/-- In a reachable state the only call without a result is `end` on an empty stack. -/
theorem JSON.step_none_iff (j : JSON) (c : Call) (hi : j.i = ((j.s.length + 1 : Nat) : Int)) :
    j.step c = none ↔ c = Call.end_ ∧ j.s = [] := by
  cases c with
  | name k => simp [JSON.step, JSON.name_eq j _ hi]
  | value x => simp [JSON.step, JSON.value_eq j _ hi]
  | value2 x y => simp [JSON.step, JSON.value2_eq j _ hi]
  | array => simp [JSON.step, JSON.array_eq j _ hi]
  | object => simp [JSON.step, JSON.object_eq j _ hi]
  | end_ =>
    cases hs : j.s with
    | nil => simp [JSON.step, JSON.end_, hs]
    | cons t rest =>
      have hi2 : j.i = ((rest.length + 1 : Nat) : Int) + 1 := by
        rw [hi, hs]
        simp
      simp [JSON.step, JSON.end_eq j _ hi2 t rest hs]

/-- A sequence of calls has no result exactly when it reaches an `end` with the stack empty. -/
theorem JSON.run_none_iff (cs : List Call) : ∀ (j : JSON), j.Inv →
    (JSON.run cs j = none ↔
      ∃ pre post j0, cs = pre ++ Call.end_ :: post ∧ JSON.run pre j = some j0 ∧ j0.s = []) := by
  induction cs with
  | nil =>
    intro j _
    simp [JSON.run]
  | cons c cs ih =>
    intro j hinv
    have hi : j.i = ((j.s.length + 1 : Nat) : Int) := by simpa [JSON.Inv] using hinv
    cases hs : j.step c with
    | none =>
      obtain ⟨h1, h2⟩ := (JSON.step_none_iff j c hi).mp hs
      subst h1
      simp only [JSON.run, hs, Option.none_bind, true_iff]
      exact ⟨[], cs, j, rfl, rfl, h2⟩
    | some j1 =>
      have hinv1 := (JSON.step_inv j j1 c hinv hs).1
      rw [JSON.run_step c cs j j1 hs, ih j1 hinv1]
      constructor
      · rintro ⟨pre, post, j0, e, hr, h0⟩
        exact ⟨c :: pre, post, j0, by rw [e]; rfl, by rw [JSON.run_step c pre j j1 hs]; exact hr,
          h0⟩
      · rintro ⟨pre, post, j0, e, hr, h0⟩
        cases pre with
        | nil =>
          simp only [List.nil_append, List.cons.injEq] at e
          simp only [JSON.run, Option.some.injEq] at hr
          subst hr
          have := (JSON.step_none_iff j c hi).mpr ⟨e.1, h0⟩
          rw [hs] at this
          cases this
        | cons a pre =>
          simp only [List.cons_append, List.cons.injEq] at e
          obtain ⟨rfl, e2⟩ := e
          rw [JSON.run_step c pre j j1 hs] at hr
          exact ⟨pre, post, j0, e2, hr, h0⟩

/-- C12: a sequence of writer calls has a complete output (construction through finalization)
unless it reaches an `end` with the stack empty; the complete output begins with `{`; in
pretty mode it ends with a line feed, `}` and a line feed; in packed mode it ends with `}`,
so its last character is not a line feed. -/
theorem document_frame (p : Bool) (cs : List Call) :
    (document p cs = none ↔
      ∃ pre post j0, cs = pre ++ Call.end_ :: post ∧ JSON.run pre (JSON.new p) = some j0
        ∧ j0.s = [])
    ∧ ∀ text, document p cs = some text →
      (∃ rest, text = '{' :: rest)
      ∧ (p = false → ∃ body, text = body ++ ['\n', '}', '\n'])
      ∧ (p = true → (∃ body, text = body ++ ['}']) ∧ text.getLast? = some '}'
          ∧ text.getLast? ≠ some '\n') := by
  constructor
  · rw [← JSON.run_none_iff cs (JSON.new p) (JSON.new_inv p)]
    unfold document
    cases JSON.run cs (JSON.new p) <;> simp
  intro text h
  unfold document at h
  cases hr : JSON.run cs (JSON.new p) with
  | none => simp [hr] at h
  | some j =>
    rw [hr] at h
    simp only [Option.map_some', Option.some.injEq] at h
    subst h
    obtain ⟨extra, he⟩ := JSON.run_appends cs _ j (JSON.new_inv p) hr
    have hp := (JSON.run_inv cs _ j (JSON.new_inv p) hr).2
    have hp2 : j.pack = p := by simpa [JSON.new] using hp
    refine ⟨⟨extra ++ (if j.pack then ['}'] else ['\n', '}', '\n']), ?_⟩, ?_, ?_⟩
    · simp [JSON.finish, he, JSON.new]
    · intro hf
      exact ⟨j.o, by simp [JSON.finish, hp2, hf]⟩
    · intro ht
      refine ⟨⟨j.o, by simp [JSON.finish, hp2, ht]⟩, ?_, ?_⟩ <;>
        simp [JSON.finish, hp2, ht]

/-- Witness of C12: a document with one member, pretty. -/
theorem document_frame_witness :
    (∃ rest, "\x7b\n  \"a\": 1\n\x7d\n".toList = '{' :: rest)
    ∧ ∃ body, "\x7b\n  \"a\": 1\n\x7d\n".toList = body ++ ['\n', '}', '\n'] := by
  have h := (document_frame false [Call.name "a".toList, Call.value (.int 1)]).2
    "\x7b\n  \"a\": 1\n\x7d\n".toList (by decide)
  exact ⟨h.1, h.2.1 rfl⟩

/-- The calls that open a container outnumber the `end` calls by the size of the stack. -/
theorem JSON.run_balance (cs : List Call) : ∀ (j j1 : JSON), j.Inv → JSON.run cs j = some j1 →
    opened cs + j.s.length = closed cs + j1.s.length := by
  induction cs with
  | nil =>
    intro j j1 _ h
    simp only [JSON.run, Option.some.injEq] at h
    subst h
    simp [opened, closed]
  | cons c cs ih =>
    intro j j1 hinv h
    simp only [JSON.run] at h
    cases hs : j.step c with
    | none => simp [hs] at h
    | some j2 =>
      rw [hs] at h
      have hi : j.i = ((j.s.length + 1 : Nat) : Int) := by simpa [JSON.Inv] using hinv
      have ih2 := ih j2 j1 (JSON.step_inv j j2 c hinv hs).1 h
      cases c with
      | name k =>
        rw [JSON.step, JSON.name_eq j _ hi] at hs
        cases hs
        simpa [opened, closed] using ih2
      | value x =>
        rw [JSON.step, JSON.value_eq j _ hi] at hs
        cases hs
        simpa [opened, closed] using ih2
      | value2 x y =>
        rw [JSON.step, JSON.value2_eq j _ hi] at hs
        cases hs
        simpa [opened, closed] using ih2
      | array =>
        rw [JSON.step, JSON.array_eq j _ hi] at hs
        cases hs
        simp [opened, closed] at ih2 ⊢
        omega
      | object =>
        rw [JSON.step, JSON.object_eq j _ hi] at hs
        cases hs
        simp [opened, closed] at ih2 ⊢
        omega
      | end_ =>
        cases hst : j.s with
        | nil => simp [JSON.step, JSON.end_, hst] at hs
        | cons t rest =>
          have hi2 : j.i = ((rest.length + 1 : Nat) : Int) + 1 := by
            rw [hi, hst]
            simp
          rw [JSON.step, JSON.end_eq j _ hi2 t rest hst] at hs
          cases hs
          simp [opened, closed] at ih2 ⊢
          omega

/-- C14: after construction and after every sequence of operations the writer can perform
(`end()` only on a non-empty stack), the indent depth is the stack size plus one and the
stack size is the number of containers opened minus the number closed, so it is zero exactly
when every `array`/`object` has been matched by an `end`; from such a state `array` and
`object` push one frame of their kind and raise the depth by one, `end` pops one frame and
lowers the depth by one, and `name`, `value` and the pair `value` leave stack and depth as
they are. -/
theorem stack_tracks_open_containers (p : Bool) (cs : List Call) (j : JSON)
    (h : JSON.run cs (JSON.new p) = some j) :
    (JSON.new p).i = ((JSON.new p).s.length : Int) + 1
    ∧ j.i = (j.s.length : Int) + 1
    ∧ opened cs = closed cs + j.s.length
    ∧ (j.s.length = 0 ↔ opened cs = closed cs)
    ∧ (∃ j1, j.array = some j1 ∧ j1.s = Kind.ARRAY :: j.s ∧ j1.i = j.i + 1)
    ∧ (∃ j1, j.object = some j1 ∧ j1.s = Kind.OBJECT :: j.s ∧ j1.i = j.i + 1)
    ∧ (∀ t rest, j.s = t :: rest → ∃ j1, j.end_ = some j1 ∧ j1.s = rest ∧ j1.i = j.i - 1)
    ∧ (∀ k, ∃ j1, j.name k = some j1 ∧ j1.s = j.s ∧ j1.i = j.i)
    ∧ (∀ x, ∃ j1, j.value x = some j1 ∧ j1.s = j.s ∧ j1.i = j.i)
    ∧ (∀ x y, ∃ j1, j.value2 x y = some j1 ∧ j1.s = j.s ∧ j1.i = j.i) := by
  obtain ⟨hi, _⟩ := JSON.reach_inv p cs j h
  have hb := JSON.run_balance cs _ j (JSON.new_inv p) h
  have hb2 : opened cs = closed cs + j.s.length := by simpa [JSON.new] using hb
  refine ⟨by simp [JSON.new], by simp [hi], hb2, by omega,
    ⟨_, JSON.array_eq j _ hi, rfl, rfl⟩, ⟨_, JSON.object_eq j _ hi, rfl, rfl⟩, ?_,
    fun k => ⟨_, JSON.name_eq j _ hi k, rfl, rfl⟩,
    fun x => ⟨_, JSON.value_eq j _ hi x, rfl, rfl⟩,
    fun x y => ⟨_, JSON.value2_eq j _ hi x y, rfl, rfl⟩⟩
  intro t rest hs
  have hi2 : j.i = ((rest.length + 1 : Nat) : Int) + 1 := by
    rw [hi, hs]
    simp
  exact ⟨_, JSON.end_eq j _ hi2 t rest hs, rfl, rfl⟩

/-- Witness of C14: after a key and an opened array the stack holds one frame. -/
theorem stack_tracks_open_containers_witness :
    (2 : Int) = (([Kind.ARRAY] : List Kind).length : Int) + 1
    ∧ opened [Call.name "a".toList, Call.array]
        = closed [Call.name "a".toList, Call.array] + ([Kind.ARRAY] : List Kind).length := by
  have h := stack_tracks_open_containers true [Call.name "a".toList, Call.array]
    { pack := true, s := [Kind.ARRAY], o := "\x7b\"a\":[".toList, first := true, i := 2 }
    (by decide)
  exact ⟨h.2.1, h.2.2.1⟩

/-! ## `sub`: termination and result -/

theorem replaceAll_leftmost (oldStr newStr : List Char) (h : oldStr ≠ []) :
    ∀ (u rest : List Char),
      (∀ j, j < u.length → oldStr.isPrefixOf ((u ++ oldStr ++ rest).drop j) = false) →
      replaceAll oldStr newStr 0 (u ++ oldStr ++ rest)
        = u ++ newStr ++ replaceAll oldStr newStr 0 rest := by
  intro u
  induction u with
  | nil =>
    intro rest _
    simpa using replaceAll_at_start oldStr newStr rest h
  | cons c u ih =>
    intro rest hj
    have h0 := hj 0 (by simp)
    simp only [List.drop_zero] at h0
    have ih2 := ih rest (fun j hjl => by
      have := hj (j + 1) (by simp; omega)
      simpa using this)
    simp only [List.cons_append] at h0 ⊢
    simp only [replaceAll, h0]
    rw [ih2]
    simp

theorem subLoop_empty (newStr : List Char) : ∀ (fuel : Nat) (str : List Char) (i : Nat),
    i ≤ str.length → subLoop [] newStr fuel str i = none := by
  intro fuel
  induction fuel with
  | zero => intro str i _; rfl
  | succ f ih =>
    intro str i hi
    have hf : find str [] i = some i := find_hit str [] i hi (by simp [List.isPrefixOf])
    rw [subLoop, hf]
    simp only []
    apply ih
    simp [replace]
    omega

/-- C20: for every string, every replacement and every non-empty pattern, the loop of `sub`
ends (with any fuel above the length of the string) and returns the string with the
occurrences of the pattern replaced from left to right: a string without an occurrence is
returned as it is, and when the leftmost occurrence starts after `u`, the result is `u`, the
replacement, and the result for the text after that occurrence, so replaced text is never
scanned again. With an empty pattern no amount of fuel lets the loop end. -/
theorem sub_replaces_left_to_right (str oldStr newStr : List Char) :
    (oldStr ≠ [] →
      (∃ r, sub str oldStr newStr = some r
        ∧ (∀ fuel, str.length < fuel → subLoop oldStr newStr fuel str 0 = some r)
        ∧ (¬ oldStr <:+: str → r = str)
        ∧ ∀ u rest r1, str = u ++ oldStr ++ rest →
            (∀ j, j < u.length → oldStr.isPrefixOf (str.drop j) = false) →
            sub rest oldStr newStr = some r1 → r = u ++ newStr ++ r1))
    ∧ ∀ fuel, subLoop [] newStr fuel str 0 = none := by
  refine ⟨fun h => ⟨_, sub_eq_replaceAll str oldStr newStr h, ?_, ?_, ?_⟩, ?_⟩
  · intro fuel hf
    simpa using subLoop_eq oldStr newStr h str.length str [] fuel (le_refl _) hf
  · exact replaceAll_no_infix oldStr newStr str
  · intro u rest r1 hs hj hr
    rw [sub_eq_replaceAll rest oldStr newStr h] at hr
    cases hr
    subst hs
    exact replaceAll_leftmost oldStr newStr h u rest hj
  · intro fuel
    exact subLoop_empty newStr fuel str 0 (Nat.zero_le _)

/-- Witness of C20: both occurrences of `ab` in `xabab` are replaced, and the inserted `b` is
not joined with what follows. -/
theorem sub_replaces_left_to_right_witness :
    sub "xabab".toList "ab".toList "b".toList = some "xbb".toList
    ∧ ∀ fuel, subLoop [] "b".toList fuel "xabab".toList 0 = none := by
  have h := sub_replaces_left_to_right "xabab".toList "ab".toList "b".toList
  obtain ⟨r, h1, _⟩ := h.1 (by decide)
  refine ⟨?_, h.2⟩
  rw [h1]
  have : sub "xabab".toList "ab".toList "b".toList = some "xbb".toList := by decide
  rw [h1] at this
  exact this

/-! ## The output path -/

theorem rfindFrom_le (str pat : List Char) : ∀ (j i : Nat), rfindFrom str pat j = some i → i ≤ j := by
  intro j
  induction j with
  | zero =>
    intro i h
    simp only [rfindFrom] at h
    split_ifs at h
    cases h
    exact le_refl _
  | succ j ih =>
    intro i h
    simp only [rfindFrom] at h
    split_ifs at h
    · cases h
      exact le_refl _
    · exact Nat.le_succ_of_le (ih i h)

theorem rfindFrom_hit (str pat : List Char) (j : Nat) (h : pat.isPrefixOf (str.drop j) = true) :
    rfindFrom str pat j = some j := by
  cases j with
  | zero => simpa [rfindFrom] using h
  | succ j => simp [rfindFrom, h]

theorem rfindFrom_miss (str pat : List Char) (j i : Nat)
    (h : pat.isPrefixOf (str.drop j) = false) (hr : rfindFrom str pat j = some i) : i < j := by
  cases j with
  | zero =>
    simp only [List.drop_zero] at h
    simp [rfindFrom, h] at hr
  | succ j =>
    simp only [rfindFrom, h] at hr
    have := rfindFrom_le str pat j i (by simpa using hr)
    omega

theorem isPrefixOf_drop_suffix (pat p : List Char) (hl : pat.length ≤ p.length)
    (h : pat.isPrefixOf (p.drop (p.length - pat.length)) = true) : pat <:+ p := by
  have hp : pat <+: p.drop (p.length - pat.length) := List.isPrefixOf_iff_prefix.mp h
  have hlen : (p.drop (p.length - pat.length)).length = pat.length := by
    rw [List.length_drop]
    omega
  have he : pat = p.drop (p.length - pat.length) := hp.eq_of_length hlen.symm
  rw [he]
  exact List.drop_suffix _ _

/-- C13: for every input path `p` (a string, so shorter than `npos`, on a `size_t` of at least
two bits): when `p` ends with `.lvl` the output path is `p` without that suffix, followed by
`.json`; otherwise it is `p` followed by `.json`, also for paths shorter than four characters,
where `size() - 4` wraps around. -/
theorem output_path_extension (w : Nat) (p : List Char) (hw : 2 ≤ w)
    (hl : p.length < 2 ^ w - 1) :
    (∀ stem, p = stem ++ ".lvl".toList → outputPath w p = stem ++ ".json".toList)
    ∧ (¬ ".lvl".toList <:+ p → outputPath w p = p ++ ".json".toList) := by
  have hN : 4 ≤ 2 ^ w := by
    have := Nat.pow_le_pow_right (show 0 < 2 by decide) hw
    simpa using this
  constructor
  · intro stem hs
    subst hs
    have hlen : (stem ++ ".lvl".toList).length = stem.length + 4 := by simp
    have hf : rfind (stem ++ ".lvl".toList) ".lvl".toList = some stem.length := by
      unfold rfind
      rw [if_pos (by simp)]
      have e : (stem ++ ".lvl".toList).length - (".lvl".toList).length = stem.length := by simp
      rw [e]
      apply rfindFrom_hit
      simp
    have hk : ((stem ++ ".lvl".toList).length + 2 ^ w - 4) % 2 ^ w = stem.length := by
      rw [hlen] at hl ⊢
      have e : stem.length + 4 + 2 ^ w - 4 = stem.length + 2 ^ w := by omega
      rw [e, Nat.add_mod_right]
      exact Nat.mod_eq_of_lt (by omega)
    unfold outputPath
    simp only [hf, hk, if_true]
    simp
  · intro hns
    suffices hne : (if (match rfind p ".lvl".toList with
          | some j => j
          | none => 2 ^ w - 1) = (p.length + 2 ^ w - 4) % 2 ^ w
        then p.take ((p.length + 2 ^ w - 4) % 2 ^ w) else p) = p by
      unfold outputPath
      simp only [hne]
    by_cases h4 : 4 ≤ p.length
    · have hk : (p.length + 2 ^ w - 4) % 2 ^ w = p.length - 4 := by
        have e : p.length + 2 ^ w - 4 = (p.length - 4) + 2 ^ w := by omega
        rw [e, Nat.add_mod_right]
        exact Nat.mod_eq_of_lt (by omega)
      have hm : (".lvl".toList).isPrefixOf (p.drop (p.length - 4)) = false := by
        apply Bool.eq_false_iff.mpr
        intro hp
        exact hns (isPrefixOf_drop_suffix ".lvl".toList p (by simpa using h4) (by simpa using hp))
      rw [hk]
      cases hr : rfind p ".lvl".toList with
      | none =>
        have : ¬ (2 ^ w - 1 = p.length - 4) := by omega
        simp [this]
      | some i =>
        have hi : i < p.length - 4 := by
          unfold rfind at hr
          rw [if_pos (by simpa using h4)] at hr
          exact rfindFrom_miss p ".lvl".toList _ i (by simpa using hm) (by simpa using hr)
        have : ¬ (i = p.length - 4) := by omega
        simp [this]
    · have hr : rfind p ".lvl".toList = none := by
        unfold rfind
        rw [if_neg (by simpa using h4)]
      have hk : (p.length + 2 ^ w - 4) % 2 ^ w = p.length + 2 ^ w - 4 :=
        Nat.mod_eq_of_lt (by omega)
      rw [hr, hk]
      split_ifs with hc
      · exact List.take_of_length_le (by omega)
      · rfl

/-- Witness of C13: `a.lvl` on a 64-bit `size_t`. -/
theorem output_path_extension_witness :
    outputPath 64 "a.lvl".toList = "a.json".toList := by
  have h := (output_path_extension 64 "a.lvl".toList (by decide) (by decide)).1 "a".toList rfl
  rw [h]
  rfl

/-! ## The pair overload against an array of two -/

/-- C19: in every state a writer can reach in which the top frame is an array or a key has
just been written (the first-item flag is off), the pair call `value(x, y)` and the calls
`array(); value(x); value(y); end()` both succeed and leave the same stack, indent depth and
first-item flag; in packed mode they append the same text, so the states are equal, and in
pretty mode the texts differ only in whitespace: the pair has one space after the comma, the
call sequence has a line feed and indentation before each element and before `]`. -/
theorem pair_is_array_of_two (p : Bool) (cs : List Call) (j : JSON)
    (h : JSON.run cs (JSON.new p) = some j) (x y : Scalar)
    (hc : j.in_array = true ∨ j.first = false) :
    ∃ j1 j2 pre vx vy, j.value2 x y = some j1
      ∧ JSON.run [Call.array, Call.value x, Call.value y, Call.end_] j = some j2
      ∧ val x = some vx ∧ val y = some vy
      ∧ j1.s = j2.s ∧ j1.i = j2.i ∧ j1.first = j2.first ∧ j1.pack = j2.pack
      ∧ (p = true → j1 = j2)
      ∧ j1.o = j.o ++ pre ++ ['['] ++ vx ++ [','] ++ (if p then [] else [' ']) ++ vy ++ [']']
      ∧ j2.o = j.o ++ pre ++ ['[']
          ++ (if p then [] else '\n' :: List.replicate (2 * (j.i + 1)).toNat ' ') ++ vx ++ [',']
          ++ (if p then [] else '\n' :: List.replicate (2 * (j.i + 1)).toNat ' ') ++ vy
          ++ (if p then [] else '\n' :: List.replicate (2 * j.i).toNat ' ') ++ [']'] := by
  obtain ⟨hi, hp⟩ := JSON.reach_inv p cs j h
  have h1 := JSON.value2_eq j _ hi x y
  have h2 := Node.run_node (Node.array (.cons (.scalar x) (.cons (.scalar y) .nil))) [] j _ hi hc
  have e : (Node.array (.cons (.scalar x) (.cons (.scalar y) .nil))).calls ++ []
      = [Call.array, Call.value x, Call.value y, Call.end_] := by
    simp [Node.calls, Elems.calls]
  rw [e] at h2
  have hf : (j.first && !j.in_array) = false := by
    rcases hc with h | h <;> simp [h]
  have n1 : (2 * (j.i + 1)).toNat = 2 * (j.s.length + 1 + 1) := by omega
  have n2 : (2 * j.i).toNat = 2 * (j.s.length + 1) := by omega
  refine ⟨_, _, j.lead (j.s.length + 1), valText x, valText y, h1, h2, val_eq x, val_eq y, rfl,
    rfl, by simp [hf], rfl, ?_, ?_, ?_⟩
  · intro ht
    subst ht
    simp [hf, hp, Node.render, Elems.render, sepText, nlText, spText]
  · cases p <;> simp [hp, spText]
  · cases p <;> simp [hp, Node.render, Elems.render, sepText, nlText, n1, n2]

/-- Witness of C19: the pair `(3, -2)` after a key, packed. -/
theorem pair_is_array_of_two_witness :
    ∃ j1, JSON.value2 (.int 3) (.int (-2))
        { pack := true, s := [], o := "\x7b\"a\":".toList, first := false, i := 1 } = some j1
      ∧ JSON.run [Call.array, Call.value (.int 3), Call.value (.int (-2)), Call.end_]
        { pack := true, s := [], o := "\x7b\"a\":".toList, first := false, i := 1 } = some j1 := by
  obtain ⟨j1, j2, _, _, _, h1, h2, _, _, _, _, _, _, h9, _⟩ :=
    pair_is_array_of_two true [Call.name "a".toList]
      { pack := true, s := [], o := "\x7b\"a\":".toList, first := false, i := 1 }
      (by decide) (.int 3) (.int (-2)) (Or.inr rfl)
  refine ⟨j1, h1, ?_⟩
  rw [h9 rfl]
  exact h2

/-! ## Indentation -/

theorem isDigit_ne (c x : Char) (h : c.isDigit = true) (hx : x.isDigit = false) : c ≠ x := by
  intro e
  subst e
  rw [hx] at h
  exact absurd h (by decide)

theorem valText_head (x : Scalar) :
    ∃ c r, valText x = c :: r ∧ c ≠ ' ' ∧ c ≠ '\n' ∧ c ≠ ',' := by
  cases x with
  | int n =>
    by_cases hn : n < 0
    · exact ⟨'-', decimalNat n.natAbs, by simp [valText, decimal, hn], by decide, by decide,
        by decide⟩
    · obtain ⟨h1, _, c, r, h3, _⟩ := decimalNat_spec n.toNat
      have hc : c.isDigit = true := h1 c (by simp [h3])
      exact ⟨c, r, by simp [valText, decimal, hn, h3], isDigit_ne c _ hc (by decide),
        isDigit_ne c _ hc (by decide), isDigit_ne c _ hc (by decide)⟩
  | bool b =>
    cases b
    · exact ⟨'f', ['a', 'l', 's', 'e'], by simp [valText], by decide, by decide, by decide⟩
    · exact ⟨'t', ['r', 'u', 'e'], by simp [valText], by decide, by decide, by decide⟩
  | str s =>
    exact ⟨dq, escape s ++ [dq], by simp [valText], by decide, by decide, by decide⟩

theorem valText_noBlank (x : Scalar) (h : x.noBlank = true) : NoBlank (valText x) := by
  cases x with
  | int n =>
    intro c hc
    have hd : c = '-' ∨ c.isDigit = true := by
      by_cases hn : n < 0
      · simp [valText, decimal, hn] at hc
        rcases hc with rfl | hc
        · exact Or.inl rfl
        · exact Or.inr ((decimalNat_spec n.natAbs).1 c hc)
      · simp [valText, decimal, hn] at hc
        exact Or.inr ((decimalNat_spec n.toNat).1 c hc)
    rcases hd with rfl | hd
    · exact ⟨by decide, by decide⟩
    · exact ⟨isDigit_ne c _ hd (by decide), isDigit_ne c _ hd (by decide)⟩
  | bool b =>
    intro c hc
    cases b <;> simp [valText] at hc <;>
      rcases hc with rfl | rfl | rfl | rfl | rfl <;> exact ⟨by decide, by decide⟩
  | str s =>
    intro c hc
    simp only [Scalar.noBlank, List.all_eq_true, Bool.and_eq_true, decide_eq_true_eq] at h
    simp only [valText, escape, List.mem_cons, List.mem_append, List.mem_flatten, List.mem_map,
      List.mem_singleton, List.not_mem_nil, or_false] at hc
    rcases hc with (rfl | ⟨l, ⟨a, ha, rfl⟩, hcl⟩) | rfl
    · exact ⟨by decide, by decide⟩
    · unfold escapeChar at hcl
      split_ifs at hcl
      · simp at hcl
        rcases hcl with rfl | rfl <;> exact ⟨by decide, by decide⟩
      · simp at hcl
        rcases hcl with rfl | rfl <;> exact ⟨by decide, by decide⟩
      · simp at hcl
        rw [hcl]
        exact h a ha
    · exact ⟨by decide, by decide⟩

theorem NoBlank.concat {a b : List Char} (ha : NoBlank a) (hb : NoBlank b) : NoBlank (a ++ b) := by
  intro c hc
  rcases List.mem_append.mp hc with h | h
  · exact ha c h
  · exact hb c h

theorem NoBlank.single (c : Char) (h1 : c ≠ ' ') (h2 : c ≠ '\n') : NoBlank [c] := by
  intro x hx
  simp at hx
  subst hx
  exact ⟨h1, h2⟩

theorem NoBlank.blankless_nil : NoBlank [] := by
  intro c hc
  simp at hc

theorem NoBlank.separator (first : Bool) : NoBlank (sepText first) := by
  cases first
  · exact NoBlank.single ',' (by decide) (by decide)
  · exact NoBlank.blankless_nil

theorem NoBlank.leading (j : JSON) (d : Nat) (hp : j.pack = true) : NoBlank (j.lead d) := by
  unfold JSON.lead
  split
  · simpa [nlText, hp] using NoBlank.separator j.first
  · exact NoBlank.blankless_nil

theorem NoBlank.of_name (k : List Char) (h : (Call.name k).noBlank = true) : NoBlank k := by
  intro c hc
  simp only [Call.noBlank, List.all_eq_true, Bool.and_eq_true, decide_eq_true_eq] at h
  exact h c hc

theorem JSON.step_noBlank (j j1 : JSON) (c : Call) (hi : j.i = ((j.s.length + 1 : Nat) : Int))
    (hp : j.pack = true) (hc : c.noBlank = true) (ho : NoBlank j.o) (h : j.step c = some j1) :
    NoBlank j1.o := by
  have hq : NoBlank [dq] := NoBlank.single dq (by decide) (by decide)
  cases c with
  | name k =>
    rw [JSON.step, JSON.name_eq j _ hi] at h
    cases h
    have e : sepText j.first ++ nlText j.pack (j.s.length + 1) ++ dq :: k
        ++ dq :: ':' :: spText j.pack
        = sepText j.first ++ ([dq] ++ (k ++ ([dq] ++ [':']))) := by
      simp [nlText, spText, hp]
    simp only [e]
    exact ho.concat ((NoBlank.separator _).concat (hq.concat ((NoBlank.of_name k hc).concat
      (hq.concat (NoBlank.single ':' (by decide) (by decide))))))
  | value x =>
    rw [JSON.step, JSON.value_eq j _ hi] at h
    cases h
    exact ho.concat ((NoBlank.leading j _ hp).concat (valText_noBlank x hc))
  | value2 x y =>
    rw [JSON.step, JSON.value2_eq j _ hi] at h
    cases h
    simp only [Call.noBlank, Bool.and_eq_true] at hc
    have e : '[' :: valText x ++ ',' :: spText j.pack ++ valText y ++ [']']
        = ['['] ++ (valText x ++ ([','] ++ (valText y ++ [']']))) := by
      simp [spText, hp]
    simp only [e]
    exact ho.concat ((NoBlank.leading j _ hp).concat ((NoBlank.single '[' (by decide) (by decide)).concat
      ((valText_noBlank x hc.1).concat ((NoBlank.single ',' (by decide) (by decide)).concat
        ((valText_noBlank y hc.2).concat (NoBlank.single ']' (by decide) (by decide)))))))
  | array =>
    rw [JSON.step, JSON.array_eq j _ hi] at h
    cases h
    exact ho.concat ((NoBlank.leading j _ hp).concat (NoBlank.single '[' (by decide) (by decide)))
  | object =>
    rw [JSON.step, JSON.object_eq j _ hi] at h
    cases h
    exact ho.concat ((NoBlank.leading j _ hp).concat (NoBlank.single '{' (by decide) (by decide)))
  | end_ =>
    cases hs : j.s with
    | nil => simp [JSON.step, JSON.end_, hs] at h
    | cons t rest =>
      have hi2 : j.i = ((rest.length + 1 : Nat) : Int) + 1 := by
        rw [hi, hs]
        simp
      rw [JSON.step, JSON.end_eq j _ hi2 t rest hs] at h
      cases h
      have e : nlText j.pack (rest.length + 1) = [] := by simp [nlText, hp]
      simp only [e, List.nil_append]
      refine ho.concat ?_
      cases t
      · exact NoBlank.single ']' (by decide) (by decide)
      · exact NoBlank.single '}' (by decide) (by decide)

theorem JSON.run_noBlank (cs : List Call) : ∀ (j j1 : JSON), j.Inv → j.pack = true →
    (∀ c ∈ cs, c.noBlank = true) → NoBlank j.o → JSON.run cs j = some j1 → NoBlank j1.o := by
  induction cs with
  | nil =>
    intro j j1 _ _ _ ho h
    simp only [JSON.run, Option.some.injEq] at h
    subst h
    exact ho
  | cons c cs ih =>
    intro j j1 hinv hp hc ho h
    simp only [JSON.run] at h
    cases hs : j.step c with
    | none => simp [hs] at h
    | some j2 =>
      rw [hs] at h
      have hi : j.i = ((j.s.length + 1 : Nat) : Int) := by simpa [JSON.Inv] using hinv
      have h2 := JSON.step_inv j j2 c hinv hs
      exact ih j2 j1 h2.1 (h2.2.trans hp) (fun x hx => hc x (by simp [hx]))
        (JSON.step_noBlank j j2 c hi hp (hc c (by simp)) ho hs) h

/-- C16: in every state a writer can reach, `name` and every call that writes an array
element (`value`, the pair `value`, `array`, `object` with an array frame on top) write the
separator, then in pretty mode a line feed and exactly `2 * (frames open + 1)` spaces before
the key or element, and `end` writes in pretty mode a line feed and exactly
`2 * (frames open before the call)` spaces before the closing bracket, the indentation of the
entries of the container in which the closed one was opened; in packed mode none of them
writes a line feed or indentation, and a packed document whose keys and strings hold no space
and no line feed holds none at all. -/
theorem indentation_by_depth (p : Bool) (cs : List Call) (j : JSON)
    (h : JSON.run cs (JSON.new p) = some j) :
    (∀ k, ∃ j1, j.name k = some j1
        ∧ j1.o = j.o ++ (if j.first then [] else [','])
            ++ (if p then [] else '\n' :: List.replicate (2 * (j.s.length + 1)) ' ')
            ++ [dq] ++ k ++ [dq, ':'] ++ (if p then [] else [' ']))
    ∧ (j.in_array = true → ∀ c, (c = Call.array ∨ c = Call.object ∨ (∃ x, c = Call.value x)
          ∨ ∃ x y, c = Call.value2 x y) →
        ∃ j1 a body, j.step c = some j1
          ∧ j1.o = j.o ++ (if j.first then [] else [','])
              ++ (if p then [] else '\n' :: List.replicate (2 * (j.s.length + 1)) ' ')
              ++ a :: body
          ∧ a ≠ ' ' ∧ a ≠ '\n')
    ∧ (∀ t rest, j.s = t :: rest → ∃ j1, j.end_ = some j1
        ∧ j1.o = j.o ++ (if p then [] else '\n' :: List.replicate (2 * j.s.length) ' ')
            ++ [if t = Kind.ARRAY then ']' else '}']
        ∧ j.s.length = rest.length + 1)
    ∧ (p = true → (∀ c ∈ cs, c.noBlank = true) → NoBlank j.finish) := by
  obtain ⟨hi, hp⟩ := JSON.reach_inv p cs j h
  refine ⟨?_, ?_, ?_, ?_⟩
  · intro k
    refine ⟨_, JSON.name_eq j _ hi k, ?_⟩
    cases p <;> simp [sepText, nlText, spText, hp]
  · intro ha c hc
    have hl : j.lead (j.s.length + 1) = (if j.first then [] else [','])
        ++ (if p then [] else '\n' :: List.replicate (2 * (j.s.length + 1)) ' ') := by
      cases p <;> simp [JSON.lead, ha, sepText, nlText, hp]
    rcases hc with rfl | rfl | ⟨x, rfl⟩ | ⟨x, y, rfl⟩
    · exact ⟨_, '[', [], by rw [JSON.step]; exact JSON.array_eq j _ hi, by simp [hl],
        by decide, by decide⟩
    · exact ⟨_, '{', [], by rw [JSON.step]; exact JSON.object_eq j _ hi, by simp [hl],
        by decide, by decide⟩
    · obtain ⟨a, r, hv, h1, h2, _⟩ := valText_head x
      exact ⟨_, a, r, by rw [JSON.step]; exact JSON.value_eq j _ hi x, by simp [hl, hv], h1, h2⟩
    · exact ⟨_, '[', valText x ++ ',' :: spText j.pack ++ valText y ++ [']'],
        by rw [JSON.step]; exact JSON.value2_eq j _ hi x y, by simp [hl], by decide, by decide⟩
  · intro t rest hs
    have hi2 : j.i = ((rest.length + 1 : Nat) : Int) + 1 := by
      rw [hi, hs]
      simp
    refine ⟨_, JSON.end_eq j _ hi2 t rest hs, ?_, by simp [hs]⟩
    cases p <;> simp [nlText, hp, hs]
  · intro ht hc
    subst ht
    have ho := JSON.run_noBlank cs _ j (JSON.new_inv true) rfl hc
      (by simpa [JSON.new] using NoBlank.single '{' (by decide) (by decide)) h
    simpa [JSON.finish, hp] using ho.concat (NoBlank.single '}' (by decide) (by decide))

/-- Witness of C16: the second element of an array one level deep, pretty. -/
theorem indentation_by_depth_witness :
    ∃ j1 a body, JSON.step
        { pack := false, s := [Kind.ARRAY], o := "\x7b\n  \"a\": [\n    1".toList, first := false,
          i := 2 } (Call.value (.int 2)) = some j1
      ∧ j1.o = "\x7b\n  \"a\": [\n    1".toList ++ [',']
          ++ ('\n' :: List.replicate 4 ' ') ++ a :: body
      ∧ a ≠ ' ' ∧ a ≠ '\n' := by
  have h := (indentation_by_depth false
    [Call.name "a".toList, Call.array, Call.value (.int 1)]
    { pack := false, s := [Kind.ARRAY], o := "\x7b\n  \"a\": [\n    1".toList, first := false,
      i := 2 } (by decide)).2.1 rfl (Call.value (.int 2)) (Or.inr (Or.inr (Or.inl ⟨_, rfl⟩)))
  obtain ⟨j1, a, body, h1, h2, h3, h4⟩ := h
  exact ⟨j1, a, body, h1, by simpa using h2, h3, h4⟩

/-! ## The first-item flag on well-formed call sequences -/

theorem Shape.matches_in_array (c : Shape) (j : JSON) (h : c.Matches j) :
    j.in_array = c.inArray := by
  obtain ⟨hs, _, _⟩ := h
  unfold JSON.in_array Shape.inArray
  rw [hs]
  cases c.frames <;> simp

theorem Shape.sep_eq (c : Shape) (j : JSON) (h : c.Matches j) :
    sepText j.first = if c.count ≠ 0 then [','] else [] := by
  obtain ⟨_, hf, _⟩ := h
  unfold sepText
  cases hj : j.first
  · have : c.count ≠ 0 := fun e => by
      have := hf.mpr e
      rw [hj] at this
      cases this
    simp [this]
  · have : c.count = 0 := hf.mp hj
    simp [this]

theorem Shape.bump_count (c : Shape) : c.bump.count = c.count + 1 := by
  unfold Shape.bump Shape.count
  cases c.frames <;> simp

theorem Shape.bump_kinds (c : Shape) :
    c.bump.frames.map Prod.fst = c.frames.map Prod.fst := by
  unfold Shape.bump
  cases c.frames <;> simp

theorem Shape.bump_tail (c : Shape) : c.bump.frames.tail = c.frames.tail := by
  unfold Shape.bump
  cases c.frames <;> simp

theorem Shape.bump_root (c : Shape) (h : c.frames ≠ []) : c.bump.root = c.root := by
  unfold Shape.bump
  cases hf : c.frames with
  | nil => exact absurd hf h
  | cons f fs => simp

theorem Shape.bump_nonempty (c : Shape) : c.bump.frames ≠ [] ↔ c.frames ≠ [] := by
  unfold Shape.bump
  cases c.frames <;> simp

theorem Shape.bump_pending (c : Shape) : c.bump.pending = c.pending := by
  unfold Shape.bump
  cases c.frames <;> simp

theorem Shape.bump_inArray (c : Shape) : c.bump.inArray = c.inArray := by
  unfold Shape.bump Shape.inArray
  cases c.frames <;> simp

theorem Shape.fill_pending (c : Shape) (hp : c.pending = true) :
    c.fill = { c with pending := false } := by
  unfold Shape.fill
  rw [if_pos hp]

theorem Shape.fill_bump (c : Shape) (hp : c.pending = false) : c.fill = c.bump := by
  unfold Shape.fill
  rw [if_neg (by simp [hp])]

/-- After a value the innermost container has an entry, and no key is waiting. -/
theorem Shape.fill_spec (c : Shape) (hs : c.Sound) (he : c.expectsValue = true) :
    c.fill.frames.map Prod.fst = c.frames.map Prod.fst
    ∧ 1 ≤ c.fill.count ∧ c.fill.pending = false
    ∧ (∀ f ∈ c.fill.frames, 1 ≤ f.2) ∧ (c.fill.frames ≠ [] → 1 ≤ c.fill.root)
    ∧ (c.fill.frames = [] → 1 ≤ c.fill.root) := by
  obtain ⟨h1, h2, h3⟩ := hs
  by_cases hp : c.pending = true
  · obtain ⟨h4, _⟩ := h3 hp
    rw [Shape.fill_pending c hp]
    refine ⟨rfl, ?_, rfl, ?_, h2, ?_⟩
    · simpa [Shape.count] using h4
    · intro f hf
      have hf : f ∈ c.frames := hf
      cases hfr : c.frames with
      | nil => simp [hfr] at hf
      | cons g gs =>
        rw [hfr, List.mem_cons] at hf
        rcases hf with hf | hf
        · rw [hf]
          simpa [Shape.count, hfr] using h4
        · exact h1 f (by simp [hfr, hf])
    · intro hn
      have hn : c.frames = [] := hn
      simpa [Shape.count, hn] using h4
  · have hp2 : c.pending = false := by simpa using hp
    have ha : c.inArray = true := by simpa [Shape.expectsValue, hp2] using he
    have hne : c.frames ≠ [] := by
      intro e
      simp [Shape.inArray, e] at ha
    rw [Shape.fill_bump c hp2]
    refine ⟨Shape.bump_kinds c, by rw [Shape.bump_count]; omega, by rw [Shape.bump_pending, hp2],
      ?_, ?_, ?_⟩
    · intro f hf
      cases hfr : c.frames with
      | nil => exact absurd hfr hne
      | cons g gs =>
        simp only [Shape.bump, hfr, List.mem_cons] at hf
        rcases hf with hf | hf
        · rw [hf]
          simp
        · exact h1 f (by simp [hfr, hf])
    · intro _
      rw [Shape.bump_root c hne]
      exact h2 hne
    · intro hn
      exact absurd hn ((Shape.bump_nonempty c).mpr hne)

theorem valText_last (x : Scalar) : ∃ r z, valText x = r ++ [z] ∧ z ≠ ',' := by
  have key : ∀ l : List Char, l ≠ [] → (∀ c ∈ l, c.isDigit = true) →
      ∃ r z, l = r ++ [z] ∧ z ≠ ',' := by
    intro l hne hd
    exact ⟨l.dropLast, l.getLast hne, (List.dropLast_append_getLast hne).symm,
      isDigit_ne _ _ (hd _ (List.getLast_mem hne)) (by decide)⟩
  cases x with
  | int n =>
    by_cases hn : n < 0
    · obtain ⟨h1, _, c, r, h3, _⟩ := decimalNat_spec n.natAbs
      obtain ⟨r1, z, e, hz⟩ := key (decimalNat n.natAbs) (by simp [h3]) h1
      exact ⟨'-' :: r1, z, by simp [valText, decimal, hn, e], hz⟩
    · obtain ⟨h1, _, c, r, h3, _⟩ := decimalNat_spec n.toNat
      obtain ⟨r1, z, e, hz⟩ := key (decimalNat n.toNat) (by simp [h3]) h1
      exact ⟨r1, z, by simp [valText, decimal, hn, e], hz⟩
  | bool b =>
    cases b
    · exact ⟨"fals".toList, 'e', by decide, by decide⟩
    · exact ⟨"tru".toList, 'e', by decide, by decide⟩
  | str s => exact ⟨dq :: escape s, dq, by simp [valText], by decide⟩

theorem NoEdgeComma.of_scalar (x : Scalar) : NoEdgeComma (valText x) := by
  obtain ⟨c, r, e, _, _, hc⟩ := valText_head x
  exact ⟨⟨c, r, e, hc⟩, valText_last x⟩

theorem NoEdgeComma.after_nl (p : Bool) (d : Nat) (t : List Char) (h : NoEdgeComma t) :
    NoEdgeComma (nlText p d ++ t) := by
  obtain ⟨⟨a, r, e, ha⟩, r2, z, e2, hz⟩ := h
  refine ⟨?_, nlText p d ++ r2, z, by rw [e2, List.append_assoc], hz⟩
  cases p
  · exact ⟨'\n', List.replicate (2 * d) ' ' ++ t, by simp [nlText], by decide⟩
  · exact ⟨a, r, by simp [nlText, e], ha⟩

theorem NoEdgeComma.bracketed (a z : Char) (t : List Char) (ha : a ≠ ',') (hz : z ≠ ',') :
    NoEdgeComma (a :: t ++ [z]) :=
  ⟨⟨a, t ++ [z], rfl, ha⟩, a :: t, z, rfl, hz⟩

theorem NoEdgeComma.lone (a : Char) (ha : a ≠ ',') : NoEdgeComma [a] :=
  ⟨⟨a, [], rfl, ha⟩, [], a, rfl, ha⟩

/-- What a value-producing call writes before the value, by the caller's bookkeeping. -/
theorem Shape.lead_eq (c : Shape) (j : JSON) (d : Nat) (hs : c.Sound) (hm : c.Matches j)
    (he : c.expectsValue = true) :
    j.lead d = (if !c.pending ∧ c.count ≠ 0 then [','] else [])
      ++ (if c.pending then [] else nlText j.pack d) := by
  unfold JSON.lead
  rw [Shape.matches_in_array c j hm, Shape.sep_eq c j hm]
  cases hp : c.pending
  · have ha : c.inArray = true := by simpa [Shape.expectsValue, hp] using he
    simp [ha]
  · have ha : c.inArray = false := (hs.2.2 hp).2
    simp [ha]

theorem Shape.first_after_value (c : Shape) (j : JSON) (hs : c.Sound) (hm : c.Matches j)
    (he : c.expectsValue = true) : (j.first && !j.in_array) = false := by
  rw [Shape.matches_in_array c j hm]
  cases hp : c.pending
  · have ha : c.inArray = true := by simpa [Shape.expectsValue, hp] using he
    simp [ha]
  · have h1 : 1 ≤ c.count := (hs.2.2 hp).1
    cases hf : j.first
    · simp
    · have := hm.2.1.mp hf
      omega

theorem Shape.fill_sound (c : Shape) (hs : c.Sound) (he : c.expectsValue = true) :
    c.fill.Sound := by
  obtain ⟨_, _, h3, h4, h5, _⟩ := Shape.fill_spec c hs he
  refine ⟨fun f hf => h4 f (List.mem_of_mem_tail hf), h5, ?_⟩
  intro hp
  rw [h3] at hp
  cases hp

theorem Shape.fill_matches (c : Shape) (j j1 : JSON) (hs : c.Sound) (hm : c.Matches j)
    (he : c.expectsValue = true) (h1 : j1.s = j.s) (h2 : j1.i = j.i)
    (h3 : j1.first = (j.first && !j.in_array)) : c.fill.Matches j1 := by
  obtain ⟨k1, k2, _, _, _, _⟩ := Shape.fill_spec c hs he
  refine ⟨by rw [h1, hm.1, k1], ?_, by rw [h1, h2]; exact hm.2.2⟩
  rw [h3, Shape.first_after_value c j hs hm he]
  constructor
  · intro e
    cases e
  · intro e
    omega

theorem Shape.push_sound (c : Shape) (k : Kind) (hs : c.Sound) (he : c.expectsValue = true) :
    Shape.Sound { c.fill with frames := (k, 0) :: c.fill.frames } := by
  obtain ⟨_, _, h3, h4, h5, h6⟩ := Shape.fill_spec c hs he
  refine ⟨fun f hf => h4 f hf, ?_, ?_⟩
  · intro _
    by_cases e : c.fill.frames = []
    · exact h6 e
    · exact h5 e
  · intro hp
    have hp : c.fill.pending = true := hp
    rw [h3] at hp
    cases hp

theorem Shape.push_matches (c : Shape) (k : Kind) (j j1 : JSON) (hs : c.Sound)
    (hm : c.Matches j) (he : c.expectsValue = true) (h1 : j1.s = k :: j.s)
    (h2 : j1.i = j.i + 1) (h3 : j1.first = true) :
    Shape.Matches { c.fill with frames := (k, 0) :: c.fill.frames } j1 := by
  obtain ⟨k1, _, _, _, _, _⟩ := Shape.fill_spec c hs he
  refine ⟨?_, ?_, ?_⟩
  · show j1.s = ((k, 0) :: c.fill.frames).map Prod.fst
    rw [h1, hm.1, List.map_cons, k1]
  · rw [h3]
    simp [Shape.count]
  · rw [h1, h2, hm.2.2]
    simp

/-- One accepted call: the writer performs it, writes a comma first exactly when the call
begins an entry that is not the first of its container, and then a text that neither begins
nor ends with a comma. -/
theorem Shape.step_sim (c c1 : Shape) (j : JSON) (call : Call) (hs : c.Sound)
    (hm : c.Matches j) (h : c.step call = some c1) :
    ∃ j1 body, j.step call = some j1
      ∧ j1.o = j.o ++ ((if c.startsEntry call = true ∧ c.count ≠ 0 then [','] else []) ++ body)
      ∧ NoEdgeComma body ∧ j1.pack = j.pack ∧ c1.Sound ∧ c1.Matches j1 := by
  have hi := hm.2.2
  cases call with
  | name k =>
    simp only [Shape.step] at h
    split at h
    · rename_i hc
      simp only [Bool.and_eq_true, Bool.not_eq_true'] at hc
      obtain ⟨hp, ha⟩ := hc
      cases h
      refine ⟨{ j with
          o := j.o ++ (sepText j.first ++ nlText j.pack (j.s.length + 1) ++ dq :: k
            ++ dq :: ':' :: spText j.pack)
          first := false },
        nlText j.pack (j.s.length + 1) ++ (dq :: k ++ dq :: ':' :: spText j.pack),
        by rw [JSON.step, JSON.name_eq j _ hi], ?_, ?_, rfl, ?_, ?_⟩
      · simp [Shape.sep_eq c j hm, Shape.startsEntry]
      · apply NoEdgeComma.after_nl
        cases j.pack
        · exact ⟨⟨dq, _, rfl, by decide⟩, dq :: k ++ [dq, ':'], ' ', by simp [spText],
            by decide⟩
        · exact ⟨⟨dq, _, rfl, by decide⟩, dq :: k ++ [dq], ':', by simp [spText], by decide⟩
      · refine ⟨?_, ?_, ?_⟩
        · intro f hf
          have hf : f ∈ c.bump.frames.tail := hf
          rw [Shape.bump_tail] at hf
          exact hs.1 f hf
        · intro hne
          have hne : c.bump.frames ≠ [] := hne
          have hne2 := (Shape.bump_nonempty c).mp hne
          show 1 ≤ c.bump.root
          rw [Shape.bump_root c hne2]
          exact hs.2.1 hne2
        · intro _
          constructor
          · show 1 ≤ c.bump.count
            rw [Shape.bump_count]
            omega
          · show c.bump.inArray = false
            rw [Shape.bump_inArray, ha]
      · refine ⟨?_, ?_, hi⟩
        · show j.s = c.bump.frames.map Prod.fst
          rw [Shape.bump_kinds, hm.1]
        · show false = true ↔ c.bump.count = 0
          rw [Shape.bump_count]
          simp
    · cases h
  | value x =>
    simp only [Shape.step] at h
    split at h
    · rename_i he
      cases h
      refine ⟨{ j with
          o := j.o ++ (j.lead (j.s.length + 1) ++ valText x)
          first := j.first && !j.in_array },
        (if c.pending then [] else nlText j.pack (j.s.length + 1)) ++ valText x,
        by rw [JSON.step, JSON.value_eq j _ hi], ?_, ?_, rfl,
        Shape.fill_sound c hs he, Shape.fill_matches c j _ hs hm he rfl rfl rfl⟩
      · simp [Shape.lead_eq c j _ hs hm he, Shape.startsEntry]
      · cases c.pending
        · exact NoEdgeComma.after_nl _ _ _ (NoEdgeComma.of_scalar x)
        · exact NoEdgeComma.of_scalar x
    · cases h
  | value2 x y =>
    simp only [Shape.step] at h
    split at h
    · rename_i he
      cases h
      have hb : NoEdgeComma ('[' :: valText x ++ ',' :: spText j.pack ++ valText y ++ [']']) := by
        have := NoEdgeComma.bracketed '[' ']' (valText x ++ ',' :: spText j.pack ++ valText y)
          (by decide) (by decide)
        simpa using this
      refine ⟨{ j with
          o := j.o ++ (j.lead (j.s.length + 1)
            ++ ('[' :: valText x ++ ',' :: spText j.pack ++ valText y ++ [']']))
          first := j.first && !j.in_array },
        (if c.pending then [] else nlText j.pack (j.s.length + 1))
          ++ ('[' :: valText x ++ ',' :: spText j.pack ++ valText y ++ [']']),
        by rw [JSON.step, JSON.value2_eq j _ hi], ?_, ?_, rfl,
        Shape.fill_sound c hs he, Shape.fill_matches c j _ hs hm he rfl rfl rfl⟩
      · simp [Shape.lead_eq c j _ hs hm he, Shape.startsEntry]
      · cases c.pending
        · exact NoEdgeComma.after_nl _ _ _ hb
        · exact hb
    · cases h
  | array =>
    simp only [Shape.step] at h
    split at h
    · rename_i he
      cases h
      refine ⟨{ j with
          o := j.o ++ (j.lead (j.s.length + 1) ++ ['[']), first := true, i := j.i + 1,
          s := Kind.ARRAY :: j.s },
        (if c.pending then [] else nlText j.pack (j.s.length + 1)) ++ ['['],
        by rw [JSON.step, JSON.array_eq j _ hi], ?_, ?_, rfl,
        Shape.push_sound c _ hs he, Shape.push_matches c _ j _ hs hm he rfl rfl rfl⟩
      · simp [Shape.lead_eq c j _ hs hm he, Shape.startsEntry]
      · cases c.pending
        · exact NoEdgeComma.after_nl _ _ _ (NoEdgeComma.lone '[' (by decide))
        · exact NoEdgeComma.lone '[' (by decide)
    · cases h
  | object =>
    simp only [Shape.step] at h
    split at h
    · rename_i he
      cases h
      refine ⟨{ j with
          o := j.o ++ (j.lead (j.s.length + 1) ++ ['{']), first := true, i := j.i + 1,
          s := Kind.OBJECT :: j.s },
        (if c.pending then [] else nlText j.pack (j.s.length + 1)) ++ ['{'],
        by rw [JSON.step, JSON.object_eq j _ hi], ?_, ?_, rfl,
        Shape.push_sound c _ hs he, Shape.push_matches c _ j _ hs hm he rfl rfl rfl⟩
      · simp [Shape.lead_eq c j _ hs hm he, Shape.startsEntry]
      · cases c.pending
        · exact NoEdgeComma.after_nl _ _ _ (NoEdgeComma.lone '{' (by decide))
        · exact NoEdgeComma.lone '{' (by decide)
    · cases h
  | end_ =>
    obtain ⟨frames, root, pending⟩ := c
    cases pending with
    | true => simp [Shape.step] at h
    | false =>
      cases frames with
      | nil => simp [Shape.step] at h
      | cons f fs =>
        simp only [Shape.step] at h
        cases h
        have hjs : j.s = f.1 :: fs.map Prod.fst := by simpa using hm.1
        have hi2 : j.i = ((fs.length + 1 : Nat) : Int) + 1 := by
          rw [hi, hjs]
          simp
        refine ⟨{ j with
            o := j.o ++ (nlText j.pack (fs.length + 1)
              ++ [if f.1 = Kind.ARRAY then ']' else '}'])
            first := false, i := j.i - 1, s := fs.map Prod.fst },
          nlText j.pack (fs.length + 1) ++ [if f.1 = Kind.ARRAY then ']' else '}'],
          by rw [JSON.step, JSON.end_eq j _ hi2 f.1 _ hjs], ?_, ?_, rfl, ?_, ?_⟩
        · simp [Shape.startsEntry]
        · apply NoEdgeComma.after_nl
          cases f.1
          · exact NoEdgeComma.lone ']' (by decide)
          · exact NoEdgeComma.lone '}' (by decide)
        · refine ⟨?_, ?_, ?_⟩
          · intro g hg
            exact hs.1 g (List.mem_of_mem_tail hg)
          · intro _
            exact hs.2.1 (by simp)
          · intro hp
            cases hp
        · refine ⟨by simp, ?_, ?_⟩
          · have hc : 1 ≤ Shape.count { frames := fs, root := root, pending := false } := by
              cases fs with
              | nil => exact hs.2.1 (by simp)
              | cons g gs => exact hs.1 g (by simp)
            constructor
            · intro e
              cases e
            · intro e
              omega
          · show j.i - 1 = _
            rw [hi2]
            simp

theorem Shape.init_sound : Shape.init.Sound := by
  refine ⟨?_, ?_, ?_⟩
  · intro f hf
    simp [Shape.init] at hf
  · intro h
    simp [Shape.init] at h
  · intro h
    simp [Shape.init] at h

theorem Shape.init_matches (p : Bool) : Shape.init.Matches (JSON.new p) := by
  refine ⟨rfl, ?_, rfl⟩
  simp [JSON.new, Shape.init, Shape.count]

/-- A well-formed sequence is performed by the writer, which stays in step with the caller. -/
theorem Shape.run_sim (cs : List Call) : ∀ (c c1 : Shape) (j : JSON), c.Sound → c.Matches j →
    (∃ r z, j.o = r ++ [z] ∧ z ≠ ',') → Shape.run cs c = some c1 →
    ∃ j1, JSON.run cs j = some j1 ∧ j1.pack = j.pack ∧ c1.Sound ∧ c1.Matches j1
      ∧ ∃ r z, j1.o = r ++ [z] ∧ z ≠ ',' := by
  induction cs with
  | nil =>
    intro c c1 j hs hm ho h
    cases h
    exact ⟨j, rfl, rfl, hs, hm, ho⟩
  | cons x xs ih =>
    intro c c1 j hs hm ho h
    simp only [Shape.run] at h
    cases hx : c.step x with
    | none => simp [hx] at h
    | some c2 =>
      rw [hx] at h
      obtain ⟨j2, body, e1, e2, ⟨_, r, z, e3, hz⟩, e4, e5, e6⟩ := Shape.step_sim c c2 j x hs hm hx
      obtain ⟨j1, k1, k2, k3, k4, k5⟩ := ih c2 c1 j2 e5 e6
        ⟨j.o ++ ((if c.startsEntry x = true ∧ c.count ≠ 0 then [','] else []) ++ r), z,
          by rw [e2, e3]; simp, hz⟩ h
      exact ⟨j1, by rw [JSON.run_step x xs j j2 e1, k1], by rw [k2, e4], k3, k4, k5⟩

theorem Shape.run_sound (cs : List Call) (c : Shape) (h : Shape.run cs Shape.init = some c) :
    c.Sound := by
  obtain ⟨_, _, _, hs, _⟩ := Shape.run_sim cs Shape.init c (JSON.new true) Shape.init_sound
    (Shape.init_matches true) ⟨[], '{', rfl, by decide⟩ h
  exact hs

theorem Shape.count_after_open (c c1 : Shape) (call : Call)
    (hc : call = Call.array ∨ call = Call.object) (h : c.step call = some c1) :
    c1.count = 0 := by
  rcases hc with rfl | rfl
  · simp only [Shape.step] at h
    split at h
    · cases h
      rfl
    · cases h
  · simp only [Shape.step] at h
    split at h
    · cases h
      rfl
    · cases h

theorem Shape.count_after_end (c c1 : Shape) (hs : c.Sound)
    (h : c.step Call.end_ = some c1) : c1.count ≠ 0 := by
  obtain ⟨frames, root, pending⟩ := c
  cases pending with
  | true => simp [Shape.step] at h
  | false =>
    cases frames with
    | nil => simp [Shape.step] at h
    | cons f fs =>
      simp only [Shape.step] at h
      cases h
      have hc : 1 ≤ Shape.count { frames := fs, root := root, pending := false } := by
        cases fs with
        | nil => exact hs.2.1 (by simp)
        | cons g gs => exact hs.1 g (by simp)
      omega

/-- C15: on every well-formed call sequence the writer performs all the calls, and its single
first-item flag is true exactly when the innermost open container (the root when none is
open) has no entry yet; the text written so far never ends with a comma; a further accepted
call writes one comma first exactly when it begins an entry (a key, or a value inside an
array) that is not the first of its container, followed by a non-empty text that neither
begins nor ends with a comma; a container just opened has no entry, and a container in which
a nested one was just closed has one. -/
theorem first_flag_is_per_frame (p : Bool) (cs : List Call) (c : Shape)
    (h : Shape.run cs Shape.init = some c) :
    ∃ j, JSON.run cs (JSON.new p) = some j
      ∧ (j.first = true ↔ c.count = 0)
      ∧ j.s = c.frames.map Prod.fst
      ∧ (∃ r z, j.o = r ++ [z] ∧ z ≠ ',')
      ∧ ∀ call c1, c.step call = some c1 →
          ∃ j1 body, j.step call = some j1
            ∧ (j1.first = true ↔ c1.count = 0)
            ∧ j1.o = j.o
                ++ ((if c.startsEntry call = true ∧ c.count ≠ 0 then [','] else []) ++ body)
            ∧ NoEdgeComma body
            ∧ ((call = Call.array ∨ call = Call.object) → c1.count = 0)
            ∧ (call = Call.end_ → c1.count ≠ 0) := by
  obtain ⟨j, h1, _, hs, hm, ho⟩ := Shape.run_sim cs Shape.init c (JSON.new p) Shape.init_sound
    (Shape.init_matches p) ⟨[], '{', rfl, by decide⟩ h
  refine ⟨j, h1, hm.2.1, hm.1, ho, ?_⟩
  intro call c1 hc
  obtain ⟨j1, body, e1, e2, e3, _, _, e6⟩ := Shape.step_sim c c1 j call hs hm hc
  refine ⟨j1, body, e1, e6.2.1, e2, e3, fun hk => Shape.count_after_open c c1 call hk hc, ?_⟩
  intro hk
  subst hk
  exact Shape.count_after_end c c1 hs hc

/-- Witness of C15: after a key, an array and one element, the flag is false, and a second
element is written after one comma, in packed mode. -/
theorem first_flag_is_per_frame_witness :
    ∃ j, JSON.run [Call.name "a".toList, Call.array, Call.value (Scalar.int 1)] (JSON.new true)
        = some j
      ∧ j.first = false
      ∧ ∃ j1 body, j.step (Call.value (Scalar.int 2)) = some j1
          ∧ j1.o = j.o ++ (',' :: body) ∧ NoEdgeComma body := by
  obtain ⟨j, h1, h2, _, _, h5⟩ := first_flag_is_per_frame true
    [Call.name "a".toList, Call.array, Call.value (Scalar.int 1)]
    { frames := [(Kind.ARRAY, 1)], root := 1, pending := false } (by decide)
  obtain ⟨j1, body, e1, _, e3, e4, _⟩ := h5 (Call.value (Scalar.int 2))
    { frames := [(Kind.ARRAY, 2)], root := 1, pending := false } (by decide)
  refine ⟨j, h1, ?_, j1, body, e1, ?_, e4⟩
  · cases hf : j.first
    · rfl
    · have := h2.mp hf
      simp [Shape.count] at this
  · rw [e3]
    simp [Shape.startsEntry, Shape.count]

/-! ## The calls of `convert` are well-formed -/

theorem Shape.fill_pending_false (c : Shape) : c.fill.pending = false := by
  cases hp : c.pending
  · rw [Shape.fill_bump c hp, Shape.bump_pending, hp]
  · rw [Shape.fill_pending c hp]

theorem Shape.iterate_bump_cons (k : Kind) (fs : List (Kind × Nat)) (r : Nat) (p : Bool) :
    ∀ (n m : Nat), Shape.bump^[n] { frames := (k, m) :: fs, root := r, pending := p }
      = { frames := (k, m + n) :: fs, root := r, pending := p } := by
  intro n
  induction n with
  | zero =>
    intro m
    rfl
  | succ n ih =>
    intro m
    rw [Function.iterate_succ_apply]
    have e : Shape.bump { frames := (k, m) :: fs, root := r, pending := p }
        = { frames := (k, m + 1) :: fs, root := r, pending := p } := rfl
    rw [e, ih (m + 1)]
    have : m + 1 + n = m + (n + 1) := by omega
    rw [this]

theorem Shape.run_next (x : Call) (xs : List Call) (c : Shape) :
    Shape.run (x :: xs) c = (c.step x).bind (Shape.run xs) := rfl

theorem Shape.iterate_bump_pending (n : Nat) : ∀ c : Shape,
    (Shape.bump^[n] c).pending = c.pending := by
  induction n with
  | zero =>
    intro c
    rfl
  | succ n ih =>
    intro c
    rw [Function.iterate_succ_apply, ih, Shape.bump_pending]

theorem Shape.iterate_bump_frames (n : Nat) : ∀ c : Shape,
    c.frames = [] → (Shape.bump^[n] c).frames = [] := by
  induction n with
  | zero =>
    intro c h
    exact h
  | succ n ih =>
    intro c h
    rw [Function.iterate_succ_apply]
    apply ih
    simp [Shape.bump, h]

theorem Shape.step_open (c : Shape) (he : c.expectsValue = true) (k : Kind) :
    c.step (if k = Kind.ARRAY then Call.array else Call.object)
      = some { frames := (k, 0) :: c.fill.frames, root := c.fill.root, pending := false } := by
  have hp := Shape.fill_pending_false c
  cases k
  · simp only [if_true, Shape.step, he]
    rw [← hp]
  · simp only [Shape.step, he, if_true]
    rw [← hp]
    rfl

theorem Shape.step_close (k : Kind) (n : Nat) (c : Shape) :
    Shape.step { frames := (k, n) :: c.fill.frames, root := c.fill.root, pending := false }
      Call.end_ = some c.fill := by
  have hp := Shape.fill_pending_false c
  have e : c.fill = { frames := c.fill.frames, root := c.fill.root, pending := false } := by
    rw [← hp]
  simp only [Shape.step]
  rw [← e]
  rfl

mutual
/-- The calls of a value are accepted where a value is expected, and fill that place. -/
theorem Node.accepted_node : ∀ (v : Node) (rest : List Call) (c : Shape),
    c.expectsValue = true → Shape.run (v.calls ++ rest) c = Shape.run rest c.fill
  | .scalar x, rest, c, he => by
    simp [Node.calls, Shape.run_next, Shape.step, he]
  | .pair x y, rest, c, he => by
    simp [Node.calls, Shape.run_next, Shape.step, he]
  | .object ms, rest, c, he => by
    have e : (Node.object ms).calls ++ rest = Call.object :: (ms.calls ++ (Call.end_ :: rest)) := by
      simp [Node.calls]
    have s1 := Shape.step_open c he Kind.OBJECT
    simp only [if_neg (by decide : ¬ Kind.OBJECT = Kind.ARRAY)] at s1
    obtain ⟨n, hn⟩ := Members.accepted_members ms (Call.end_ :: rest)
      { frames := (Kind.OBJECT, 0) :: c.fill.frames, root := c.fill.root, pending := false }
      rfl (by simp [Shape.inArray])
    rw [e, Shape.run_next, s1, Option.some_bind, hn, Shape.iterate_bump_cons, Shape.run_next,
      Shape.step_close, Option.some_bind]
  | .array xs, rest, c, he => by
    have e : (Node.array xs).calls ++ rest = Call.array :: (xs.calls ++ (Call.end_ :: rest)) := by
      simp [Node.calls]
    have s1 := Shape.step_open c he Kind.ARRAY
    simp only [if_true] at s1
    obtain ⟨n, hn⟩ := Elems.accepted_elems xs (Call.end_ :: rest)
      { frames := (Kind.ARRAY, 0) :: c.fill.frames, root := c.fill.root, pending := false }
      rfl (by simp [Shape.inArray])
    rw [e, Shape.run_next, s1, Option.some_bind, hn, Shape.iterate_bump_cons, Shape.run_next,
      Shape.step_close, Option.some_bind]
/-- The calls of the members of an object are accepted in an object with no key waiting: each
member begins one entry. -/
theorem Members.accepted_members : ∀ (ms : Members) (rest : List Call) (c : Shape),
    c.pending = false → c.inArray = false →
    ∃ n, Shape.run (ms.calls ++ rest) c = Shape.run rest (Shape.bump^[n] c)
  | .nil, rest, c, _, _ => ⟨0, by simp [Members.calls]⟩
  | .cons k v tl, rest, c, hp, ha => by
    have e : (Members.cons k v tl).calls ++ rest
        = Call.name k :: (v.calls ++ (tl.calls ++ rest)) := by
      simp [Members.calls]
    have s1 : c.step (Call.name k) = some { c.bump with pending := true } := by
      simp [Shape.step, hp, ha]
    have hv := Node.accepted_node v (tl.calls ++ rest) { c.bump with pending := true }
      (by simp [Shape.expectsValue])
    have hf : Shape.fill { c.bump with pending := true } = c.bump := by
      rw [Shape.fill_pending _ rfl]
      have := Shape.bump_pending c
      rw [hp] at this
      show ({ frames := c.bump.frames, root := c.bump.root, pending := false } : Shape) = c.bump
      rw [← this]
    obtain ⟨n, hn⟩ := Members.accepted_members tl rest c.bump
      (by rw [Shape.bump_pending, hp]) (by rw [Shape.bump_inArray, ha])
    refine ⟨n + 1, ?_⟩
    rw [e, Shape.run_next, s1, Option.some_bind, hv, hf, hn, Function.iterate_succ_apply]
/-- The calls of the elements of an array are accepted in an array: each element begins one
entry. -/
theorem Elems.accepted_elems : ∀ (xs : Elems) (rest : List Call) (c : Shape),
    c.pending = false → c.inArray = true →
    ∃ n, Shape.run (xs.calls ++ rest) c = Shape.run rest (Shape.bump^[n] c)
  | .nil, rest, c, _, _ => ⟨0, by simp [Elems.calls]⟩
  | .cons v tl, rest, c, hp, ha => by
    have e : (Elems.cons v tl).calls ++ rest = v.calls ++ (tl.calls ++ rest) := by
      simp [Elems.calls]
    have hv := Node.accepted_node v (tl.calls ++ rest) c (by simp [Shape.expectsValue, ha])
    obtain ⟨n, hn⟩ := Elems.accepted_elems tl rest c.bump
      (by rw [Shape.bump_pending, hp]) (by rw [Shape.bump_inArray, ha])
    refine ⟨n + 1, ?_⟩
    rw [e, hv, Shape.fill_bump c hp, hn, Function.iterate_succ_apply]
end

/-- C18: for every decoded record `convert` issues a well-formed sequence of writer calls: the
caller's contract accepts every call (a key only in an object with no key waiting, a key
followed at once by one value, pair or container, a bare value only in an array, `end` only
with a container open and no key waiting) and ends with no container open and no key waiting;
in both modes the writer performs every call, `end` is never reached with an empty stack, and
the writer is finalized with an empty stack at indent depth 1. -/
theorem convert_calls_well_formed (sch : Schema) (world : FileWorld) :
    ∃ cs, convertCalls sch world = some cs
      ∧ (∃ c, Shape.run cs Shape.init = some c ∧ c.frames = [] ∧ c.pending = false)
      ∧ ∀ p : Bool, ∃ j, JSON.run cs (JSON.new p) = some j ∧ j.s = [] ∧ j.i = 1
          ∧ ∀ pre post, cs = pre ++ Call.end_ :: post →
              ∃ j0, JSON.run pre (JSON.new p) = some j0 ∧ j0.s ≠ [] := by
  obtain ⟨n, hn⟩ := Members.accepted_members (worldTree sch world) [] Shape.init rfl rfl
  rw [List.append_nil] at hn
  have hr : Shape.run (worldTree sch world).calls Shape.init
      = some (Shape.bump^[n] Shape.init) := hn
  have hf : (Shape.bump^[n] Shape.init).frames = [] := Shape.iterate_bump_frames n _ rfl
  refine ⟨_, convertCalls_eq sch world, ⟨_, hr, hf, ?_⟩, ?_⟩
  · rw [Shape.iterate_bump_pending]
    rfl
  · intro p
    obtain ⟨j, h1, _, _, hm, _⟩ := Shape.run_sim _ Shape.init _ (JSON.new p) Shape.init_sound
      (Shape.init_matches p) ⟨[], '{', rfl, by decide⟩ hr
    have hs : j.s = [] := by
      rw [hm.1, hf]
      rfl
    refine ⟨j, h1, hs, ?_, ?_⟩
    · rw [hm.2.2, hs]
      rfl
    · intro pre post e
      rw [e, JSON.run_append] at h1
      cases h0 : JSON.run pre (JSON.new p) with
      | none => simp [h0] at h1
      | some j0 =>
        refine ⟨j0, rfl, ?_⟩
        intro hs0
        rw [h0, Option.some_bind, JSON.run_cons] at h1
        have : j0.step Call.end_ = none := by simp [JSON.step, JSON.end_, hs0]
        rw [this] at h1
        simp at h1

/-- Witness of C18: a record with one door and one button that names two doors. -/
theorem convert_calls_well_formed_witness :
    ∃ cs, convertCalls ⟨1, 1, .int32⟩
        ⟨7, 10, 12, 1, 2, 3, 4, [⟨0, 0, 1, 1, 1, 0, 2⟩], [], [⟨0, 5, 6, [0, 3], 1⟩], [], []⟩
        = some cs
      ∧ ∃ c, Shape.run cs Shape.init = some c ∧ c.frames = [] ∧ c.pending = false := by
  obtain ⟨cs, h1, h2, _⟩ := convert_calls_well_formed ⟨1, 1, .int32⟩
    ⟨7, 10, 12, 1, 2, 3, 4, [⟨0, 0, 1, 1, 1, 0, 2⟩], [], [⟨0, 5, 6, [0, 3], 1⟩], [], []⟩
  exact ⟨cs, h1, h2⟩

/-! ## The entities of a record -/

theorem Elems.ok_ofList (ns : List Node) (h : ∀ v ∈ ns, v.ok = true) :
    (Elems.ofList ns).ok = true := by
  induction ns with
  | nil => simp [Elems.ofList, Elems.ok]
  | cons v vs ih =>
    simp only [Elems.ofList, Elems.ok, Bool.and_eq_true]
    exact ⟨h v (by simp), ih fun w hw => h w (by simp [hw])⟩

theorem Elems.toJ_ofList (ns : List Node) : (Elems.ofList ns).toJ = ns.map Node.toJ := by
  induction ns with
  | nil => simp [Elems.ofList, Elems.toJ]
  | cons v vs ih => simp [Elems.ofList, Elems.toJ, ih]

theorem doorNode_ok (sch : Schema) (d : FileDoor) : (doorNode sch d).ok = true := by
  simp only [doorNode, Members.ofList, Members.ok, Node.ok, Scalar.ok, Bool.and_true,
    Bool.and_eq_true]
  decide

theorem cogNode_ok (d : FileCog) : (cogNode d).ok = true := by
  simp only [cogNode, Members.ofList, Members.ok, Node.ok, Scalar.ok, Bool.and_true,
    Bool.and_eq_true]
  decide

theorem buttonNode_ok (b : FileButton) : (buttonNode b).ok = true := by
  have hw : (Elems.ofList (b.door_index.map fun d => Node.scalar (Scalar.int d))).ok = true := by
    apply Elems.ok_ofList
    intro v hv
    simp only [List.mem_map] at hv
    obtain ⟨d, _, rfl⟩ := hv
    rfl
  simp only [buttonNode, Members.ofList, Members.ok, Node.ok, Scalar.ok, Bool.and_true,
    Bool.and_eq_true, hw]
  decide

theorem signNode_ok (s : FileSign) (h : textOk s.text = true) : (signNode s).ok = true := by
  simp only [signNode, Members.ofList, Members.ok, Node.ok, Scalar.ok, Bool.and_true,
    Bool.and_eq_true, h]
  decide

theorem replaceAll_mem (oldStr newStr : List Char) : ∀ (s : List Char) (skip : Nat) (c : Char),
    c ∈ replaceAll oldStr newStr skip s → c ∈ s ∨ c ∈ newStr := by
  intro s
  induction s with
  | nil =>
    intro skip c h
    cases skip <;> simp [replaceAll] at h
  | cons a s ih =>
    intro skip c h
    cases skip with
    | succ k =>
      simp only [replaceAll] at h
      rcases ih k c h with h1 | h1
      · exact Or.inl (List.mem_cons_of_mem _ h1)
      · exact Or.inr h1
    | zero =>
      simp only [replaceAll] at h
      split at h
      · rcases List.mem_append.mp h with h1 | h1
        · exact Or.inr h1
        · rcases ih _ c h1 with h2 | h2
          · exact Or.inl (List.mem_cons_of_mem _ h2)
          · exact Or.inr h2
      · rcases List.mem_cons.mp h with h1 | h1
        · exact Or.inl (by rw [h1]; exact List.mem_cons_self _ _)
        · rcases ih _ c h1 with h2 | h2
          · exact Or.inl (List.mem_cons_of_mem _ h2)
          · exact Or.inr h2

theorem toLower_printable (c : Char) (h : 32 ≤ c.toNat) : 32 ≤ c.toLower.toNat := by
  have key : ∀ n : Nat, 65 ≤ n → n ≤ 90 → 32 ≤ (Char.ofNat (n + 32)).toNat := by
    intro n h1 h2
    interval_cases n <;> decide
  show 32 ≤ (if c.toNat ≥ 65 ∧ c.toNat ≤ 90 then Char.ofNat (c.toNat + 32) else c).toNat
  by_cases hc : c.toNat ≥ 65 ∧ c.toNat ≤ 90
  · rw [if_pos hc]
    exact key c.toNat hc.1 hc.2
  · rw [if_neg hc]
    exact h

theorem enemyTypeText_ok (nm : List Char) (h : textOk nm = true) :
    textOk (enemyTypeText nm) = true := by
  simp only [textOk, List.all_eq_true, decide_eq_true_eq] at h ⊢
  intro c hc
  simp only [enemyTypeText, List.mem_map] at hc
  obtain ⟨a, ha, rfl⟩ := hc
  apply toLower_printable
  rcases replaceAll_mem _ _ _ _ _ ha with h1 | h1
  · rcases replaceAll_mem _ _ _ _ _ h1 with h2 | h2
    · exact h a h2
    · simp at h2
  · simp only [List.mem_singleton] at h1
    rw [h1]
    decide

theorem enemyNode_ok (e : FileEnemy) (h : textOk e.type_name = true) :
    (enemyNode e).ok = true := by
  simp only [enemyNode, Members.ofList, Members.ok, Node.ok, Scalar.ok, Bool.and_true,
    Bool.and_eq_true, enemyTypeText_ok e.type_name h]
  decide

/-- A record whose sign texts and enemy type names hold no control character is written as a
tree the writer renders as JSON. -/
theorem worldTree_ok (sch : Schema) (world : FileWorld)
    (hs : ∀ s ∈ world.sign, textOk s.text = true)
    (he : ∀ e ∈ world.enemy, textOk e.type_name = true) : (worldTree sch world).ok = true := by
  have hx : (Elems.ofList (entityNodes sch world)).ok = true := by
    apply Elems.ok_ofList
    intro v hv
    simp only [entityNodes, List.mem_append, List.mem_map] at hv
    rcases hv with (((⟨d, _, rfl⟩ | ⟨d, _, rfl⟩) | ⟨d, _, rfl⟩) | ⟨d, hd, rfl⟩) | ⟨d, hd, rfl⟩
    · exact doorNode_ok sch d
    · exact cogNode_ok d
    · exact buttonNode_ok d
    · exact signNode_ok d (hs d hd)
    · exact enemyNode_ok d (he d hd)
  simp only [worldTree, worldTail, Members.ofList, Members.ok, Node.ok, Scalar.ok, Bool.and_true,
    Bool.and_eq_true, hx]
  decide

theorem convert_parses (sch : Schema) (world : FileWorld) (pack : Bool)
    (h : (worldTree sch world).ok = true) :
    ∃ text, convert sch world pack = some text
      ∧ jsonParse text = some (JVal.obj (worldTree sch world).toJ) :=
  ⟨_, convert_eq sch world pack, jsonParse_tree pack _ h⟩

theorem worldTree_entities (sch : Schema) (world : FileWorld) :
    (JVal.obj (worldTree sch world).toJ).field "entities".toList
      = some (JVal.arr ((entityNodes sch world).map Node.toJ)) := by
  simp [worldTree, worldTail, Members.ofList, Members.toJ, Node.toJ, Elems.toJ_ofList,
    JVal.field, List.find?]

theorem buttonNode_walls (b : FileButton) :
    (buttonNode b).toJ.field "walls".toList = some (JVal.arr (b.door_index.map JVal.num)) := by
  simp [buttonNode, Members.ofList, Members.toJ, Node.toJ, Elems.toJ_ofList, JVal.field,
    List.find?, Scalar.toJ, Function.comp_def]

/-- C17: for every record, the calls `convert` issues are the calls up to the key `entities`
followed by the calls of one array whose elements are the objects of all doors, then all
cogs, then all buttons, then all signs, then all enemies, each group in record order, so that
the array has `door_size + cog_size + button_size + sign_size + enemy_size` elements; the
calls of each loop iteration are those of an object whose first member is `class` with the
string `wall`, `cog`, `button`, `sign` or `enemy`, and the `walls` member of a button is the
array of its door indices in order. When no sign text and no enemy type name holds a control
character, the written document parses, in both modes, to an object whose `entities` member
is exactly this array. -/
theorem entities_in_loop_order (sch : Schema) (world : FileWorld) :
    (∃ pre, headCalls sch world = pre ++ [Call.name "entities".toList, Call.array]
      ∧ convertCalls sch world = some (pre ++ Call.name "entities".toList
          :: (Node.array (Elems.ofList (entityNodes sch world))).calls))
    ∧ entityNodes sch world
        = world.door.map (doorNode sch) ++ world.cog.map cogNode
          ++ world.button.map buttonNode ++ world.sign.map signNode
          ++ world.enemy.map enemyNode
    ∧ ((entityNodes sch world).map Node.toJ).length
        = world.door.length + world.cog.length + world.button.length + world.sign.length
          + world.enemy.length
    ∧ (∀ d : FileDoor, doorCalls sch d = (doorNode sch d).calls
        ∧ ∃ ms, (doorNode sch d).toJ
            = JVal.obj (("class".toList, JVal.str "wall".toList) :: ms))
    ∧ (∀ c : FileCog, cogCalls c = (cogNode c).calls
        ∧ ∃ ms, (cogNode c).toJ = JVal.obj (("class".toList, JVal.str "cog".toList) :: ms))
    ∧ (∀ b : FileButton, buttonCalls b = (buttonNode b).calls
        ∧ (∃ ms, (buttonNode b).toJ
            = JVal.obj (("class".toList, JVal.str "button".toList) :: ms))
        ∧ (buttonNode b).toJ.field "walls".toList
            = some (JVal.arr (b.door_index.map JVal.num)))
    ∧ (∀ s : FileSign, signCalls s = (signNode s).calls
        ∧ ∃ ms, (signNode s).toJ = JVal.obj (("class".toList, JVal.str "sign".toList) :: ms))
    ∧ (∀ e : FileEnemy, enemyCalls e = some (enemyNode e).calls
        ∧ ∃ ms, (enemyNode e).toJ
            = JVal.obj (("class".toList, JVal.str "enemy".toList) :: ms))
    ∧ ((∀ s ∈ world.sign, textOk s.text = true) →
        (∀ e ∈ world.enemy, textOk e.type_name = true) →
        ∀ pack : Bool, ∃ text doc, convert sch world pack = some text
          ∧ jsonParse text = some doc
          ∧ doc.field "entities".toList
              = some (JVal.arr ((entityNodes sch world).map Node.toJ))) := by
  refine ⟨⟨(headCalls sch world).take 10, by simp [headCalls], ?_⟩, rfl, ?_, ?_, ?_, ?_, ?_, ?_,
    ?_⟩
  · rw [convertCalls_eq]
    simp [headCalls, worldTree, worldTail, Members.ofList, Members.calls, Node.calls]
  · simp [entityNodes]
    omega
  · intro d
    exact ⟨doorCalls_eq sch d, _, by
      simp only [doorNode, Members.ofList, Node.toJ, Members.toJ, Scalar.toJ]
      rfl⟩
  · intro c
    exact ⟨cogCalls_eq c, _, by
      simp only [cogNode, Members.ofList, Node.toJ, Members.toJ, Scalar.toJ]
      rfl⟩
  · intro b
    exact ⟨buttonCalls_eq b, ⟨_, by
      simp only [buttonNode, Members.ofList, Node.toJ, Members.toJ, Scalar.toJ]
      rfl⟩,
      buttonNode_walls b⟩
  · intro s
    exact ⟨signCalls_eq s, _, by
      simp only [signNode, Members.ofList, Node.toJ, Members.toJ, Scalar.toJ]
      rfl⟩
  · intro e
    exact ⟨enemyCalls_eq e, _, by
      simp only [enemyNode, Members.ofList, Node.toJ, Members.toJ, Scalar.toJ]
      rfl⟩
  · intro hs he pack
    obtain ⟨text, h1, h2⟩ := convert_parses sch world pack (worldTree_ok sch world hs he)
    exact ⟨text, _, h1, h2, worldTree_entities sch world⟩

/-- Witness of C17: a record with one door, one button naming the doors 0 and 3, one sign and
one enemy, packed. -/
theorem entities_in_loop_order_witness :
    ∃ text doc, convert ⟨1, 1, .int32⟩
        ⟨7, 10, 12, 1, 2, 3, 4, [⟨0, 0, 1, 1, 1, 0, 2⟩], [], [⟨0, 5, 6, [0, 3], 1⟩],
          [⟨8, 9, "hi".toList⟩], [⟨"ENEMY_FIRE_IMP".toList, 1, 2, 3, 4⟩]⟩ true = some text
      ∧ jsonParse text = some doc
      ∧ doc.field "entities".toList = some (JVal.arr
          [ JVal.obj [("class".toList, .str "wall".toList), ("start".toList, .arr [.num 0, .num 0]),
              ("end".toList, .arr [.num 1, .num 1]), ("oneway".toList, .bool true),
              ("open".toList, .bool false), ("color".toList, .num 2)],
            JVal.obj [("class".toList, .str "button".toList), ("type".toList, .num 0),
              ("pos".toList, .arr [.num 5, .num 6]), ("walls".toList, .arr [.num 0, .num 3]),
              ("color".toList, .num 1)],
            JVal.obj [("class".toList, .str "sign".toList), ("pos".toList, .arr [.num 8, .num 9]),
              ("text".toList, .str "hi".toList)],
            JVal.obj [("class".toList, .str "enemy".toList), ("type".toList, .str "fire imp".toList),
              ("pos".toList, .arr [.num 1, .num 2]), ("color".toList, .num 3),
              ("angle".toList, .num 4)] ]) := by
  obtain ⟨text, doc, h1, h2, h3⟩ := (entities_in_loop_order ⟨1, 1, .int32⟩
    ⟨7, 10, 12, 1, 2, 3, 4, [⟨0, 0, 1, 1, 1, 0, 2⟩], [], [⟨0, 5, 6, [0, 3], 1⟩],
      [⟨8, 9, "hi".toList⟩], [⟨"ENEMY_FIRE_IMP".toList, 1, 2, 3, 4⟩]⟩).2.2.2.2.2.2.2.2
    (by decide) (by decide) true
  refine ⟨text, doc, h1, h2, ?_⟩
  rw [h3]
  simp [entityNodes, doorNode, buttonNode, signNode, enemyNode, Members.ofList, Elems.ofList,
    Node.toJ, Members.toJ, Elems.toJ, Scalar.toJ]
  decide

end LevelConverter
